import Mathlib

/-!
# Verification of the CommandFlow workflow control-flow graph engine

This file is a shallow embedding, in Lean 4, of the algorithmic core of the
CommandFlow repository (file `workflow_core.py`): the sandboxed expression
evaluator, the node models (action, condition, branch, loop), the
`WorkflowGraph` with its two edge indexes, the cycle check
(`topological_order`), graph validation, graph copying, and the executor.
Python dictionaries are modelled as association lists in insertion order
(Python 3.7+ semantics); Python exceptions are modelled with `Except String`;
mutating methods are modelled as functions returning the new state.

Python `str` values are `String`; Python `int` is `Int`.  Expression-string
configuration fields are modelled at the level of the parsed abstract syntax
tree (the repository parses them with `ast.parse(mode="eval")` at each
evaluation; parsing itself is host-language behaviour that is not re-modelled,
so an expression field holds the tree the string parses to).
-/

/-! ## Association-list dictionaries (Python `dict` in insertion order) -/

/-- Python `d[k] = v`: replace in place if the key exists, else append. -/
def dictSet {α : Type} (d : List (String × α)) (k : String) (v : α) :
    List (String × α) :=
  match d with
  | [] => [(k, v)]
  | (k', v') :: rest =>
      if k' = k then (k, v) :: rest else (k', v') :: dictSet rest k v

/-- Python `d.get(k)` / `d[k]` lookup. -/
def dictGet {α : Type} (d : List (String × α)) (k : String) : Option α :=
  match d with
  | [] => none
  | (k', v') :: rest => if k' = k then some v' else dictGet rest k

/-- Python `del d[k]`: drop the entry with the given key. -/
def dictDel {α : Type} (d : List (String × α)) (k : String) :
    List (String × α) :=
  d.filter (fun p => p.1 ≠ k)

/-! String primitives re-implemented over `String.data` so that concrete
runs reduce inside the kernel (the library versions use byte-position
iterators, which do not). -/

/-- Python `s.startswith(pre)`. -/
def strStartsWith (s pre : String) : Bool :=
  pre.data.isPrefixOf s.data

/-- Python `s.strip()`. -/
def strTrim (s : String) : String :=
  String.mk
    (((s.data.dropWhile Char.isWhitespace).reverse.dropWhile
        Char.isWhitespace).reverse)

def digitsToNat (cs : List Char) : Option Nat :=
  if cs.isEmpty then none
  else
    cs.foldl
      (fun acc c =>
        match acc with
        | some n => if c.isDigit then some (n * 10 + (c.toNat - 48)) else none
        | none => none)
      (some 0)

/-- Python `int(s)` on an already-stripped string (optional sign, then
decimal digits). -/
def strToInt (s : String) : Option Int :=
  match s.data with
  | Char.ofNat 45 :: rest => (digitsToNat rest).map (fun n => -(n : Int))
  | Char.ofNat 43 :: rest => (digitsToNat rest).map (fun n => (n : Int))
  | cs => (digitsToNat cs).map (fun n => (n : Int))

/-- Lexicographic (code-point) string comparison, Python `s1 < s2`. -/
def charListLt : List Char → List Char → Bool
  | [], [] => false
  | [], _ :: _ => true
  | _ :: _, [] => false
  | a :: as, b :: bs =>
      if a < b then true else if b < a then false else charListLt as bs

/-- Python substring containment `sub in s`. -/
def listContainsSub (s sub : List Char) : Bool :=
  sub.isPrefixOf s ||
    (match s with
     | [] => false
     | _ :: rest => listContainsSub rest sub)

/-- Python `k in d`. -/
def dictHas {α : Type} (d : List (String × α)) (k : String) : Bool :=
  (dictGet d k).isSome

/-- `d2` merged over `d1` (Python `m = d1.copy(); m.update(d2)`). -/
def dictMerge {α : Type} (d1 d2 : List (String × α)) : List (String × α) :=
  d2.foldl (fun m p => dictSet m p.1 p.2) d1

/-! ## Runtime values

`Value` models the Python values that flow through an `ExecutionContext`:
node results are `None`, numbers, strings, booleans, lists, or string-keyed
dictionaries.  (Floating-point results do not occur in any property verified
here and are not modelled.) -/

inductive Value where
  | none : Value
  | int (n : Int) : Value
  | str (s : String) : Value
  | bool (b : Bool) : Value
  | list (xs : List Value) : Value
  | dict (entries : List (String × Value)) : Value
deriving Repr

mutual
def valueBeq : Value → Value → Bool
  | .none, .none => true
  | .int a, .int b => a == b
  | .str a, .str b => a == b
  | .bool a, .bool b => a == b
  | .list a, .list b => valueListBeq a b
  | .dict a, .dict b => valueDictBeq a b
  | _, _ => false

def valueListBeq : List Value → List Value → Bool
  | [], [] => true
  | a :: as, b :: bs => valueBeq a b && valueListBeq as bs
  | _, _ => false

def valueDictBeq : List (String × Value) → List (String × Value) → Bool
  | [], [] => true
  | (ka, va) :: as, (kb, vb) :: bs => ka == kb && valueBeq va vb && valueDictBeq as bs
  | _, _ => false
end

instance : BEq Value := ⟨valueBeq⟩

/-- Python `bool(v)` (truthiness) on the modelled values. -/
def pyBool : Value → Bool
  | .none => false
  | .int n => n ≠ 0
  | .str s => s ≠ ""
  | .bool b => b
  | .list xs => ¬ xs.isEmpty
  | .dict d => ¬ d.isEmpty

/-- Python `int(v)`; raises `ValueError`/`TypeError` on values it cannot
convert (here: anything but `int`, `bool`, and integer-literal strings). -/
def pyInt : Value → Except String Int
  | .int n => .ok n
  | .bool b => .ok (if b then 1 else 0)
  | .str s =>
      match strToInt (strTrim s) with
      | some n => .ok n
      | none => .error "invalid literal for int()"
  | _ => .error "int() argument must be a number or string"

/-- Python `==` on the modelled values.  Python treats `bool` as a numeric
subtype of `int` (`True == 1`); values of genuinely different types compare
unequal; dictionary equality compares by key (order-insensitively).  For the
dictionary case, values found by key lookup are compared with the structural
`valueBeq` (entry order inside nested dictionaries does not arise in any
property below). -/
def pyEq (a b : Value) : Bool :=
  match a, b with
  | .int n, .bool c => n == (if c then 1 else 0)
  | .bool c, .int n => n == (if c then 1 else 0)
  | .list xs, .list ys =>
      xs.length == ys.length &&
      (List.zip xs ys).all (fun p => valueBeq p.1 p.2)
  | .dict d1, .dict d2 =>
      (d1.all (fun p => match dictGet d2 p.1 with
        | some v => valueBeq p.2 v
        | none => false)) &&
      (d2.all (fun p => match dictGet d1 p.1 with
        | some v => valueBeq p.2 v
        | none => false))
  | a, b => valueBeq a b

/-! ## The restricted expression language

`Expr` models the Python `ast` expression trees that `ast.parse(expr,
mode="eval")` can produce, at the granularity `_validate_expression_ast`
distinguishes.  The constructors up to `ifExp` model the node classes in
`_ALLOWED_EXPR_NODES`; `lambda`, `namedExpr`, `fString` and `starred` model
representative eval-mode-parseable node classes *outside* that allow-list
(`ast.Lambda`, `ast.NamedExpr`, `ast.JoinedStr`, `ast.Starred`).  `ast.Slice`
(allowed by the code) is not representable here; no verified property
involves slicing. -/

inductive BinOpK where
  | add | sub | mult | div | floorDiv | mod | pow
  | bitAnd | bitOr | bitXor
deriving DecidableEq, Repr

inductive UnaryOpK where
  | not | usub | uadd | invert
deriving DecidableEq, Repr

inductive CmpOpK where
  | eq | notEq | lt | ltE | gt | gtE | isIn | notIn | is | isNot
deriving DecidableEq, Repr

inductive BoolOpK where
  | and | or
deriving DecidableEq, Repr

inductive Expr where
  | constInt (n : Int) : Expr
  | constStr (s : String) : Expr
  | constBool (b : Bool) : Expr
  | constNone : Expr
  | name (id : String) : Expr
  | attrGet (v : Expr) (attr : String) : Expr
  | call (f : Expr) (args : List Expr) : Expr
  | binOp (op : BinOpK) (l r : Expr) : Expr
  | boolOp (op : BoolOpK) (vs : List Expr) : Expr
  | unaryOp (op : UnaryOpK) (e : Expr) : Expr
  | compare (l : Expr) (rest : List (CmpOpK × Expr)) : Expr
  | subscript (v i : Expr) : Expr
  | listLit (xs : List Expr) : Expr
  | tupleLit (xs : List Expr) : Expr
  | setLit (xs : List Expr) : Expr
  | dictLit (entries : List (Expr × Expr)) : Expr
  | ifExp (c t e : Expr) : Expr
  | lambda (body : Expr) : Expr
  | namedExpr (id : String) (v : Expr) : Expr
  | fString (parts : List Expr) : Expr
  | starred (v : Expr) : Expr
deriving Repr

/-- The call allow-list: `set(_ALLOWED_CALLABLES)` plus
`_ADDITIONAL_ALLOWED_CALLS = {"value"}`. -/
def allowedCallNames : List String :=
  ["len", "min", "max", "sum", "any", "all", "abs", "round",
   "int", "float", "str", "bool", "range", "value"]

/-- Whether this tree node, considered on its own, trips one of the checks
of `_validate_expression_ast`: a node class outside `_ALLOWED_EXPR_NODES`,
a call whose callee is not a `Name` on the allow-list, or an attribute or
name starting with a double underscore. -/
def badRoot : Expr → Bool
  | .lambda _ | .namedExpr _ _ | .fString _ | .starred _ => true
  | .call f _ =>
      match f with
      | .name id => ¬ (allowedCallNames.contains id)
      | _ => true
  | .attrGet _ attr => strStartsWith attr "__"
  | .name id => strStartsWith id "__"
  | _ => false

/-- The direct `ast` children of a node (the trees `ast.walk` would also
visit below it). -/
def exprChildren : Expr → List Expr
  | .constInt _ | .constStr _ | .constBool _ | .constNone | .name _ => []
  | .attrGet v _ => [v]
  | .call f args => f :: args
  | .binOp _ l r => [l, r]
  | .boolOp _ vs => vs
  | .unaryOp _ e => [e]
  | .compare l rest => l :: rest.map Prod.snd
  | .subscript v i => [v, i]
  | .listLit xs => xs
  | .tupleLit xs => xs
  | .setLit xs => xs
  | .dictLit entries => entries.map Prod.fst ++ entries.map Prod.snd
  | .ifExp c t e => [c, t, e]
  | .lambda body => [body]
  | .namedExpr _ v => [v]
  | .fString parts => parts
  | .starred v => [v]

/-- `s` occurs somewhere inside `e` (as `ast.walk` would reach it). -/
def Subterm (s e : Expr) : Prop :=
  Relation.ReflTransGen (fun a b => a ∈ exprChildren b) s e

mutual
/-- `_validate_expression_ast`: walk the tree and fail on the first bad node.
(`ast.walk` visits in breadth-first order; this model visits depth-first, so
on a tree with several bad nodes the *message* may differ from CPython's,
but success/failure agree.) -/
def validateExpr : Expr → Except String Unit
  | .lambda _ | .namedExpr _ _ | .fString _ | .starred _ =>
      .error "表达式包含不支持的语法"
  | .call (.name id) args =>
      if allowedCallNames.contains id then validateList args
      else .error "表达式只能调用受支持的函数"
  | .call _ _ => .error "表达式只能调用受支持的函数"
  | .attrGet v attr =>
      if strStartsWith attr "__" then .error "不允许访问以 '__' 开头的属性"
      else validateExpr v
  | .name id =>
      if strStartsWith id "__" then .error "不允许访问以 '__' 开头的名称"
      else .ok ()
  | .constInt _ | .constStr _ | .constBool _ | .constNone => .ok ()
  | .binOp _ l r => do validateExpr l; validateExpr r
  | .boolOp _ vs => validateList vs
  | .unaryOp _ e1 => validateExpr e1
  | .compare l rest => do validateExpr l; validateCmps rest
  | .subscript v i => do validateExpr v; validateExpr i
  | .listLit xs => validateList xs
  | .tupleLit xs => validateList xs
  | .setLit xs => validateList xs
  | .dictLit entries => validatePairs entries
  | .ifExp c t e1 => do validateExpr c; validateExpr t; validateExpr e1

def validateList : List Expr → Except String Unit
  | [] => .ok ()
  | e :: rest => do validateExpr e; validateList rest

def validateCmps : List (CmpOpK × Expr) → Except String Unit
  | [] => .ok ()
  | (_, e) :: rest => do validateExpr e; validateCmps rest

def validatePairs : List (Expr × Expr) → Except String Unit
  | [] => .ok ()
  | (k, v) :: rest => do validateExpr k; validateExpr v; validatePairs rest
end

/-! ## Evaluation environment and evaluator

`evaluate_expression` builds a scope holding exactly the allowed callables,
the literal overrides `True`/`False`/`None`, the `results` dictionary, the
`value` accessor, and the caller's `extra_values`, then evaluates the
compiled tree with `eval(compiled, {"__builtins__": {}}, scope)` — so name
resolution can see nothing but this scope. -/

/-- Container for node execution results (`ExecutionContext.results`). -/
abbrev ExecutionContext := List (String × Value)

/-- `ExecutionContext.record`. -/
def ctxRecord (ctx : ExecutionContext) (nodeId : String) (v : Value) :
    ExecutionContext :=
  dictSet ctx nodeId v

/-- `ExecutionContext.get` (Python `dict.get`: `None` when absent). -/
def ctxGet (ctx : ExecutionContext) (nodeId : String) : Option Value :=
  dictGet ctx nodeId

/-- The functions of `_ALLOWED_CALLABLES`. -/
inductive BuiltinF where
  | len | min | max | sum | any | all | abs | round
  | int | float | str | bool | range
deriving DecidableEq, Repr

/-- What a name in the evaluation scope can be bound to: an ordinary value,
one of the allowed host callables, or the `value` accessor
(`context.get`). -/
inductive ScopeVal where
  | val (v : Value) : ScopeVal
  | builtin (b : BuiltinF) : ScopeVal
  | valueAccessor : ScopeVal
deriving Repr

abbrev Scope := List (String × ScopeVal)

/-- The scope `evaluate_expression` evaluates in.  Python builds it with
successive `dict.update`s (callables, then `True/False/None`, then
`results`, then `value`, then `extra_values`), later entries shadowing
earlier ones; here the list is ordered highest-precedence first and lookup
takes the first match. -/
def buildScope (ctx : ExecutionContext) (extras : List (String × Value)) :
    Scope :=
  extras.map (fun p => (p.1, ScopeVal.val p.2)) ++
  [("value", ScopeVal.valueAccessor),
   ("results", ScopeVal.val (.dict ctx)),
   ("True", ScopeVal.val (.bool true)),
   ("False", ScopeVal.val (.bool false)),
   ("None", ScopeVal.val .none),
   ("len", ScopeVal.builtin .len), ("min", ScopeVal.builtin .min),
   ("max", ScopeVal.builtin .max), ("sum", ScopeVal.builtin .sum),
   ("any", ScopeVal.builtin .any), ("all", ScopeVal.builtin .all),
   ("abs", ScopeVal.builtin .abs), ("round", ScopeVal.builtin .round),
   ("int", ScopeVal.builtin .int), ("float", ScopeVal.builtin .float),
   ("str", ScopeVal.builtin .str), ("bool", ScopeVal.builtin .bool),
   ("range", ScopeVal.builtin .range)]

/-- Keys visible to name lookup (the declared bindings). -/
def scopeKeys (sc : Scope) : List String := sc.map Prod.fst

/-- Coerce to an `int` operand the way Python arithmetic does (`bool` is a
numeric type); `none` when the value is not numeric. -/
def asInt : Value → Option Int
  | .int n => some n
  | .bool b => some (if b then 1 else 0)
  | _ => none

/-- Number of elements Python's `range(a, b, st)` yields (`st ≠ 0`). -/
def rangeCount (a b st : Int) : Nat :=
  if st > 0 then (((b - a) + st - 1).fdiv st).toNat
  else (((a - b) + (-st) - 1).fdiv (-st)).toNat

def rangeList (a b st : Int) : List Value :=
  (List.range (rangeCount a b st)).map (fun i => Value.int (a + st * i))

/-- Semantics of the allowed callables on the modelled values.  Host
behaviour outside what the verified properties exercise (e.g. `float`, or
`len` of a number) is an explicit error; where Python would raise
(`TypeError`, `ValueError`) this errors as well. -/
def applyBuiltin : BuiltinF → List Value → Except String Value
  | .len, [.str s] => .ok (.int s.length)
  | .len, [.list xs] => .ok (.int xs.length)
  | .len, [.dict d] => .ok (.int d.length)
  | .len, _ => .error "len(): unsupported argument"
  | .abs, [v] =>
      match asInt v with
      | some n => .ok (.int (|n|))
      | none => .error "abs(): unsupported argument"
  | .abs, _ => .error "abs(): wrong arity"
  | .round, [v] =>
      match asInt v with
      | some n => .ok (.int n)
      | none => .error "round(): non-integer arguments not modelled"
  | .round, _ => .error "round(): wrong arity"
  | .int, [v] => (pyInt v).map Value.int
  | .int, _ => .error "int(): wrong arity"
  | .float, _ => .error "float values are not modelled"
  | .str, [.int n] => .ok (.str (toString n))
  | .str, [.str s] => .ok (.str s)
  | .str, [.bool b] => .ok (.str (if b then "True" else "False"))
  | .str, [.none] => .ok (.str "None")
  | .str, _ => .error "str(): unsupported argument"
  | .bool, [v] => .ok (.bool (pyBool v))
  | .bool, [] => .ok (.bool false)
  | .bool, _ => .error "bool(): wrong arity"
  | .sum, [.list xs] =>
      xs.foldlM (fun acc v =>
        match asInt v with
        | some n => Except.ok (acc + n)
        | none => Except.error "sum(): non-numeric element") (0 : Int)
      |>.map Value.int
  | .sum, _ => .error "sum(): unsupported argument"
  | .any, [.list xs] => .ok (.bool (xs.any pyBool))
  | .any, _ => .error "any(): unsupported argument"
  | .all, [.list xs] => .ok (.bool (xs.all pyBool))
  | .all, _ => .error "all(): unsupported argument"
  | .min, [.list xs] =>
      match xs.mapM asInt with
      | some (n :: ns) => .ok (.int (ns.foldl Min.min n))
      | some [] => .error "min() arg is an empty sequence"
      | none => .error "min(): non-numeric element"
  | .min, args =>
      match args.mapM asInt with
      | some (n :: ns) =>
          if ns.isEmpty then .error "min(): unsupported argument"
          else .ok (.int (ns.foldl Min.min n))
      | _ => .error "min(): unsupported argument"
  | .max, [.list xs] =>
      match xs.mapM asInt with
      | some (n :: ns) => .ok (.int (ns.foldl Max.max n))
      | some [] => .error "max() arg is an empty sequence"
      | none => .error "max(): non-numeric element"
  | .max, args =>
      match args.mapM asInt with
      | some (n :: ns) =>
          if ns.isEmpty then .error "max(): unsupported argument"
          else .ok (.int (ns.foldl Max.max n))
      | _ => .error "max(): unsupported argument"
  | .range, [.int n] => .ok (.list (rangeList 0 n 1))
  | .range, [.int a, .int b] => .ok (.list (rangeList a b 1))
  | .range, [.int a, .int b, .int st] =>
      if st = 0 then .error "range() arg 3 must not be zero"
      else .ok (.list (rangeList a b st))
  | .range, _ => .error "range(): unsupported argument"

/-- Python binary arithmetic on the modelled values (`//` is floor
division, `%` follows the divisor's sign, as with `Int.fdiv`/`Int.fmod`).
True division and float results are not modelled. -/
def pyBinOp (op : BinOpK) (a b : Value) : Except String Value :=
  match op, a, b with
  | .add, .str s1, .str s2 => .ok (.str (s1 ++ s2))
  | .add, .list l1, .list l2 => .ok (.list (l1 ++ l2))
  | .add, a, b =>
      match asInt a, asInt b with
      | some x, some y => .ok (.int (x + y))
      | _, _ => .error "unsupported operand type(s) for +"
  | .sub, a, b =>
      match asInt a, asInt b with
      | some x, some y => .ok (.int (x - y))
      | _, _ => .error "unsupported operand type(s) for -"
  | .mult, a, b =>
      match asInt a, asInt b with
      | some x, some y => .ok (.int (x * y))
      | _, _ => .error "unsupported operand type(s) for *"
  | .div, _, _ => .error "float values are not modelled"
  | .floorDiv, a, b =>
      match asInt a, asInt b with
      | some x, some y =>
          if y = 0 then .error "integer division or modulo by zero"
          else .ok (.int (x.fdiv y))
      | _, _ => .error "unsupported operand type(s) for //"
  | .mod, a, b =>
      match asInt a, asInt b with
      | some x, some y =>
          if y = 0 then .error "integer division or modulo by zero"
          else .ok (.int (x.fmod y))
      | _, _ => .error "unsupported operand type(s) for %"
  | .pow, a, b =>
      match asInt a, asInt b with
      | some x, some y =>
          if y < 0 then .error "float values are not modelled"
          else .ok (.int (x ^ y.toNat))
      | _, _ => .error "unsupported operand type(s) for **"
  | .bitAnd, _, _ => .error "bitwise operators are not modelled"
  | .bitOr, _, _ => .error "bitwise operators are not modelled"
  | .bitXor, _, _ => .error "bitwise operators are not modelled"

/-- Python order comparison (`<`) on the modelled values: numeric (with
`bool` as a number) or string-to-string; anything else raises
`TypeError`. -/
def pyLt (a b : Value) : Except String Bool :=
  match asInt a, asInt b with
  | some x, some y => .ok (x < y)
  | _, _ =>
      match a, b with
      | .str s1, .str s2 => .ok (charListLt s1.data s2.data)
      | _, _ => .error "comparison not supported between these types"

/-- Python `x in container`. -/
def pyIn (x container : Value) : Except String Bool :=
  match container with
  | .list xs => .ok (xs.any (pyEq x))
  | .dict d =>
      match x with
      | .str k => .ok (dictHas d k)
      | _ => .ok false
  | .str s =>
      match x with
      | .str sub => .ok (listContainsSub s.data sub.data)
      | _ => .error "in: requires string as left operand"
  | _ => .error "argument is not iterable"

/-- One comparison operator. `is`/`is not` are modelled only against
`None` (the sole identity comparison the workflow language has a use
for). -/
def pyCmpOp (op : CmpOpK) (a b : Value) : Except String Bool :=
  match op with
  | .eq => .ok (pyEq a b)
  | .notEq => .ok (! pyEq a b)
  | .lt => pyLt a b
  | .gt => pyLt b a
  | .ltE => (pyLt b a).map (! ·)
  | .gtE => (pyLt a b).map (! ·)
  | .isIn => pyIn a b
  | .notIn => (pyIn a b).map (! ·)
  | .is =>
      match a, b with
      | .none, .none => .ok true
      | .none, _ => .ok false
      | _, .none => .ok false
      | _, _ => .error "identity comparison is modelled only against None"
  | .isNot =>
      match a, b with
      | .none, .none => .ok false
      | .none, _ => .ok true
      | _, .none => .ok true
      | _, _ => .error "identity comparison is modelled only against None"

/-- Python list subscription etc. (`v[i]`), including negative indexing. -/
def pySubscript (container idx : Value) : Except String Value :=
  match container with
  | .list xs =>
      match asInt idx with
      | some i =>
          let j := if i < 0 then i + xs.length else i
          if h : 0 ≤ j ∧ j.toNat < xs.length then .ok (xs.get ⟨j.toNat, h.2⟩)
          else .error "list index out of range"
      | none => .error "list indices must be integers"
  | .str s =>
      match asInt idx with
      | some i =>
          let cs := s.data
          let j := if i < 0 then i + cs.length else i
          if h : 0 ≤ j ∧ j.toNat < cs.length then
            .ok (.str (String.mk [cs.get ⟨j.toNat, h.2⟩]))
          else .error "string index out of range"
      | none => .error "string indices must be integers"
  | .dict d =>
      match idx with
      | .str k =>
          match dictGet d k with
          | some v => .ok v
          | none => .error "KeyError"
      | _ => .error "KeyError"
  | _ => .error "object is not subscriptable"

mutual
/-- Tree-walking interpretation of a validated expression against the
scope, mirroring CPython's `eval` of the compiled tree (operand order,
short-circuiting, and error-on-failure included).  The `value` accessor is
`context.get`. -/
def evalExpr (sc : Scope) (ctx : ExecutionContext) : Expr → Except String Value
  | .constInt n => .ok (.int n)
  | .constStr s => .ok (.str s)
  | .constBool b => .ok (.bool b)
  | .constNone => .ok .none
  | .name id =>
      match dictGet sc id with
      | some (.val v) => .ok v
      | some (.builtin _) => .error "function objects as plain values are not modelled"
      | some .valueAccessor => .error "function objects as plain values are not modelled"
      | none => .error ("name '" ++ id ++ "' is not defined")
  | .attrGet v _ => do
      let _ ← evalExpr sc ctx v
      .error "attribute access on runtime values is not modelled"
  | .call (.name id) args =>
      match dictGet sc id with
      | some (.builtin b) => do
          let vs ← evalArgs sc ctx args
          applyBuiltin b vs
      | some .valueAccessor => do
          let vs ← evalArgs sc ctx args
          match vs with
          | [.str s] => .ok ((ctxGet ctx s).getD .none)
          | [.list _] => .error "unhashable type"
          | [.dict _] => .error "unhashable type"
          | [_] => .ok .none
          | _ => .error "value(): wrong number of arguments"
      | some (.val _) => do
          let _ ← evalArgs sc ctx args
          .error "object is not callable"
      | none => .error ("name '" ++ id ++ "' is not defined")
  | .call f args => do
      let _ ← evalExpr sc ctx f
      let _ ← evalArgs sc ctx args
      .error "object is not callable"
  | .binOp op l r => do
      let a ← evalExpr sc ctx l
      let b ← evalExpr sc ctx r
      pyBinOp op a b
  | .boolOp op vs => evalBoolChain sc ctx op vs
  | .unaryOp op e => do
      let v ← evalExpr sc ctx e
      match op with
      | .not => .ok (.bool (! pyBool v))
      | .usub =>
          match asInt v with
          | some n => .ok (.int (-n))
          | none => .error "bad operand type for unary -"
      | .uadd =>
          match asInt v with
          | some n => .ok (.int n)
          | none => .error "bad operand type for unary +"
      | .invert =>
          match asInt v with
          | some n => .ok (.int (-n - 1))
          | none => .error "bad operand type for unary ~"
  | .compare l rest => do
      let v ← evalExpr sc ctx l
      evalCmpChain sc ctx v rest
  | .subscript v i => do
      let a ← evalExpr sc ctx v
      let idx ← evalExpr sc ctx i
      pySubscript a idx
  | .listLit xs => do
      let vs ← evalArgs sc ctx xs
      .ok (.list vs)
  | .tupleLit xs => do
      let vs ← evalArgs sc ctx xs
      .ok (.list vs)
  | .setLit xs => do
      let vs ← evalArgs sc ctx xs
      .ok (.list vs)
  | .dictLit entries => do
      let d ← evalDictEntries sc ctx [] entries
      .ok (.dict d)
  | .ifExp c t e => do
      let b ← evalExpr sc ctx c
      if pyBool b then evalExpr sc ctx t else evalExpr sc ctx e
  | .lambda _ => .error "表达式包含不支持的语法"
  | .namedExpr _ _ => .error "表达式包含不支持的语法"
  | .fString _ => .error "表达式包含不支持的语法"
  | .starred _ => .error "表达式包含不支持的语法"

def evalArgs (sc : Scope) (ctx : ExecutionContext) :
    List Expr → Except String (List Value)
  | [] => .ok []
  | e :: rest => do
      let v ← evalExpr sc ctx e
      let vs ← evalArgs sc ctx rest
      .ok (v :: vs)

/-- `a and b and …` / `a or b or …`: return the deciding operand. -/
def evalBoolChain (sc : Scope) (ctx : ExecutionContext) (op : BoolOpK) :
    List Expr → Except String Value
  | [] => .error "malformed BoolOp"
  | [e] => evalExpr sc ctx e
  | e :: rest => do
      let v ← evalExpr sc ctx e
      match op with
      | .and => if pyBool v then evalBoolChain sc ctx op rest else .ok v
      | .or => if pyBool v then .ok v else evalBoolChain sc ctx op rest

/-- Chained comparison `a < b <= c …` with short-circuiting. -/
def evalCmpChain (sc : Scope) (ctx : ExecutionContext) (prev : Value) :
    List (CmpOpK × Expr) → Except String Value
  | [] => .ok (.bool true)
  | (op, e) :: rest => do
      let w ← evalExpr sc ctx e
      let b ← pyCmpOp op prev w
      if b then evalCmpChain sc ctx w rest else .ok (.bool false)

def evalDictEntries (sc : Scope) (ctx : ExecutionContext)
    (acc : List (String × Value)) :
    List (Expr × Expr) → Except String (List (String × Value))
  | [] => .ok acc
  | (ke, ve) :: rest => do
      let k ← evalExpr sc ctx ke
      let v ← evalExpr sc ctx ve
      match k with
      | .str s => evalDictEntries sc ctx (dictSet acc s v) rest
      | _ => .error "non-string dictionary keys are not modelled"
end

/-- `evaluate_expression(expression, context, extra_values)`: validate the
tree against the allow-list, then evaluate it in the restricted scope.
(The string-level steps — `strip`, the empty-expression error, and
`ast.parse` syntax errors — happen before the tree exists and are outside
this tree-level model.) -/
def evaluateExpression (e : Expr) (ctx : ExecutionContext)
    (extras : List (String × Value) := []) : Except String Value := do
  validateExpr e
  evalExpr (buildScope ctx extras) ctx e

/-- `evaluate_condition`: `bool(evaluate_expression(...))`. -/
def evaluateCondition (e : Expr) (ctx : ExecutionContext)
    (extras : List (String × Value) := []) : Except String Bool :=
  (evaluateExpression e ctx extras).map pyBool

/-! ## Node models

Only the node classes with algorithmic content are embedded: a
representative simple action node (`KeyDownNode`; every other action node
has the same one-in/one-out port shape and default `determine_next`), the
branch node `IfConditionNode`, the `ConditionNodeBase` comparison family,
and the two loop nodes.  A node's configuration is its `config` dictionary;
configuration values are modelled by `CValue`.  A `CValue.ref` is a
reference to a mutable Python object (list/dict) held in an explicit
`Store` — needed to reason about sharing between a graph and its copy;
`CValue.floatLit` is an opaque float literal (never computed with). -/

inductive CValue where
  | int (n : Int) : CValue
  | str (s : String) : CValue
  | bool (b : Bool) : CValue
  | floatLit (s : String) : CValue
  | expr (e : Expr) : CValue
  | ref (a : Nat) : CValue
deriving Repr

/-- A mutable Python container object (for configuration values). -/
inductive MutObj where
  | mlist (xs : List CValue) : MutObj
  | mdict (entries : List (String × CValue)) : MutObj
deriving Repr

/-- The heap of mutable configuration objects, addressed by `Nat`. -/
abbrev Store := List (Nat × MutObj)

def storeGet (st : Store) (a : Nat) : Option MutObj :=
  (st.find? (fun p => p.1 == a)).map Prod.snd

def storeSet (st : Store) (a : Nat) (o : MutObj) : Store :=
  st.map (fun p => if p.1 == a then (a, o) else p)

inductive CmpKind where
  | eq | ne | gt | ge | lt | le | contains
deriving DecidableEq, Repr

/-- The embedded node classes. -/
inductive NodeKind where
  | keyDown : NodeKind
  | ifCond : NodeKind
  | binCond (c : CmpKind) : NodeKind
  | whileLoop : NodeKind
  | forLoop : NodeKind
deriving DecidableEq, Repr

/-- `isinstance(node, ConditionNodeBase)`. -/
def isCondBase : NodeKind → Bool
  | .binCond _ => true
  | _ => false

/-- `isinstance(node, IfConditionNode)`. -/
def isIfCond : NodeKind → Bool
  | .ifCond => true
  | _ => false

/-- `isinstance(node, (WhileLoopNode, ForLoopNode))`. -/
def isLoopKind : NodeKind → Bool
  | .whileLoop | .forLoop => true
  | _ => false

def displayName : NodeKind → String
  | .keyDown => "按键按下"
  | .ifCond => "条件判断"
  | .binCond .eq => "判断等于"
  | .binCond .ne => "判断不等于"
  | .binCond .gt => "判断大于"
  | .binCond .ge => "判断大于等于"
  | .binCond .lt => "判断小于"
  | .binCond .le => "判断小于等于"
  | .binCond .contains => "判断包含"
  | .whileLoop => "While 循环"
  | .forLoop => "For 循环"

/-- `input_ports()` labels. -/
def inputPorts : NodeKind → List String
  | .ifCond => ["执行", "条件"]
  | _ => ["执行"]

/-- `output_ports()` labels. -/
def outputPorts : NodeKind → List String
  | .keyDown => ["继续"]
  | .ifCond => ["条件成立", "条件不成立"]
  | .binCond _ => ["下一步", "条件结果"]
  | .whileLoop => ["循环结束", "循环入口", "循环出口"]
  | .forLoop => ["循环结束", "循环入口", "循环出口"]

/-- `default_config()` per class.  The default expression strings `"True"`,
`"False"`, `"0"` and `"[]"` appear as their parse trees. -/
def defaultConfig : NodeKind → List (String × CValue)
  | .keyDown => [("key", .str "shift")]
  | .ifCond => [("expression", .expr (.constBool true))]
  | .binCond .contains =>
      [("left_expression", .expr (.listLit [])),
       ("right_expression", .expr (.constInt 0))]
  | .binCond _ =>
      [("left_expression", .expr (.constInt 0)),
       ("right_expression", .expr (.constInt 0))]
  | .whileLoop =>
      [("expression", .expr (.constBool false)), ("max_iterations", .int 1000)]
  | .forLoop =>
      [("start", .int 0), ("end", .int 1), ("step", .int 1),
       ("max_iterations", .int 1000)]

/-- Python `int(v)` on a configuration value (`None` when `int()` would
raise).  Opaque float literals and references error like non-numeric
objects would; an expression-valued field is a string at runtime, which
`int()` would parse only if it is an integer literal — the only integer
literal among the embedded default expressions is `"0"`. -/
def cvalueToInt : CValue → Option Int
  | .int n => some n
  | .bool b => some (if b then 1 else 0)
  | .str s => strToInt (strTrim s)
  | .expr (.constInt n) => some n
  | _ => none

/-- `validate_config` per class, returning the (possibly normalised)
configuration, mirroring the in-place updates of the Python code. -/
def validateConfig (k : NodeKind) (cfg : List (String × CValue)) :
    Except String (List (String × CValue)) :=
  match k with
  | .keyDown =>
      match dictGet cfg "key" with
      | some (.str s) =>
          if strTrim s = "" then .error "key must be a non-empty string"
          else .ok cfg
      | _ => .error "key must be a non-empty string"
  | .ifCond =>
      match dictGet cfg "expression" with
      | some (.expr _) => .ok cfg
      | _ => .error "表达式必须是字符串"
  | .binCond _ =>
      match dictGet cfg "left_expression", dictGet cfg "right_expression" with
      | some (.expr _), some (.expr _) => .ok cfg
      | _, _ => .error "表达式必须是字符串表达式"
  | .whileLoop =>
      match dictGet cfg "expression" with
      | some (.expr _) =>
          match cvalueToInt ((dictGet cfg "max_iterations").getD (.int 1000)) with
          | some m =>
              if m ≤ 0 then .error "最大迭代次数必须为正整数"
              else .ok (dictSet cfg "max_iterations" (.int m))
          | none => .error "最大迭代次数必须为正整数"
      | _ => .error "表达式必须是字符串"
  | .forLoop =>
      match cvalueToInt ((dictGet cfg "start").getD (.int 0)),
            cvalueToInt ((dictGet cfg "end").getD (.int 0)),
            cvalueToInt ((dictGet cfg "step").getD (.int 0)) with
      | some s, some e, some st =>
          let cfg1 := dictSet (dictSet (dictSet cfg "start" (.int s))
            "end" (.int e)) "step" (.int st)
          if st = 0 then .error "步长不能为 0"
          else
            match cvalueToInt ((dictGet cfg1 "max_iterations").getD (.int 1000)) with
            | some m =>
                if m ≤ 0 then .error "最大迭代次数必须为正整数"
                else .ok (dictSet cfg1 "max_iterations" (.int m))
            | none => .error "最大迭代次数必须为正整数"
      | _, _, _ => .error "start/end/step 必须为整数"

structure Node where
  id : String
  title : String
  kind : NodeKind
  config : List (String × CValue)
deriving Repr

/-- The `WorkflowNodeModel` constructor: default title on a missing or
empty title (`title or self.display_name`), defaults merged under the
caller's configuration, then `validate_config` (an invalid configuration
is a construction-time failure). -/
def mkNode (kind : NodeKind) (nodeId : String) (title : Option String := none)
    (config : Option (List (String × CValue)) := none) : Except String Node :=
  let t := match title with
    | some s => if s = "" then displayName kind else s
    | none => displayName kind
  let merged := match config with
    | none => defaultConfig kind
    | some c => dictMerge (defaultConfig kind) c
  (validateConfig kind merged).map (fun cfg => ⟨nodeId, t, kind, cfg⟩)

/-! ## The workflow graph -/

structure OutgoingEdge where
  target : String
  source_port : Int
  target_port : Int
deriving DecidableEq, Repr

structure IncomingEdge where
  source : String
  target_port : Int
  source_port : Int
deriving DecidableEq, Repr

/-- `WorkflowGraph`: the node set and the two edge indexes (forward by
source, reverse by target). -/
structure WorkflowGraph where
  nodes : List (String × Node)
  edges : List (String × List OutgoingEdge)
  reverseEdges : List (String × List IncomingEdge)
deriving Repr

def WorkflowGraph.empty : WorkflowGraph := ⟨[], [], []⟩

/-- `add_node`: reject duplicate ids, else register the node with empty
edge lists. -/
def addNode (g : WorkflowGraph) (node : Node) : Except String WorkflowGraph :=
  if dictHas g.nodes node.id then .error ("Node " ++ node.id ++ " already exists")
  else .ok
    { nodes := dictSet g.nodes node.id node
      edges := dictSet g.edges node.id []
      reverseEdges := dictSet g.reverseEdges node.id [] }

/-- Does an optional port filter accept this port (Python
`p is None or p == q`)? -/
def optMatch (f : Option Int) (p : Int) : Bool :=
  match f with
  | none => true
  | some q => q == p

/-- `add_edge`, as a state-and-exception computation: the returned graph is
the post-state, the `Option String` the exception raised, if any.  Every
check precedes both index mutations, exactly as in the source, so an error
leaves the graph untouched. -/
def addEdge (g : WorkflowGraph) (sourceId targetId : String)
    (sourcePort : Int := 0) (targetPort : Int := 0) :
    WorkflowGraph × Option String :=
  if sourceId = targetId then (g, some "Cannot connect node to itself")
  else
    match dictGet g.nodes sourceId, dictGet g.nodes targetId with
    | some sourceNode, some targetNode =>
        let sourcePorts := outputPorts sourceNode.kind
        let targetPorts := inputPorts targetNode.kind
        if sourcePorts.isEmpty then
          (g, some ("节点 " ++ sourceNode.title ++ " 不支持输出连接"))
        else if sourcePort < 0 ∨ (sourcePorts.length : Int) ≤ sourcePort then
          (g, some ("节点 " ++ sourceNode.title ++ " 的输出端口索引无效"))
        else if targetPort < 0 ∨ (targetPorts.length : Int) ≤ targetPort then
          (g, some ("节点 " ++ targetNode.title ++ " 的输入端口索引无效"))
        else if isIfCond targetNode.kind ∧ targetPort = 1 ∧
            ¬ (isCondBase sourceNode.kind ∧ sourcePort = 1) then
          (g, some ("节点 " ++ targetNode.title ++
            " 的条件输入只能连接条件判断节点的结果端口"))
        else if isCondBase sourceNode.kind ∧ sourcePort = 1 ∧
            ¬ (isIfCond targetNode.kind ∧ targetPort = 1) then
          (g, some ("节点 " ++ sourceNode.title ++
            " 的条件结果端口只能连接到条件判断控件的条件输入"))
        else
          let outs := (dictGet g.edges sourceId).getD []
          if outs.any (fun e => e.source_port == sourcePort &&
              e.target_port == targetPort && e.target == targetId) then
            (g, some "连接已存在")
          else if outs.any (fun e => e.source_port == sourcePort) then
            (g, some ("节点 " ++ sourceNode.title ++
              " 的输出端口已连接，不能重复连接"))
          else
            let incs := (dictGet g.reverseEdges targetId).getD []
            if incs.any (fun e => e.target_port == targetPort) then
              (g, some ("节点 " ++ targetNode.title ++ " 的输入端口已连接"))
            else
              ({ g with
                  edges := dictSet g.edges sourceId
                    (outs ++ [⟨targetId, sourcePort, targetPort⟩])
                  reverseEdges := dictSet g.reverseEdges targetId
                    (incs ++ [⟨sourceId, targetPort, sourcePort⟩]) },
               none)
    | _, _ => (g, some "Both nodes must exist")

/-- `remove_edge`: drop matching edges from the forward index; when
anything was dropped, symmetrically clean the reverse index. -/
def removeEdge (g : WorkflowGraph) (sourceId targetId : String)
    (sourcePort : Option Int := none) (targetPort : Option Int := none) :
    WorkflowGraph :=
  match dictGet g.edges sourceId with
  | none => g
  | some lst =>
      let hits := fun (e : OutgoingEdge) =>
        e.target == targetId && optMatch sourcePort e.source_port &&
          optMatch targetPort e.target_port
      let removed := lst.any hits
      let remaining := lst.filter (fun e => ! hits e)
      let g1 := { g with edges := dictSet g.edges sourceId remaining }
      if removed then
        match dictGet g1.reverseEdges targetId with
        | none => g1
        | some incs =>
            let keep := incs.filter (fun inc =>
              ! (inc.source == sourceId && optMatch sourcePort inc.source_port &&
                  optMatch targetPort inc.target_port))
            { g1 with reverseEdges := dictSet g1.reverseEdges targetId keep }
      else g1

/-- `remove_node`: remove each incident edge (snapshots of the incoming
then the outgoing lists, exactly as the source iterates), then delete the
node's entries from all three dictionaries. -/
def removeNode (g : WorkflowGraph) (nodeId : String) : WorkflowGraph :=
  if ¬ dictHas g.nodes nodeId then g
  else
    let g1 := ((dictGet g.reverseEdges nodeId).getD []).foldl
      (fun acc inc =>
        removeEdge acc inc.source nodeId (some inc.source_port)
          (some inc.target_port)) g
    let g2 := ((dictGet g1.edges nodeId).getD []).foldl
      (fun acc e =>
        removeEdge acc nodeId e.target (some e.source_port)
          (some e.target_port)) g1
    { nodes := dictDel g2.nodes nodeId
      edges := dictDel g2.edges nodeId
      reverseEdges := dictDel g2.reverseEdges nodeId }

/-- Sort a list of strings (Python `sorted`, code-point order), in a form
the kernel can evaluate. -/
def insertSorted (x : String) : List String → List String
  | [] => [x]
  | y :: ys =>
      if charListLt y.data x.data then y :: insertSorted x ys else x :: y :: ys

def sortStrings : List String → List String
  | [] => []
  | x :: xs => insertSorted x (sortStrings xs)

/-- `entry_nodes`: nodes with no incoming control-port (port 0) edge,
sorted. -/
def entryNodes (g : WorkflowGraph) : List String :=
  sortStrings ((g.reverseEdges.filter
    (fun p => ! p.2.any (fun e => e.target_port == 0))).map Prod.fst)

/-- `get_outgoing_target`: the first edge from `nodeId` on output
`portIndex` into input `targetPort` (default: a control input). -/
def getOutgoingTarget (g : WorkflowGraph) (nodeId : String) (portIndex : Int)
    (targetPort : Int := 0) : Option String :=
  (((dictGet g.edges nodeId).getD []).find?
    (fun e => e.source_port == portIndex && e.target_port == targetPort)).map
    (fun e => e.target)

/-- `get_incoming_edge`: the first incoming edge of `nodeId` on input
`targetPort`. -/
def getIncomingEdge (g : WorkflowGraph) (nodeId : String) (targetPort : Int) :
    Option IncomingEdge :=
  ((dictGet g.reverseEdges nodeId).getD []).find?
    (fun e => e.target_port == targetPort)

/-- `build_loop_back_map`: `tail target ↦ owning loop node`, over the
loop nodes' edges leaving output port 2 into a control input. -/
def buildLoopBackMap (g : WorkflowGraph) : List (String × String) :=
  g.nodes.foldl
    (fun m p =>
      if isLoopKind p.2.kind then
        ((dictGet g.edges p.1).getD []).foldl
          (fun m2 e =>
            if e.source_port == 2 && e.target_port == 0 then
              dictSet m2 e.target p.1
            else m2) m
      else m) []

/-- `copy`: rebuild every node through its constructor from a *shallow*
copy of its configuration (`node.config.copy()` — the configuration values
themselves, including references to mutable containers, are reused), then
append equal edge records to both indexes of the new graph.  A node whose
current configuration no longer validates makes the whole copy fail, as in
the source. -/
def copyGraph (g : WorkflowGraph) : Except String WorkflowGraph := do
  let g1 ← g.nodes.foldlM
    (fun acc p => do
      let n ← mkNode p.2.kind p.2.id (some p.2.title) (some p.2.config)
      addNode acc n)
    WorkflowGraph.empty
  let g2 := g.edges.foldl
    (fun acc p =>
      p.2.foldl
        (fun acc2 e =>
          { acc2 with
              edges := dictSet acc2.edges p.1
                (((dictGet acc2.edges p.1).getD []) ++
                  [⟨e.target, e.source_port, e.target_port⟩])
              reverseEdges := dictSet acc2.reverseEdges e.target
                (((dictGet acc2.reverseEdges e.target).getD []) ++
                  [⟨p.1, e.target_port, e.source_port⟩]) })
        acc)
    g1
  .ok g2

/-! ## Cycle check (`topological_order`, Kahn's algorithm) -/

/-- The control-edge targets reached from `c`'s forward list (edges with
`target_port != 0` are skipped), in list order. -/
def ctrlTargets (g : WorkflowGraph) (c : String) : List String :=
  ((dictGet g.edges c).getD []).filterMap
    (fun e => if e.target_port == 0 then some e.target else none)

/-- Number of entries with a (still) positive counter — the termination
measure of the Kahn loop. -/
def posCount (tmp : List (String × Int)) : Nat :=
  tmp.countP (fun p => 0 < p.2)

/-- The inner `for` loop of `topological_order`: decrement each control
neighbour's counter, enqueueing those that reach zero. -/
def processNeighbors (ns : List String) (tmp : List (String × Int))
    (pushed : List String) : List (String × Int) × List String :=
  match ns with
  | [] => (tmp, pushed)
  | v :: rest =>
      match dictGet tmp v with
      | none => processNeighbors rest tmp pushed
      | some d =>
          let tmp' := dictSet tmp v (d - 1)
          if d - 1 = 0 then processNeighbors rest tmp' (pushed ++ [v])
          else processNeighbors rest tmp' pushed

/-- The `while queue:` loop of `topological_order` (FIFO queue; each pop
appends the node to the order and decrements its control neighbours'
counters).  Fuel-indexed for kernel evaluability: each iteration strictly
decreases `queue.length + posCount tmp` (`processNeighbors_measure`), so
any fuel at least that value — as supplied by `topologicalOrder` — makes
the zero-fuel branch unreachable (`kahnLoop_of_fuel` below). -/
def kahnLoop (g : WorkflowGraph) :
    Nat → List String → List (String × Int) → List String → List String
  | 0, _, _, order => order
  | _ + 1, [], _, order => order
  | fuel + 1, current :: rest, tmp, order =>
      let pr := processNeighbors (ctrlTargets g current) tmp []
      kahnLoop g fuel (rest ++ pr.2) pr.1 (order ++ [current])

/-- `topological_order`: Kahn's algorithm over the control-port edges
(`target_port == 0`) of the *reverse* index, failing when the produced
order misses nodes. -/
def topologicalOrder (g : WorkflowGraph) : Except String (List String) :=
  let indegree := g.reverseEdges.map
    (fun p => (p.1, (p.2.countP (fun e => e.target_port == 0) : Int)))
  let queue := indegree.filterMap (fun p => if p.2 == 0 then some p.1 else none)
  let order := kahnLoop g (2 * g.reverseEdges.length + 1) queue indegree []
  if order.length == g.nodes.length then .ok order
  else .error "Workflow contains cycles"

/-! ## Graph validation -/

/-- The reachability sweep of `validate()`: depth-first over control-port
edges with an explicit stack (Python `stack.pop()` pops the top; the stack
is modelled top-first, so `entries` goes in reversed and pushes prepend in
reverse).  `fuel` dominates the number of iterations (each iteration pops
one element, and at most `|entries| + #edges` elements are ever pushed), so
the zero-fuel branch is unreachable for the fuel `workflowValidate`
supplies. -/
def dfsReach (g : WorkflowGraph) :
    Nat → List String → List String → List String
  | 0, _, reach => reach
  | _ + 1, [], reach => reach
  | fuel + 1, current :: rest, reach =>
      if current ∈ reach then dfsReach g fuel rest reach
      else
        dfsReach g fuel
          ((ctrlTargets g current).foldl (fun s t => t :: s) rest)
          (reach ++ [current])

def totalEdgeCount (g : WorkflowGraph) : Nat :=
  (g.edges.map (fun p => p.2.length)).sum

/-- One step of the per-node structural checks of `validate()`, threading
the `loop_tail_sources` map. -/
def validateNode (g : WorkflowGraph) (lts : List (String × String))
    (nodeId : String) (node : Node) : Except String (List (String × String)) :=
  let portLabels := outputPorts node.kind
  if portLabels.isEmpty then .ok lts
  else
    let nodeEdges := (dictGet g.edges nodeId).getD []
    match nodeEdges.find? (fun e => (portLabels.length : Int) ≤ e.source_port) with
    | some _ =>
        .error ("节点 " ++ node.title ++ " 的连接数据无效: 端口索引超出范围")
    | none =>
        if isCondBase node.kind then
          -- both outputs present, single-target, port 0 into a control
          -- input, port 1 not into a control input
          let check := fun (idx : Int) =>
            let forPort := nodeEdges.filter (fun e => e.source_port == idx)
            match forPort with
            | [] => Except.error (node.title ++ " 的输出端口未连接")
            | [e] =>
                if idx = 0 ∧ e.target_port ≠ 0 then
                  .error (node.title ++ " 的输出端口必须连接到执行输入端口")
                else if idx = 1 ∧ e.target_port = 0 then
                  .error (node.title ++ " 的条件结果输出必须连接到条件输入端口")
                else .ok ()
            | _ => .error (node.title ++ " 的输出端口只能连接一个目标")
          do
            let _ ← check 0
            let _ ← check 1
            .ok lts
        else if isIfCond node.kind then
          match getIncomingEdge g nodeId 1 with
          | none =>
              -- `not node.config.get("expression")`: an expression field
              -- is modelled post-parse, so a present field is a non-empty
              -- string and the missing-expression error needs the key to
              -- be absent
              match dictGet node.config "expression" with
              | some (.expr _) => .ok lts
              | _ => .error (node.title ++ " 缺少条件输入或表达式配置")
          | some conditionEdge =>
              match dictGet g.nodes conditionEdge.source with
              | none => .error (node.title ++ " 的条件输入必须来自条件判断节点")
              | some sourceNode =>
                  if ¬ isCondBase sourceNode.kind then
                    .error (node.title ++ " 的条件输入必须来自条件判断节点")
                  else if conditionEdge.source_port ≠ 1 then
                    .error (node.title ++ " 的条件输入必须连接条件节点的结果端口")
                  else .ok lts
        else if isLoopKind node.kind then
          let check := fun (idx : Int) =>
            let forPort := nodeEdges.filter (fun e => e.source_port == idx)
            match forPort with
            | [] => Except.error (node.title ++ " 的输出端口未连接")
            | [e] =>
                if e.target_port ≠ 0 then
                  .error (node.title ++ " 的输出端口必须连接到执行输入端口")
                else .ok ()
            | _ => .error (node.title ++ " 的输出端口只能连接一个目标")
          do
            let _ ← check 1
            let _ ← check 2
            match nodeEdges.find? (fun e => e.source_port == 2) with
            | none => .error (node.title ++ " 的输出端口未连接")
            | some tailEdge =>
                let tailTarget := tailEdge.target
                if tailTarget = nodeId then
                  .error (node.title ++ " 的输出端口不能连接到节点自身")
                else
                  match dictGet lts tailTarget with
                  | some previousLoop =>
                      if previousLoop ≠ nodeId then
                        .error ("节点已被循环节点用作循环结尾")
                      else .ok (dictSet lts tailTarget nodeId)
                  | none => .ok (dictSet lts tailTarget nodeId)
        else
          let controlEdges := nodeEdges.filter (fun e => e.target_port == 0)
          if 1 < controlEdges.length then
            .error (node.title ++ " 只能连接到一个后续节点，如需分支请使用条件节点")
          else .ok lts

/-- `validate()`: non-empty, exactly one entry node, all nodes reachable
from it over control-port edges, then the per-node structural checks.
Note that `validate()` never invokes `topological_order`; cycle detection
is a separate call made by the user interface before a run. -/
def workflowValidate (g : WorkflowGraph) : Except String Unit := do
  if g.nodes.isEmpty then
    throw "工作流为空"
  let entries := entryNodes g
  if entries.isEmpty then
    throw "工作流缺少入口节点，请至少保留一个没有输入连接的节点"
  if 1 < entries.length then
    throw ("检测到多个入口节点: " ++ String.intercalate ", " entries ++
      "。当前版本仅支持单一入口节点")
  let reach := dfsReach g (entries.length + totalEdgeCount g + 1)
    entries.reverse []
  if reach.length ≠ g.nodes.length then
    let unreachable :=
      sortStrings ((g.nodes.map Prod.fst).filter (fun n => n ∉ reach))
    throw ("存在无法到达的节点: " ++ String.intercalate ", " unreachable)
  let _ ← g.nodes.foldlM (fun lts p => validateNode g lts p.1 p.2)
    ([] : List (String × String))
  .ok ()

/-! ## Node behaviour (`execute` / `determine_next`) -/

/-- `self.config[key]` for an expression-string field. -/
def configExpr (n : Node) (key : String) : Except String Expr :=
  match dictGet n.config key with
  | some (.expr e) => .ok e
  | _ => .error ("KeyError: " ++ key)

/-- `int(self.config[key])`. -/
def configInt (n : Node) (key : String) : Except String Int :=
  match dictGet n.config key with
  | some v =>
      match cvalueToInt v with
      | some m => .ok m
      | none => .error "invalid literal for int()"
  | none => .error ("KeyError: " ++ key)

/-- `WhileLoopNode.execute`: read the prior iteration count from the
context (0 unless a dictionary was recorded), evaluate the guard with
`iteration` bound, and when the guard holds increment the counter —
failing once it exceeds `max_iterations` — before recording
`{condition, iteration}`.  Returns the new context and the guard value. -/
def whilePriorIteration (ctx : ExecutionContext) (nodeId : String) :
    Except String Int :=
  match ctxGet ctx nodeId with
  | some (.dict d) =>
      match dictGet d "iteration" with
      | some v => pyInt v
      | none => .ok 0
  | _ => .ok 0

def whileExecute (n : Node) (ctx : ExecutionContext) :
    Except String (ExecutionContext × Bool) := do
  let iteration ← whilePriorIteration ctx n.id
  let e ← configExpr n "expression"
  let condition ← evaluateCondition e ctx [("iteration", .int iteration)]
  let iteration1 := if condition then iteration + 1 else iteration
  if condition then
    let maxIterations ← configInt n "max_iterations"
    if maxIterations < iteration1 then
      throw "While 循环超过最大迭代次数限制"
  let record := Value.dict
    [("condition", .bool condition), ("iteration", .int iteration1)]
  .ok (ctxRecord ctx n.id record, condition)

/-- `WhileLoopNode.determine_next`: port 1 (loop entry) while the recorded
condition holds, else port 0 (finished). -/
def whileDetermineNext (g : WorkflowGraph) (n : Node) (ctx : ExecutionContext) :
    Option String :=
  let condition :=
    match ctxGet ctx n.id with
    | some (.dict d) => pyBool ((dictGet d "condition").getD .none)
    | _ => false
  if condition then getOutgoingTarget g n.id 1 else getOutgoingTarget g n.id 0

/-- The state restoration at the top of `ForLoopNode.execute`: a missing
or non-dictionary state, or one whose `completed` is truthy, restarts at
`(start, 0)`; otherwise the loop resumes from the recorded `next_value`
and `iteration`. -/
def forReadState (start : Int) (state : Option Value) :
    Except String (Int × Int) :=
  match state with
  | some (.dict d) =>
      if pyBool ((dictGet d "completed").getD .none) then .ok (start, 0)
      else do
        let c ← pyInt ((dictGet d "next_value").getD (.int start))
        let i ← pyInt ((dictGet d "iteration").getD (.int 0))
        .ok (c, i)
  | _ => .ok (start, 0)

/-- `ForLoopNode.execute`: restore or restart the loop state
(`forReadState`), then continue while the value has not passed `end` in
the direction of `step` — failing once continuing would exceed
`max_iterations` — recording
`{value, iteration, next_value, should_continue, completed}`. -/
def forExecute (n : Node) (ctx : ExecutionContext) :
    Except String (ExecutionContext × Value) := do
  let start ← configInt n "start"
  let step ← configInt n "step"
  let endv ← configInt n "end"
  let maxIterations ← configInt n "max_iterations"
  let ci ← forReadState start (ctxGet ctx n.id)
  let current := ci.1
  let shouldContinue := if 0 < step then current < endv else endv < current
  if shouldContinue then
    let iteration1 := ci.2 + 1
    if maxIterations < iteration1 then
      throw "For 循环超过最大迭代次数限制"
    let record := Value.dict
      [("value", .int current), ("iteration", .int iteration1),
       ("next_value", .int (current + step)),
       ("should_continue", .bool true), ("completed", .bool false)]
    .ok (ctxRecord ctx n.id record, record)
  else
    let record := Value.dict
      [("value", .int current), ("iteration", .int ci.2),
       ("next_value", .int current),
       ("should_continue", .bool false), ("completed", .bool true)]
    .ok (ctxRecord ctx n.id record, record)

/-- `ForLoopNode.determine_next`: port 1 (loop entry) while
`should_continue` was recorded true, else port 0 (finished). -/
def forDetermineNext (g : WorkflowGraph) (n : Node) (ctx : ExecutionContext) :
    Option String :=
  let shouldContinue :=
    match ctxGet ctx n.id with
    | some (.dict d) => pyBool ((dictGet d "should_continue").getD .none)
    | _ => false
  if shouldContinue then getOutgoingTarget g n.id 1
  else getOutgoingTarget g n.id 0

/-- Python `float(x)` restricted to integral values (the only numeric kind
modelled): used by `NumericComparisonConditionNode.transform_operands`. -/
def pyNumeric : Value → Option Int
  | .int n => some n
  | .bool b => some (if b then 1 else 0)
  | .str s => strToInt (strTrim s)
  | _ => Option.none

/-- `transform_operands`: the numeric comparison subclasses convert both
operands to numbers (or fail); the others pass them through. -/
def binCondTransform (c : CmpKind) (l r : Value) :
    Except String (Value × Value) :=
  match c with
  | .gt | .ge | .lt | .le =>
      match pyNumeric l, pyNumeric r with
      | some a, some b => .ok (.int a, .int b)
      | _, _ => .error "数值比较需要可转换为数字的结果"
  | _ => .ok (l, r)

/-- `compare` of each `ConditionNodeBase` subclass. -/
def binCondCompare (c : CmpKind) (l r : Value) : Except String Bool :=
  match c with
  | .eq => .ok (pyEq l r)
  | .ne => .ok (! pyEq l r)
  | .gt =>
      match asInt l, asInt r with
      | some a, some b => .ok (b < a)
      | _, _ => .error "条件比较失败"
  | .ge =>
      match asInt l, asInt r with
      | some a, some b => .ok (b ≤ a)
      | _, _ => .error "条件比较失败"
  | .lt =>
      match asInt l, asInt r with
      | some a, some b => .ok (a < b)
      | _, _ => .error "条件比较失败"
  | .le =>
      match asInt l, asInt r with
      | some a, some b => .ok (a ≤ b)
      | _, _ => .error "条件比较失败"
  | .contains =>
      match pyIn r l with
      | .ok b => .ok b
      | .error _ => .error "包含判断需要可迭代或字符串类型的左侧表达式"

/-- `BinaryExpressionConditionNode.execute`: evaluate both configured
expressions, transform, compare, and record
`{condition, left, right, value}`. -/
def binCondExecute (c : CmpKind) (n : Node) (ctx : ExecutionContext) :
    Except String (ExecutionContext × Bool) := do
  let le ← configExpr n "left_expression"
  let re ← configExpr n "right_expression"
  let leftValue ← evaluateExpression le ctx []
  let rightValue ← evaluateExpression re ctx []
  let lr ← binCondTransform c leftValue rightValue
  let result ← binCondCompare c lr.1 lr.2
  let record := Value.dict
    [("condition", .bool result), ("left", lr.1), ("right", lr.2),
     ("value", .bool result)]
  .ok (ctxRecord ctx n.id record, result)

/-- `IfConditionNode._evaluate_condition`: a wired condition-result input
(input port 1) takes precedence — its recorded `condition` field (or its
truthiness) decides; only without such a wire is the node's own expression
evaluated.  Returns `(result, raw value, source node id)`. -/
def ifCondEvaluateCondition (g : WorkflowGraph) (n : Node)
    (ctx : ExecutionContext) : Except String (Bool × Value × Option String) :=
  match getIncomingEdge g n.id 1 with
  | some incoming =>
      match ctxGet ctx incoming.source with
      | some (.dict d) =>
          if dictHas d "condition" then
            let cond := (dictGet d "condition").getD .none
            let raw := (dictGet d "value").getD cond
            .ok (pyBool cond, raw, some incoming.source)
          else .ok (pyBool (.dict d), .dict d, some incoming.source)
      | some .none => .error "条件输入尚未执行"
      | some sourceState => .ok (pyBool sourceState, sourceState, some incoming.source)
      | none => .error "条件输入尚未执行"
  | none => do
      let e ← configExpr n "expression"
      let raw ← evaluateExpression e ctx []
      .ok (pyBool raw, raw, none)

/-- `IfConditionNode.determine_next`: resolve the boolean, record
`{condition, value, source}`, then follow port 0 (true branch) or port 1
(false branch). -/
def ifCondDetermineNext (g : WorkflowGraph) (n : Node) (ctx : ExecutionContext) :
    Except String (ExecutionContext × Option String) := do
  let rvs ← ifCondEvaluateCondition g n ctx
  let record := Value.dict
    [("condition", .bool rvs.1), ("value", rvs.2.1),
     ("source", match rvs.2.2 with | some s => .str s | none => .none)]
  let ctx1 := ctxRecord ctx n.id record
  if rvs.1 then .ok (ctx1, getOutgoingTarget g n.id 0)
  else .ok (ctx1, getOutgoingTarget g n.id 1)

/-- `execute` dispatch.  `KeyDownNode.execute` performs its runtime effect
(`runtime.key_down`, external, no feedback into the context) and records
`"ok"`; `IfConditionNode.execute` records `{}` (the decision happens in
`determine_next`). -/
def nodeExecute (n : Node) (ctx : ExecutionContext) :
    Except String ExecutionContext :=
  match n.kind with
  | .keyDown => .ok (ctxRecord ctx n.id (.str "ok"))
  | .ifCond => .ok (ctxRecord ctx n.id (.dict []))
  | .binCond c => (binCondExecute c n ctx).map Prod.fst
  | .whileLoop => (whileExecute n ctx).map Prod.fst
  | .forLoop => (forExecute n ctx).map Prod.fst

/-- `determine_next` dispatch (the base class and the condition family
follow output port 0). -/
def nodeDetermineNext (n : Node) (g : WorkflowGraph) (ctx : ExecutionContext) :
    Except String (ExecutionContext × Option String) :=
  match n.kind with
  | .keyDown => .ok (ctx, getOutgoingTarget g n.id 0)
  | .binCond _ => .ok (ctx, getOutgoingTarget g n.id 0)
  | .ifCond => ifCondDetermineNext g n ctx
  | .whileLoop => .ok (ctx, whileDetermineNext g n ctx)
  | .forLoop => .ok (ctx, forDetermineNext g n ctx)

/-! ## Executor -/

/-- The loop-tail override in `_run_from`: if the node just executed is a
registered loop-tail target, the next node is the owning loop node,
whatever `determine_next` returned. -/
def execOverride (loopBackMap : List (String × String)) (current : String)
    (nextId : Option String) : Option String :=
  match dictGet loopBackMap current with
  | some loopController => some loopController
  | none => nextId

/-- `WorkflowExecutor._run_from` (with `should_stop = None`), fuelled: one
iteration of the `while current is not None` loop per fuel unit.  Any fuel
above `max_steps + 1 - executed_steps` is enough, since the step counter
errors out first; `executorRun` supplies such fuel.  Also returns the list
of node ids executed, the observable the executor specification speaks
about. -/
def runFromAux (g : WorkflowGraph) (lm : List (String × String))
    (maxSteps : Int) :
    Nat → String → ExecutionContext → Int →
      List String × Except String (ExecutionContext × Int)
  | 0, _, _, _ => ([], .error "执行步数超过上限，可能存在无限循环")
  | fuel + 1, current, ctx, steps =>
      match dictGet g.nodes current with
      | none => ([], .error ("节点 " ++ current ++ " 不存在"))
      | some node =>
          let steps1 := steps + 1
          if maxSteps < steps1 then
            ([], .error "执行步数超过上限，可能存在无限循环")
          else
            match nodeExecute node ctx with
            | .error e =>
                ([current], .error ("Node " ++ node.title ++ " failed: " ++ e))
            | .ok ctx1 =>
                match nodeDetermineNext node g ctx1 with
                | .error e => ([current], .error e)
                | .ok (ctx2, nextId) =>
                    match execOverride lm current nextId with
                    | none => ([current], .ok (ctx2, steps1))
                    | some nextNode =>
                        let r := runFromAux g lm maxSteps fuel nextNode ctx2 steps1
                        (current :: r.1, r.2)

/-- `WorkflowExecutor.run` (with `should_stop = None`): validate, build the
loop-tail map, then walk from each entry node (exactly one after
validation), threading the context and the global step counter. -/
def executorRun (g : WorkflowGraph) (maxSteps : Int := 10000) :
    Except String (ExecutionContext × Int) := do
  if maxSteps ≤ 0 then throw "max_steps must be positive"
  workflowValidate g
  let lm := buildLoopBackMap g
  (entryNodes g).foldlM
    (fun (acc : ExecutionContext × Int) startId =>
      (runFromAux g lm maxSteps (maxSteps.toNat + 2) startId acc.1 acc.2).2)
    (([], 0) : ExecutionContext × Int)

/-! ## The validator rejects exactly the trees containing a bad node -/

/-- The expression contains (at the root or anywhere below) a construct
`_validate_expression_ast` rejects. -/
def HasBad (e : Expr) : Prop :=
  ∃ s, Subterm s e ∧ badRoot s = true

/-! ## Loop-node claims -/

/-- The result of the `k`-th repeated `execute` call of a While node on a
context that starts empty. -/
def iterateWhile (n : Node) : Nat → Except String (ExecutionContext × Bool)
  | 0 => .ok ([], false)
  | k + 1 => do
      let p ← iterateWhile n k
      whileExecute n p.1

/-- The result of the `k`-th repeated `execute` call of a For node on a
context that starts empty. -/
def iterateFor (n : Node) : Nat → Except String (ExecutionContext × Value)
  | 0 => .ok ([], .none)
  | k + 1 => do
      let p ← iterateFor n k
      forExecute n p.1

/-- A While node with an always-true guard and `max_iterations = 5` (the
value `mkNode` constructs for that configuration). -/
def whileAlways5 : Node :=
  ⟨"w", "While 循环", .whileLoop,
   [("expression", .expr (.constBool true)), ("max_iterations", .int 5)]⟩

/-- A For node with `start=0, end=3, step=1`. -/
def for03 : Node :=
  ⟨"f", "For 循环", .forLoop,
   [("start", .int 0), ("end", .int 3), ("step", .int 1),
    ("max_iterations", .int 1000)]⟩

/-! ## Branch-node claim (C8) -/

/-- Build helpers for concrete graphs: apply a mutation, keeping the old
state when the operation raises (exactly the caller-visible state, since
the operations mutate nothing before raising). -/
def addNodeD (g : WorkflowGraph) (n : Except String Node) : WorkflowGraph :=
  match n with
  | .ok node =>
      match addNode g node with
      | .ok g2 => g2
      | .error _ => g
  | .error _ => g

def addEdgeD (g : WorkflowGraph) (s t : String) (sp tp : Int) :
    WorkflowGraph :=
  (addEdge g s t sp tp).1

/-- An equals-condition node comparing the literal 5 with the literal
`r`. -/
def eqNode (r : Int) : Except String Node :=
  mkNode (.binCond .eq) "e" none
    (some [("left_expression", .expr (.constInt 5)),
           ("right_expression", .expr (.constInt r))])

/-- Branch graph: equals node `e` wired into branch node `brn` (control
into port 0, condition result into port 1), true branch to `t1`, false
branch to `t2`. -/
def branchGraph (r : Int) : WorkflowGraph :=
  addEdgeD (addEdgeD (addEdgeD (addEdgeD
    (addNodeD (addNodeD (addNodeD (addNodeD WorkflowGraph.empty (eqNode r))
      (mkNode .ifCond "brn"))
      (mkNode .keyDown "t1"))
      (mkNode .keyDown "t2"))
    "e" "brn" 0 0) "e" "brn" 1 1) "brn" "t1" 0 0) "brn" "t2" 1 0

/-! ## `add_edge` error contract (C2) -/

/-- The failure conditions the specification lists for `add_edge`: missing
node, port out of declared range, occupied source output or target input
port, self-connection, or violated condition-result pairing rules. -/
def AddEdgeFails (g : WorkflowGraph) (sourceId targetId : String)
    (sourcePort targetPort : Int) : Prop :=
  sourceId = targetId ∨
  match dictGet g.nodes sourceId, dictGet g.nodes targetId with
  | some sn, some tn =>
      sourcePort < 0 ∨ ((outputPorts sn.kind).length : Int) ≤ sourcePort ∨
      targetPort < 0 ∨ ((inputPorts tn.kind).length : Int) ≤ targetPort ∨
      ((dictGet g.edges sourceId).getD []).any
        (fun e => e.source_port == sourcePort) = true ∨
      ((dictGet g.reverseEdges targetId).getD []).any
        (fun e => e.target_port == targetPort) = true ∨
      (isIfCond tn.kind ∧ targetPort = 1 ∧
        ¬ (isCondBase sn.kind ∧ sourcePort = 1)) ∨
      (isCondBase sn.kind ∧ sourcePort = 1 ∧
        ¬ (isIfCond tn.kind ∧ targetPort = 1))
  | _, _ => True

/-! ## Graph-index invariants (C7)

The invariants are stated through `dictGet`, the lookup every graph
operation itself goes through. -/

/-- The forward index records an edge from `(u, sp)` to `(v, tp)`. -/
def FwdEdge (g : WorkflowGraph) (u : String) (sp : Int) (v : String)
    (tp : Int) : Prop :=
  ∃ l, dictGet g.edges u = some l ∧ (⟨v, sp, tp⟩ : OutgoingEdge) ∈ l

/-- The reverse index records an edge from `(u, sp)` to `(v, tp)`. -/
def RevEdge (g : WorkflowGraph) (u : String) (sp : Int) (v : String)
    (tp : Int) : Prop :=
  ∃ l, dictGet g.reverseEdges v = some l ∧ (⟨u, tp, sp⟩ : IncomingEdge) ∈ l

/-- At most one edge originates from each `(node, output port)` pair. -/
def SrcUnique (g : WorkflowGraph) : Prop :=
  ∀ u l, dictGet g.edges u = some l →
    l.Pairwise (fun e1 e2 => e1.source_port ≠ e2.source_port)

/-- At most one edge terminates at each `(node, input port)` pair. -/
def TgtUnique (g : WorkflowGraph) : Prop :=
  ∀ v l, dictGet g.reverseEdges v = some l →
    l.Pairwise (fun e1 e2 => e1.target_port ≠ e2.target_port)

/-- The two indexes describe exactly the same edge set. -/
def SameEdgeSet (g : WorkflowGraph) : Prop :=
  ∀ u sp v tp, FwdEdge g u sp v tp ↔ RevEdge g u sp v tp

/-- Auxiliary bookkeeping: the three dictionaries have the same key set
(each `add_node` installs all three entries together; each `remove_node`
deletes all three). -/
def KeysAligned (g : WorkflowGraph) : Prop :=
  ∀ k, (dictHas g.edges k = dictHas g.nodes k) ∧
    (dictHas g.reverseEdges k = dictHas g.nodes k)

def GraphInv (g : WorkflowGraph) : Prop :=
  SrcUnique g ∧ TgtUnique g ∧ SameEdgeSet g ∧ KeysAligned g

/-- The graph-mutation operations of `WorkflowGraph`. -/
inductive GraphOp where
  | addNode (n : Node) : GraphOp
  | removeNode (id : String) : GraphOp
  | addEdge (s t : String) (sp tp : Int) : GraphOp
  | removeEdge (s t : String) (sp tp : Option Int) : GraphOp

/-- Apply one mutation; a raising operation leaves the state unchanged
(`add_node` checks before mutating, `add_edge` likewise —
`C2_add_edge_contract`). -/
def applyOp (g : WorkflowGraph) : GraphOp → WorkflowGraph
  | .addNode n =>
      match addNode g n with
      | .ok g2 => g2
      | .error _ => g
  | .removeNode id => removeNode g id
  | .addEdge s t sp tp => (addEdge g s t sp tp).1
  | .removeEdge s t sp tp => removeEdge g s t sp tp

/-- Graphs reachable from the empty graph by some operation sequence. -/
def ReachableGraph (g : WorkflowGraph) : Prop :=
  ∃ ops : List GraphOp, g = ops.foldl applyOp WorkflowGraph.empty

/-! ## Graph copying (C9) -/

/-- Observation function for shared mutable configuration state: look up a
node's configuration value and, when it is a reference to a mutable
container, dereference it in the store. -/
def configDeref (st : Store) (g : WorkflowGraph) (nodeId key : String) :
    Option MutObj :=
  match dictGet g.nodes nodeId with
  | some n =>
      match dictGet n.config key with
      | some (.ref a) => storeGet st a
      | _ => none
  | none => none

/-- A one-node graph whose configuration holds a reference to a mutable
list (heap address 0). -/
def gS9 : WorkflowGraph :=
  addNodeD WorkflowGraph.empty
    (mkNode .keyDown "n" (some "N") (some [("tags", CValue.ref 0)]))

/-! ## Executor traversal shape (C6) -/

/-- One traversal step along a control edge: an edge from some output port
of `a` into the control input (port 0) of `b` — the only kind of edge any
`determine_next` follows. -/
def CtrlStep (g : WorkflowGraph) (a b : String) : Prop :=
  ∃ sp, FwdEdge g a sp b 0

/-- Two action nodes `a → b` joined by a single control edge. -/
def gAB : WorkflowGraph :=
  addEdgeD (addNodeD (addNodeD WorkflowGraph.empty
    (mkNode .keyDown "a")) (mkNode .keyDown "b")) "a" "b" 0 0

/-! ## `topological_order` as a cycle check (C1) -/

/-- The claim's relation: control-port edges except recognized loop
tails (edges leaving a While/For loop node's output port 2). -/
def NonLoopTailCtrl (g : WorkflowGraph) (a b : String) : Prop :=
  ∃ sp, FwdEdge g a sp b 0 ∧
    ¬ (sp = 2 ∧ ∃ n, dictGet g.nodes a = some n ∧ isLoopKind n.kind = true)

/-- A node still waiting on an unprocessed control predecessor. -/
def UnP (g : WorkflowGraph) (order : List String) (v : String) : Prop :=
  ∃ p, CtrlStep g p v ∧ p ∉ order

/-- Loop invariant of the Kahn loop of `topological_order`, for graphs
whose control in-degree is at most one: `tmp` holds 1 exactly for nodes
whose (unique) control predecessor is still unprocessed, processed and
queued nodes are distinct keys of the reverse index, a node is processed
or queued exactly when it has no control predecessor or its predecessor
is processed, and every processed node's predecessors precede it. -/
structure KInv (g : WorkflowGraph) (queue : List String)
    (tmp : List (String × Int)) (order : List String) : Prop where
  tmp1 : ∀ v, dictHas g.reverseEdges v = true → UnP g order v →
    dictGet tmp v = some 1
  tmp0 : ∀ v, dictHas g.reverseEdges v = true → ¬ UnP g order v →
    dictGet tmp v = some 0
  nd : (order ++ queue).Nodup
  sub : ∀ x ∈ order ++ queue, dictHas g.reverseEdges x = true
  mem_iff : ∀ v, dictHas g.reverseEdges v = true →
    (v ∈ order ++ queue ↔
      ((¬ ∃ p, CtrlStep g p v) ∨ ∃ p, CtrlStep g p v ∧ p ∈ order))
  orderOK : ∀ pre v post, order = pre ++ v :: post →
    ∀ p, CtrlStep g p v → p ∈ pre

/-- A While loop `w` with its loop-tail edge (output port 2) into `t`, and
`t` wired back into `w`'s control input: the only control cycle goes
through the recognized loop-tail edge. -/
def gC1 : WorkflowGraph :=
  addEdgeD (addEdgeD (addNodeD (addNodeD WorkflowGraph.empty
    (mkNode .whileLoop "w")) (mkNode .keyDown "t")) "w" "t" 2 0) "t" "w" 0 0

theorem dictGet_dictSet_same {α : Type} (d : List (String × α)) (k : String)
    (v : α) : dictGet (dictSet d k v) k = some v := by
  induction d with
  | nil => simp [dictSet, dictGet]
  | cons p rest ih =>
      by_cases h : p.1 = k
      · simp [dictSet, dictGet, h]
      · simp [dictSet, dictGet, h, ih]

theorem dictGet_dictSet_ne {α : Type} (d : List (String × α)) (k k' : String)
    (v : α) (h : k ≠ k') : dictGet (dictSet d k v) k' = dictGet d k' := by
  induction d with
  | nil => simp [dictSet, dictGet, h]
  | cons p rest ih =>
      by_cases hp : p.1 = k
      · simp [dictSet, dictGet, hp, h]
      · simp [dictSet, dictGet, hp, ih]

theorem posCount_dictSet_dec (tmp : List (String × Int)) (v : String) (d : Int)
    (h : dictGet tmp v = some d) :
    posCount (dictSet tmp v (d - 1)) + (if d - 1 = 0 then 1 else 0) ≤
      posCount tmp := by
  induction tmp with
  | nil => simp [dictGet] at h
  | cons p rest ih =>
      by_cases hp : p.1 = v
      · simp [dictGet, hp] at h
        subst h
        simp only [dictSet, hp, if_pos rfl]
        by_cases h1 : p.2 - 1 = 0
        · have hpos : 0 < p.2 := by omega
          have hnpos : ¬ (0 < p.2 - 1) := by omega
          simp [posCount, List.countP_cons, h1, hpos, hnpos]
        · have : (0 < p.2 - 1) → 0 < p.2 := by omega
          simp only [posCount, List.countP_cons, if_neg h1]
          by_cases h2 : 0 < p.2 - 1
          · have h3 : 0 < p.2 := this h2
            simp [h2, h3]
          · by_cases h3 : 0 < p.2 <;> simp [h2, h3]
      · simp only [dictGet, if_neg hp] at h
        have := ih h
        simp only [dictSet, if_neg hp]
        simp only [posCount, List.countP_cons] at *
        omega

theorem processNeighbors_measure (ns : List String) :
    ∀ (tmp : List (String × Int)) (pushed : List String),
    posCount (processNeighbors ns tmp pushed).1 +
      (processNeighbors ns tmp pushed).2.length ≤
    posCount tmp + pushed.length := by
  induction ns with
  | nil => intro tmp pushed; simp [processNeighbors]
  | cons v rest ih =>
      intro tmp pushed
      simp only [processNeighbors]
      cases h : dictGet tmp v with
      | none => exact ih tmp pushed
      | some d =>
          by_cases h1 : d - 1 = 0
          · simp only [if_pos h1]
            have hm := posCount_dictSet_dec tmp v d h
            rw [if_pos h1] at hm
            have := ih (dictSet tmp v (d - 1)) (pushed ++ [v])
            simp only [List.length_append, List.length_cons,
              List.length_nil] at this ⊢
            omega
          · simp only [if_neg h1]
            have hm := posCount_dictSet_dec tmp v d h
            rw [if_neg h1] at hm
            have := ih (dictSet tmp v (d - 1)) pushed
            omega

theorem subterm_refl (e : Expr) : Subterm e e := Relation.ReflTransGen.refl

theorem subterm_iff (s e : Expr) :
    Subterm s e ↔ s = e ∨ ∃ c ∈ exprChildren e, Subterm s c := by
  constructor
  · intro h
    rcases Relation.ReflTransGen.cases_tail h with h1 | ⟨c, hsc, hce⟩
    · exact Or.inl h1.symm
    · exact Or.inr ⟨c, hce, hsc⟩
  · rintro (rfl | ⟨c, hce, hsc⟩)
    · exact subterm_refl s
    · exact Relation.ReflTransGen.tail hsc hce

theorem hasBad_iff (e : Expr) :
    HasBad e ↔ badRoot e = true ∨ ∃ c ∈ exprChildren e, HasBad c := by
  constructor
  · rintro ⟨s, hs, hb⟩
    rcases (subterm_iff s e).1 hs with rfl | ⟨c, hce, hsc⟩
    · exact Or.inl hb
    · exact Or.inr ⟨c, hce, s, hsc, hb⟩
  · rintro (hb | ⟨c, hce, s, hsc, hb⟩)
    · exact ⟨e, subterm_refl e, hb⟩
    · exact ⟨s, (subterm_iff s e).2 (Or.inr ⟨c, hce, hsc⟩), hb⟩

theorem exceptBindError {alpha beta : Type} (m : String)
    (f : alpha → Except String beta) :
    ((Except.error m : Except String alpha) >>= f) = .error m := rfl

theorem exceptBindOk {alpha beta : Type} (a : alpha)
    (f : alpha → Except String beta) :
    ((Except.ok a : Except String alpha) >>= f) = f a := rfl

theorem validateList_ok_iff (xs : List Expr) :
    validateList xs = .ok () ↔ ∀ c ∈ xs, validateExpr c = .ok () := by
  induction xs with
  | nil => simp [validateList]
  | cons x rest ih =>
      simp only [validateList]
      cases h : validateExpr x with
      | error m => simp [h, exceptBindError]
      | ok u => cases u; simp [h, exceptBindOk, ih]

theorem validateCmps_ok_iff (xs : List (CmpOpK × Expr)) :
    validateCmps xs = .ok () ↔ ∀ c ∈ xs, validateExpr c.2 = .ok () := by
  induction xs with
  | nil => simp [validateCmps]
  | cons x rest ih =>
      simp only [validateCmps]
      cases h : validateExpr x.2 with
      | error m => simp [h, exceptBindError]
      | ok u => cases u; simp [h, exceptBindOk, ih]

theorem validatePairs_ok_iff (xs : List (Expr × Expr)) :
    validatePairs xs = .ok () ↔
      ∀ c ∈ xs, validateExpr c.1 = .ok () ∧ validateExpr c.2 = .ok () := by
  induction xs with
  | nil => simp [validatePairs]
  | cons x rest ih =>
      simp only [validatePairs]
      cases h1 : validateExpr x.1 with
      | error m => simp [h1, exceptBindError]
      | ok u =>
          cases u
          cases h2 : validateExpr x.2 with
          | error m => simp [h1, h2, exceptBindError, exceptBindOk]
          | ok u2 => cases u2; simp [h1, h2, exceptBindOk, ih]

theorem sizeOf_fst_lt_pair {α β : Type} [SizeOf α] [SizeOf β] (p : α × β) :
    sizeOf p.1 < sizeOf p := by
  obtain ⟨a, b⟩ := p
  simp only [Prod.mk.sizeOf_spec]
  omega

theorem sizeOf_snd_lt_pair {α β : Type} [SizeOf α] [SizeOf β] (p : α × β) :
    sizeOf p.2 < sizeOf p := by
  obtain ⟨a, b⟩ := p
  simp only [Prod.mk.sizeOf_spec]
  omega

theorem sizeOf_lt_of_mem_children {e c : Expr} (h : c ∈ exprChildren e) :
    sizeOf c < sizeOf e := by
  cases e with
  | constInt n => simp [exprChildren] at h
  | constStr s => simp [exprChildren] at h
  | constBool b => simp [exprChildren] at h
  | constNone => simp [exprChildren] at h
  | name id => simp [exprChildren] at h
  | attrGet v attr =>
      simp only [exprChildren, List.mem_singleton] at h
      subst h; simp; omega
  | call f args =>
      simp only [exprChildren, List.mem_cons] at h
      rcases h with rfl | h
      · simp; omega
      · have := List.sizeOf_lt_of_mem h
        simp; omega
  | binOp op l r =>
      simp only [exprChildren, List.mem_cons, List.not_mem_nil] at h
      rcases h with rfl | rfl | h
      · simp; omega
      · simp
      · exact absurd h (by simp)
  | boolOp op vs =>
      simp only [exprChildren] at h
      have := List.sizeOf_lt_of_mem h
      simp; omega
  | unaryOp op e1 =>
      simp only [exprChildren, List.mem_singleton] at h
      subst h; simp
  | compare l rest =>
      simp only [exprChildren, List.mem_cons] at h
      rcases h with rfl | h
      · simp; omega
      · rcases List.mem_map.1 h with ⟨p, hp, rfl⟩
        have h1 := sizeOf_snd_lt_pair p
        have h2 := List.sizeOf_lt_of_mem hp
        simp; omega
  | subscript v i =>
      simp only [exprChildren, List.mem_cons, List.not_mem_nil] at h
      rcases h with rfl | rfl | h
      · simp; omega
      · simp
      · exact absurd h (by simp)
  | listLit xs =>
      simp only [exprChildren] at h
      have := List.sizeOf_lt_of_mem h
      simp; omega
  | tupleLit xs =>
      simp only [exprChildren] at h
      have := List.sizeOf_lt_of_mem h
      simp; omega
  | setLit xs =>
      simp only [exprChildren] at h
      have := List.sizeOf_lt_of_mem h
      simp; omega
  | dictLit entries =>
      simp only [exprChildren, List.mem_append] at h
      rcases h with h | h
      · rcases List.mem_map.1 h with ⟨p, hp, rfl⟩
        have h1 := sizeOf_fst_lt_pair p
        have h2 := List.sizeOf_lt_of_mem hp
        simp; omega
      · rcases List.mem_map.1 h with ⟨p, hp, rfl⟩
        have h1 := sizeOf_snd_lt_pair p
        have h2 := List.sizeOf_lt_of_mem hp
        simp; omega
  | ifExp c1 t e1 =>
      simp only [exprChildren, List.mem_cons, List.not_mem_nil] at h
      rcases h with rfl | rfl | rfl | h
      · simp; omega
      · simp; omega
      · simp
      · exact absurd h (by simp)
  | lambda body =>
      simp only [exprChildren, List.mem_singleton] at h
      subst h; simp
  | namedExpr id v =>
      simp only [exprChildren, List.mem_singleton] at h
      subst h; simp
  | fString parts =>
      simp only [exprChildren] at h
      have := List.sizeOf_lt_of_mem h
      simp; omega
  | starred v =>
      simp only [exprChildren, List.mem_singleton] at h
      subst h; simp

theorem seqOk_iff (a b : Except String Unit) :
    (a >>= fun _ => b) = .ok () ↔ (a = .ok () ∧ b = .ok ()) := by
  cases a with
  | error m => simp [exceptBindError]
  | ok u => cases u; simp [exceptBindOk]

theorem allowed_not_dunder :
    ∀ id ∈ allowedCallNames, strStartsWith id "__" = false := by decide

/-- `_validate_expression_ast` accepts a tree exactly when no node of the
tree (in the `ast.walk` sense) is a disallowed construct, a call off the
allow-list, or a double-underscore name or attribute. -/
theorem validateExpr_ok_iff_aux :
    ∀ (n : Nat) (e : Expr), sizeOf e ≤ n →
      (validateExpr e = .ok () ↔ ∀ s, Subterm s e → badRoot s = false) := by
  intro n
  induction n with
  | zero =>
      intro e he
      exact absurd he (by cases e <;> simp)
  | succ n ih =>
      intro e he
      have hsub : (∀ s, Subterm s e → badRoot s = false) ↔
          (badRoot e = false ∧
            ∀ c ∈ exprChildren e, ∀ s, Subterm s c → badRoot s = false) := by
        constructor
        · intro h
          exact ⟨h e (subterm_refl e),
            fun c hc s hs => h s ((subterm_iff s e).2 (Or.inr ⟨c, hc, hs⟩))⟩
        · rintro ⟨h1, h2⟩ s hs
          rcases (subterm_iff s e).1 hs with rfl | ⟨c, hc, hsc⟩
          · exact h1
          · exact h2 c hc s hsc
      have ihc : ∀ c ∈ exprChildren e,
          (validateExpr c = .ok () ↔ ∀ s, Subterm s c → badRoot s = false) :=
        fun c hc => ih c (by
          have := sizeOf_lt_of_mem_children hc
          omega)
      have hch : (∀ c ∈ exprChildren e, ∀ s, Subterm s c → badRoot s = false) ↔
          (∀ c ∈ exprChildren e, validateExpr c = .ok ()) := by
        constructor
        · intro h c hc
          exact (ihc c hc).2 (h c hc)
        · intro h c hc
          exact (ihc c hc).1 (h c hc)
      rw [hsub, hch]
      clear hsub hch ihc ih he
      cases e with
      | constInt m => simp [validateExpr, badRoot, exprChildren]
      | constStr s => simp [validateExpr, badRoot, exprChildren]
      | constBool b => simp [validateExpr, badRoot, exprChildren]
      | constNone => simp [validateExpr, badRoot, exprChildren]
      | name id =>
          by_cases hd : strStartsWith id "__" <;>
            simp [validateExpr, badRoot, exprChildren, hd]
      | attrGet v attr =>
          by_cases hd : strStartsWith attr "__" <;>
            simp [validateExpr, badRoot, exprChildren, hd]
      | call f args =>
          cases f with
          | name id =>
              by_cases hid : id ∈ allowedCallNames
              · have hnd := allowed_not_dunder id hid
                have hc : allowedCallNames.contains id = true :=
                  List.elem_eq_true_of_mem hid
                simp [validateExpr, badRoot, exprChildren, hid, hc,
                  validateList_ok_iff, validateExpr, hnd]
              · have hc : allowedCallNames.contains id = false := by
                  cases h2 : allowedCallNames.contains id
                  · rfl
                  · exact absurd (List.mem_of_elem_eq_true h2) hid
                simp [validateExpr, badRoot, exprChildren, hid, hc]
          | constInt m => simp [validateExpr, badRoot]
          | constStr s => simp [validateExpr, badRoot]
          | constBool b => simp [validateExpr, badRoot]
          | constNone => simp [validateExpr, badRoot]
          | attrGet v a => simp [validateExpr, badRoot]
          | call f2 a2 => simp [validateExpr, badRoot]
          | binOp op l r => simp [validateExpr, badRoot]
          | boolOp op vs => simp [validateExpr, badRoot]
          | unaryOp op e1 => simp [validateExpr, badRoot]
          | compare l rest => simp [validateExpr, badRoot]
          | subscript v i => simp [validateExpr, badRoot]
          | listLit xs => simp [validateExpr, badRoot]
          | tupleLit xs => simp [validateExpr, badRoot]
          | setLit xs => simp [validateExpr, badRoot]
          | dictLit en => simp [validateExpr, badRoot]
          | ifExp c1 t e1 => simp [validateExpr, badRoot]
          | lambda body => simp [validateExpr, badRoot]
          | namedExpr id v => simp [validateExpr, badRoot]
          | fString parts => simp [validateExpr, badRoot]
          | starred v => simp [validateExpr, badRoot]
      | binOp op l r =>
          simp only [validateExpr, seqOk_iff, badRoot, exprChildren]
          simp
      | boolOp op vs =>
          simp [validateExpr, badRoot, exprChildren, validateList_ok_iff]
      | unaryOp op e1 =>
          simp [validateExpr, badRoot, exprChildren]
      | compare l rest =>
          simp only [validateExpr, seqOk_iff, badRoot, exprChildren,
            validateCmps_ok_iff, true_and]
          constructor
          · rintro ⟨h1, h2⟩
            intro c hc
            rcases List.mem_cons.1 hc with rfl | hc2
            · exact h1
            · rcases List.mem_map.1 hc2 with ⟨p, hp, rfl⟩
              exact h2 p hp
          · intro h
            refine ⟨h l (List.mem_cons_self l _), ?_⟩
            intro p hp
            exact h p.2 (List.mem_cons.2 (Or.inr (List.mem_map.2 ⟨p, hp, rfl⟩)))
      | subscript v i =>
          simp only [validateExpr, seqOk_iff, badRoot, exprChildren]
          simp
      | listLit xs =>
          simp [validateExpr, badRoot, exprChildren, validateList_ok_iff]
      | tupleLit xs =>
          simp [validateExpr, badRoot, exprChildren, validateList_ok_iff]
      | setLit xs =>
          simp [validateExpr, badRoot, exprChildren, validateList_ok_iff]
      | dictLit entries =>
          simp only [validateExpr, badRoot, exprChildren,
            validatePairs_ok_iff, true_and]
          constructor
          · intro h
            intro c hc
            rcases List.mem_append.1 hc with hc1 | hc2
            · rcases List.mem_map.1 hc1 with ⟨p, hp, rfl⟩
              exact (h p hp).1
            · rcases List.mem_map.1 hc2 with ⟨p, hp, rfl⟩
              exact (h p hp).2
          · intro h p hp
            exact ⟨h p.1 (List.mem_append.2 (Or.inl (List.mem_map.2 ⟨p, hp, rfl⟩))),
              h p.2 (List.mem_append.2 (Or.inr (List.mem_map.2 ⟨p, hp, rfl⟩)))⟩
      | ifExp c1 t e1 =>
          simp only [validateExpr, seqOk_iff, badRoot, exprChildren]
          simp
      | lambda body => simp [validateExpr, badRoot]
      | namedExpr id v => simp [validateExpr, badRoot]
      | fString parts => simp [validateExpr, badRoot]
      | starred v => simp [validateExpr, badRoot]

theorem validateExpr_ok_iff (e : Expr) :
    validateExpr e = .ok () ↔ ∀ s, Subterm s e → badRoot s = false :=
  validateExpr_ok_iff_aux (sizeOf e) e le_rfl

/-- C3: `evaluate_expression` rejects, before any evaluation and with the
validator's own error, every tree containing a disallowed construct, a
double-underscore name or attribute, or a call whose callee is not on the
allow-list (part 1); in particular `__class__` and `__import__('os')` fail
(parts 2–3), while `2 + 3 * value('nodeA')` returns the arithmetic result
when `nodeA`'s recorded result is numeric (part 4); and name resolution
sees only the declared scope bindings — an unbound name is an error, with
no host builtin reachable (part 5). -/
theorem C3_expression_sandbox :
    (∀ (e : Expr) (ctx : ExecutionContext) (extras : List (String × Value)),
        HasBad e →
        ∃ msg, validateExpr e = .error msg ∧
          evaluateExpression e ctx extras = .error msg) ∧
    (evaluateExpression (.name "__class__") [] [] =
        .error "不允许访问以 '__' 开头的名称") ∧
    (evaluateExpression (.call (.name "__import__") [.constStr "os"]) [] [] =
        .error "表达式只能调用受支持的函数") ∧
    (∀ k : Int,
        evaluateExpression
          (.binOp .add (.constInt 2)
            (.binOp .mult (.constInt 3)
              (.call (.name "value") [.constStr "nodeA"])))
          [("nodeA", .int k)] [] = .ok (.int (2 + 3 * k))) ∧
    (∀ (id : String) (ctx : ExecutionContext)
        (extras : List (String × Value)),
        dictGet (buildScope ctx extras) id = none →
        evalExpr (buildScope ctx extras) ctx (.name id) =
          .error ("name '" ++ id ++ "' is not defined")) := by
  refine ⟨?_, rfl, rfl, fun k => rfl, ?_⟩
  · intro e ctx extras hb
    cases h : validateExpr e with
    | ok u =>
        cases u
        obtain ⟨s, hs, hbad⟩ := hb
        have := (validateExpr_ok_iff e).1 h s hs
        rw [this] at hbad
        exact absurd hbad (by simp)
    | error m =>
        refine ⟨m, rfl, ?_⟩
        simp [evaluateExpression, h, exceptBindError]
  · intro id ctx extras h
    simp [evalExpr, h]

/-- Witness for C3 at concrete inputs: `__class__` is a bad tree and is
rejected with the validator's message; the unbound name `zzz` is an
unknown-name error; the arithmetic example evaluates to 14 when `nodeA`
recorded 4. -/
theorem C3_expression_sandbox_witness :
    HasBad (.name "__class__") ∧
    (∃ msg, validateExpr (.name "__class__") = .error msg ∧
      evaluateExpression (.name "__class__") [] [] = .error msg) ∧
    dictGet (buildScope [] []) "zzz" = none ∧
    evalExpr (buildScope [] []) [] (.name "zzz") =
      .error ("name '" ++ "zzz" ++ "' is not defined") ∧
    evaluateExpression
      (.binOp .add (.constInt 2)
        (.binOp .mult (.constInt 3)
          (.call (.name "value") [.constStr "nodeA"])))
      [("nodeA", .int 4)] [] = .ok (.int 14) := by
  have hb : HasBad (.name "__class__") :=
    ⟨.name "__class__", subterm_refl _, rfl⟩
  refine ⟨hb, C3_expression_sandbox.1 (.name "__class__") [] [] hb, rfl,
    C3_expression_sandbox.2.2.2.2 "zzz" [] [] rfl,
    C3_expression_sandbox.2.2.2.1 4⟩

/-- C4: each `execute` of a While node reads the prior iteration count
from the context (0 if absent — part 1), evaluates the guard with
`iteration` bound, and when the guard holds increments the counter,
failing exactly when it would exceed `max_iterations` (part 2); a guard
that is always true with `max_iterations = 5` gives five successful calls
recording `{condition, iteration}` and an error on the sixth (parts
3–5). -/
theorem C4_while_loop :
    (∀ (ctx : ExecutionContext) (nodeId : String),
        ctxGet ctx nodeId = none → whilePriorIteration ctx nodeId = .ok 0) ∧
    (∀ (n : Node) (ctx : ExecutionContext) (e : Expr) (m i : Int) (c : Bool),
        configExpr n "expression" = .ok e →
        configInt n "max_iterations" = .ok m →
        whilePriorIteration ctx n.id = .ok i →
        evaluateCondition e ctx [("iteration", .int i)] = .ok c →
        whileExecute n ctx =
          if c ∧ m < i + 1 then .error "While 循环超过最大迭代次数限制"
          else .ok (ctxRecord ctx n.id (.dict
            [("condition", .bool c),
             ("iteration", .int (if c then i + 1 else i))]), c)) ∧
    (mkNode .whileLoop "w" none
      (some [("expression", .expr (.constBool true)),
             ("max_iterations", .int 5)]) = .ok whileAlways5) ∧
    (∀ k : Nat, 1 ≤ k → k ≤ 5 →
        (iterateWhile whileAlways5 k).map (fun p => ctxGet p.1 "w") =
          .ok (some (.dict [("condition", .bool true),
            ("iteration", .int k)]))) ∧
    iterateWhile whileAlways5 6 = .error "While 循环超过最大迭代次数限制" := by
  refine ⟨?_, ?_, rfl, ?_, rfl⟩
  · intro ctx nodeId h
    simp [whilePriorIteration, h]
  · intro n ctx e m i c h1 h2 h3 h4
    cases c with
    | false =>
        simp [whileExecute, h1, h2, h3, h4, exceptBindOk]
    | true =>
        by_cases hm : m < i + 1
        · simp [whileExecute, h1, h2, h3, h4, exceptBindOk, exceptBindError,
            hm, throw, throwThe, MonadExceptOf.throw]
        · simp [whileExecute, h1, h2, h3, h4, exceptBindOk, hm]
  · intro k h1 h5
    interval_cases k <;> rfl

/-- Witness for C4 at concrete inputs: the empty context reads iteration
0; the first call of the always-true/max-5 While succeeds with iteration
1; the third repeated call records iteration 3. -/
theorem C4_while_loop_witness :
    whilePriorIteration [] "w" = .ok 0 ∧
    whileExecute whileAlways5 [] =
      .ok (ctxRecord [] "w" (.dict
        [("condition", .bool true), ("iteration", .int (0 + 1))]), true) ∧
    (iterateWhile whileAlways5 3).map (fun p => ctxGet p.1 "w") =
      .ok (some (.dict [("condition", .bool true),
        ("iteration", .int 3)])) := by
  refine ⟨C4_while_loop.1 [] "w" rfl, ?_, C4_while_loop.2.2.2.1 3 (by decide) (by decide)⟩
  have h := C4_while_loop.2.1 whileAlways5 [] (.constBool true) 5 0 true
    rfl rfl rfl rfl
  simpa using h

/-- C5: a For node continues while the value has not passed `end` in the
direction of `step`, failing exactly when continuing would exceed
`max_iterations` (part 1); `determine_next` follows port 1 (loop entry)
while `should_continue` was recorded and port 0 (finished) otherwise
(parts 2–3); with `start=0, end=3, step=1` the repeated calls record
values 0, 1, 2 — each continuing — then exactly one terminal visit with
`completed` and no further loop-entry traversal (parts 4–6). -/
theorem C5_for_loop :
    (∀ (n : Node) (ctx : ExecutionContext) (start step endv m current
        iteration : Int),
        configInt n "start" = .ok start →
        configInt n "step" = .ok step →
        configInt n "end" = .ok endv →
        configInt n "max_iterations" = .ok m →
        forReadState start (ctxGet ctx n.id) = .ok (current, iteration) →
        forExecute n ctx =
          if (if 0 < step then current < endv else endv < current) then
            (if m < iteration + 1 then .error "For 循环超过最大迭代次数限制"
             else .ok (ctxRecord ctx n.id (.dict
               [("value", .int current), ("iteration", .int (iteration + 1)),
                ("next_value", .int (current + step)),
                ("should_continue", .bool true), ("completed", .bool false)]),
               .dict
               [("value", .int current), ("iteration", .int (iteration + 1)),
                ("next_value", .int (current + step)),
                ("should_continue", .bool true), ("completed", .bool false)]))
          else .ok (ctxRecord ctx n.id (.dict
            [("value", .int current), ("iteration", .int iteration),
             ("next_value", .int current),
             ("should_continue", .bool false), ("completed", .bool true)]),
            .dict
            [("value", .int current), ("iteration", .int iteration),
             ("next_value", .int current),
             ("should_continue", .bool false), ("completed", .bool true)])) ∧
    (∀ (g : WorkflowGraph) (n : Node) (ctx : ExecutionContext)
        (d : List (String × Value)),
        ctxGet ctx n.id = some (.dict d) →
        pyBool ((dictGet d "should_continue").getD .none) = true →
        forDetermineNext g n ctx = getOutgoingTarget g n.id 1) ∧
    (∀ (g : WorkflowGraph) (n : Node) (ctx : ExecutionContext)
        (d : List (String × Value)),
        ctxGet ctx n.id = some (.dict d) →
        pyBool ((dictGet d "should_continue").getD .none) = false →
        forDetermineNext g n ctx = getOutgoingTarget g n.id 0) ∧
    (mkNode .forLoop "f" none
      (some [("start", .int 0), ("end", .int 3), ("step", .int 1),
             ("max_iterations", .int 1000)]) = .ok for03) ∧
    (∀ k : Nat, 1 ≤ k → k ≤ 3 →
        (iterateFor for03 k).map Prod.snd = .ok (.dict
          [("value", .int (k - 1 : Nat)), ("iteration", .int k),
           ("next_value", .int k), ("should_continue", .bool true),
           ("completed", .bool false)])) ∧
    ((iterateFor for03 4).map Prod.snd = .ok (.dict
      [("value", .int 3), ("iteration", .int 3), ("next_value", .int 3),
       ("should_continue", .bool false), ("completed", .bool true)])) ∧
    (∀ (g : WorkflowGraph) (k : Nat), 1 ≤ k → k ≤ 3 →
        (iterateFor for03 k).map (fun p => forDetermineNext g for03 p.1) =
          .ok (getOutgoingTarget g "f" 1)) ∧
    (∀ g : WorkflowGraph,
        (iterateFor for03 4).map (fun p => forDetermineNext g for03 p.1) =
          .ok (getOutgoingTarget g "f" 0)) := by
  refine ⟨?_, ?_, ?_, rfl, ?_, rfl, ?_, ?_⟩
  · intro n ctx start step endv m current iteration h1 h2 h3 h4 h5
    by_cases hsc : if 0 < step then current < endv else endv < current
    · by_cases hm : m < iteration + 1
      · simp [forExecute, h1, h2, h3, h4, h5, exceptBindOk, exceptBindError,
          hsc, hm, throw, throwThe, MonadExceptOf.throw]
      · simp [forExecute, h1, h2, h3, h4, h5, exceptBindOk, hsc, hm]
    · simp [forExecute, h1, h2, h3, h4, h5, exceptBindOk, hsc]
  · intro g n ctx d h1 h2
    simp [forDetermineNext, h1, h2]
  · intro g n ctx d h1 h2
    simp [forDetermineNext, h1, h2]
  · intro k h1 h3
    interval_cases k <;> rfl
  · intro g k h1 h3
    interval_cases k <;> rfl
  · intro g
    rfl

/-- Witness for C5 at concrete inputs: the first call of the 0..3 For
continues with value 0; its recorded state routes `determine_next` to the
loop-entry target; the general step theorem instantiated on the empty
context reproduces the first record. -/
theorem C5_for_loop_witness :
    (iterateFor for03 1).map Prod.snd = .ok (.dict
      [("value", .int 0), ("iteration", .int 1), ("next_value", .int 1),
       ("should_continue", .bool true), ("completed", .bool false)]) ∧
    forExecute for03 [] =
      .ok (ctxRecord [] "f" (.dict
        [("value", .int 0), ("iteration", .int (0 + 1)),
         ("next_value", .int (0 + 1)),
         ("should_continue", .bool true), ("completed", .bool false)]),
        .dict
        [("value", .int 0), ("iteration", .int (0 + 1)),
         ("next_value", .int (0 + 1)),
         ("should_continue", .bool true), ("completed", .bool false)]) ∧
    forDetermineNext WorkflowGraph.empty for03
      [("f", .dict [("should_continue", .bool true)])] =
      getOutgoingTarget WorkflowGraph.empty "f" 1 := by
  refine ⟨C5_for_loop.2.2.2.2.1 1 (by decide) (by decide), ?_, ?_⟩
  · have h := C5_for_loop.1 for03 [] 0 1 3 1000 0 0 rfl rfl rfl rfl rfl
    simpa using h
  · exact C5_for_loop.2.1 WorkflowGraph.empty for03
      [("f", .dict [("should_continue", .bool true)])]
      [("should_continue", .bool true)] rfl rfl

/-- C10: a terminal For-loop visit is not absorbing — with a recorded
state whose `completed` is truthy (or a missing or non-dictionary state),
the loop restarts from `start` with iteration count 0 (parts 1–3), so the
call after the terminal visit of the 0..3 loop records a fresh first
iteration (part 4). -/
theorem C10_for_restart :
    (∀ start : Int, forReadState start none = .ok (start, 0)) ∧
    (∀ (start : Int) (v : Value), (∀ d, v ≠ Value.dict d) →
        forReadState start (some v) = .ok (start, 0)) ∧
    (∀ (start : Int) (d : List (String × Value)),
        pyBool ((dictGet d "completed").getD .none) = true →
        forReadState start (some (.dict d)) = .ok (start, 0)) ∧
    ((iterateFor for03 5).map Prod.snd = .ok (.dict
      [("value", .int 0), ("iteration", .int 1), ("next_value", .int 1),
       ("should_continue", .bool true), ("completed", .bool false)])) := by
  refine ⟨fun start => rfl, ?_, ?_, rfl⟩
  · intro start v h
    cases v with
    | dict d => exact absurd rfl (h d)
    | none => rfl
    | int n => rfl
    | str s => rfl
    | bool b => rfl
    | list xs => rfl
  · intro start d h
    simp [forReadState, h]

/-- Witness for C10 at concrete inputs: a non-dictionary state and a
completed state both restart at `(start, 0)`. -/
theorem C10_for_restart_witness :
    forReadState 7 (some (.str "ok")) = .ok (7, 0) ∧
    forReadState 7 (some (.dict [("completed", .bool true)])) = .ok (7, 0) := by
  refine ⟨C10_for_restart.2.1 7 (.str "ok") ?_, C10_for_restart.2.2.1 7
    [("completed", .bool true)] rfl⟩
  intro d h
  cases h

/-- C8: with a wired condition-result input whose source recorded a
`condition` field, the branch resolves from that record — independently of
its own configured expression, which parts 1 does not even mention; with
no wire it evaluates its configured expression (part 2); `determine_next`
records the resolution and follows port 0 on true, port 1 on false (part
3); concretely, wired to an equals-condition comparing 5 with 5 the walk
runs the true-branch target, and comparing 5 with 6 the false-branch
target (parts 4–6). -/
theorem C8_branch_resolution :
    (∀ (g : WorkflowGraph) (n : Node) (ctx : ExecutionContext)
        (inc : IncomingEdge) (d : List (String × Value)),
        getIncomingEdge g n.id 1 = some inc →
        ctxGet ctx inc.source = some (.dict d) →
        dictHas d "condition" = true →
        ifCondEvaluateCondition g n ctx =
          .ok (pyBool ((dictGet d "condition").getD .none),
            (dictGet d "value").getD ((dictGet d "condition").getD .none),
            some inc.source)) ∧
    (∀ (g : WorkflowGraph) (n : Node) (ctx : ExecutionContext) (e : Expr)
        (raw : Value),
        getIncomingEdge g n.id 1 = none →
        configExpr n "expression" = .ok e →
        evaluateExpression e ctx [] = .ok raw →
        ifCondEvaluateCondition g n ctx = .ok (pyBool raw, raw, none)) ∧
    (∀ (g : WorkflowGraph) (n : Node) (ctx : ExecutionContext) (r : Bool)
        (raw : Value) (src : Option String),
        ifCondEvaluateCondition g n ctx = .ok (r, raw, src) →
        ifCondDetermineNext g n ctx = .ok
          (ctxRecord ctx n.id (.dict
            [("condition", .bool r), ("value", raw),
             ("source", match src with | some s => .str s | none => .none)]),
           if r then getOutgoingTarget g n.id 0
           else getOutgoingTarget g n.id 1)) ∧
    workflowValidate (branchGraph 5) = .ok () ∧
    (runFromAux (branchGraph 5) (buildLoopBackMap (branchGraph 5)) 10000 100
      "e" [] 0).1 = ["e", "brn", "t1"] ∧
    (runFromAux (branchGraph 6) (buildLoopBackMap (branchGraph 6)) 10000 100
      "e" [] 0).1 = ["e", "brn", "t2"] := by
  refine ⟨?_, ?_, ?_, rfl, rfl, rfl⟩
  · intro g n ctx inc d h1 h2 h3
    simp [ifCondEvaluateCondition, h1, h2, h3]
  · intro g n ctx e raw h1 h2 h3
    simp [ifCondEvaluateCondition, h1, h2, h3, exceptBindOk]
  · intro g n ctx r raw src h
    simp [ifCondDetermineNext, h, exceptBindOk]
    cases r <;> simp

/-- Witness for C8 at concrete inputs: inside the 5-vs-5 branch graph,
after the equals node has recorded its result, the branch resolves true
from the wire and `determine_next` follows the true-branch target. -/
theorem C8_branch_resolution_witness :
    ifCondEvaluateCondition (branchGraph 5)
      ⟨"brn", "条件判断", .ifCond, [("expression", .expr (.constBool true))]⟩
      [("e", .dict [("condition", .bool true), ("left", .int 5),
        ("right", .int 5), ("value", .bool true)])] =
      .ok (true, .bool true, some "e") ∧
    ifCondDetermineNext (branchGraph 5)
      ⟨"brn", "条件判断", .ifCond, [("expression", .expr (.constBool true))]⟩
      [("e", .dict [("condition", .bool true), ("left", .int 5),
        ("right", .int 5), ("value", .bool true)])] =
      .ok (ctxRecord
        [("e", .dict [("condition", .bool true), ("left", .int 5),
          ("right", .int 5), ("value", .bool true)])]
        "brn" (.dict [("condition", .bool true), ("value", .bool true),
          ("source", .str "e")]),
        if true then getOutgoingTarget (branchGraph 5) "brn" 0
        else getOutgoingTarget (branchGraph 5) "brn" 1) := by
  have h1 := C8_branch_resolution.1 (branchGraph 5)
    ⟨"brn", "条件判断", .ifCond, [("expression", .expr (.constBool true))]⟩
    [("e", .dict [("condition", .bool true), ("left", .int 5),
      ("right", .int 5), ("value", .bool true)])]
    ⟨"e", 1, 1⟩
    [("condition", .bool true), ("left", .int 5), ("right", .int 5),
     ("value", .bool true)] rfl rfl rfl
  refine ⟨by simpa using h1, ?_⟩
  have h2 := C8_branch_resolution.2.2.1 (branchGraph 5)
    ⟨"brn", "条件判断", .ifCond, [("expression", .expr (.constBool true))]⟩
    [("e", .dict [("condition", .bool true), ("left", .int 5),
      ("right", .int 5), ("value", .bool true)])]
    true (.bool true) (some "e") (by simpa using h1)
  simpa using h2

/-- C2: `add_edge` raises exactly under the listed conditions, and
whenever it raises, the whole graph — both edge indexes included — is
exactly as before the call (no partially-applied state). -/
theorem C2_add_edge_contract :
    ∀ (g : WorkflowGraph) (s t : String) (sp tp : Int),
      ((addEdge g s t sp tp).2 ≠ none ↔ AddEdgeFails g s t sp tp) ∧
      ((addEdge g s t sp tp).2 ≠ none → (addEdge g s t sp tp).1 = g) := by
  intro g s t sp tp
  by_cases hst : s = t
  · simp [addEdge, AddEdgeFails, hst]
  · cases hs : dictGet g.nodes s with
    | none =>
        cases ht : dictGet g.nodes t <;>
          simp [addEdge, AddEdgeFails, hst, hs]
    | some sn =>
        cases ht : dictGet g.nodes t with
        | none => simp [addEdge, AddEdgeFails, hst, hs, ht]
        | some tn =>
            simp only [addEdge, AddEdgeFails, if_neg hst, hs, ht]
            by_cases h1 : (outputPorts sn.kind).isEmpty
            · have hlen : (outputPorts sn.kind).length = 0 :=
                List.isEmpty_iff_length_eq_zero.1 h1
              simp [h1, hst, hlen]
              omega
            · simp only [if_neg h1]
              by_cases h2 : sp < 0 ∨ ((outputPorts sn.kind).length : Int) ≤ sp
              · simp [h2, hst]
                tauto
              · simp only [if_neg h2]
                by_cases h3 : tp < 0 ∨ ((inputPorts tn.kind).length : Int) ≤ tp
                · simp [h3, hst]
                  tauto
                · simp only [if_neg h3]
                  by_cases h4 : isIfCond tn.kind ∧ tp = 1 ∧
                      ¬ (isCondBase sn.kind ∧ sp = 1)
                  · simp [h4, hst]
                  · simp only [if_neg h4]
                    by_cases h5 : isCondBase sn.kind ∧ sp = 1 ∧
                        ¬ (isIfCond tn.kind ∧ tp = 1)
                    · simp [h5, hst]
                    · simp only [if_neg h5]
                      by_cases h6 : ((dictGet g.edges s).getD []).any
                          (fun e => e.source_port == sp &&
                            e.target_port == tp && e.target == t)
                      · have h7 : ((dictGet g.edges s).getD []).any
                            (fun e => e.source_port == sp) = true := by
                          rcases List.any_eq_true.1 h6 with ⟨e, he, hprop⟩
                          exact List.any_eq_true.2 ⟨e, he, by
                            simp only [Bool.and_eq_true] at hprop
                            exact hprop.1.1⟩
                        simp [h6, h7, hst]
                      · simp only [if_neg h6]
                        by_cases h8 : ((dictGet g.edges s).getD []).any
                            (fun e => e.source_port == sp)
                        · simp [h8, hst]
                        · simp only [if_neg h8]
                          by_cases h9 : ((dictGet g.reverseEdges t).getD
                              []).any (fun e => e.target_port == tp)
                          · simp [h9, hst]
                          · simp only [if_neg h9]
                            simp [hst, h8, h9]
                            repeat' apply And.intro
                            all_goals first | omega | tauto

/-- Witness for C2 at a concrete input: connecting a node to itself in a
one-node graph raises, satisfies the listed conditions, and leaves the
graph unchanged. -/
theorem C2_add_edge_contract_witness :
    (addEdge (addNodeD WorkflowGraph.empty (mkNode .keyDown "a")) "a" "a"
        0 0).2 ≠ none ∧
    AddEdgeFails (addNodeD WorkflowGraph.empty (mkNode .keyDown "a")) "a" "a"
      0 0 ∧
    (addEdge (addNodeD WorkflowGraph.empty (mkNode .keyDown "a")) "a" "a"
        0 0).1 = addNodeD WorkflowGraph.empty (mkNode .keyDown "a") := by
  have h1 : (addEdge (addNodeD WorkflowGraph.empty (mkNode .keyDown "a"))
      "a" "a" 0 0).2 ≠ none := by simp [addNodeD, addEdge, addNode]
  exact ⟨h1,
    (C2_add_edge_contract (addNodeD WorkflowGraph.empty (mkNode .keyDown "a"))
      "a" "a" 0 0).1.1 h1,
    (C2_add_edge_contract (addNodeD WorkflowGraph.empty (mkNode .keyDown "a"))
      "a" "a" 0 0).2 h1⟩

theorem dictGet_dictDel {α : Type} (d : List (String × α)) (k k' : String) :
    dictGet (dictDel d k) k' = if k' = k then none else dictGet d k' := by
  induction d with
  | nil => simp [dictDel, dictGet]
  | cons p rest ih =>
      simp only [dictDel, List.filter_cons] at *
      by_cases hp : p.1 = k
      · rw [if_neg (by simp [hp])]
        rw [ih]
        by_cases hk : k' = k
        · simp [hk]
        · have hpk : ¬ p.1 = k' := fun h => hk (by rw [← h, hp])
          simp [dictGet, hk, hpk]
      · rw [if_pos (by simp [hp])]
        by_cases hpk : p.1 = k'
        · have hk : ¬ k' = k := fun h => hp (by rw [hpk, h])
          simp [dictGet, hpk, hk]
        · simp only [dictGet, if_neg hpk]
          exact ih

theorem dictHas_dictSet {α : Type} (d : List (String × α)) (k k' : String)
    (v : α) :
    dictHas (dictSet d k v) k' = (decide (k' = k) || dictHas d k') := by
  by_cases h : k' = k
  · subst h
    simp [dictHas, dictGet_dictSet_same]
  · simp [dictHas, dictGet_dictSet_ne d k k' v (fun he => h he.symm), h]

theorem dictSet_eq_self {α : Type} (d : List (String × α)) (k : String)
    (v : α) (h : dictGet d k = some v) : dictSet d k v = d := by
  induction d with
  | nil => simp [dictGet] at h
  | cons p rest ih =>
      by_cases hp : p.1 = k
      · simp only [dictGet, if_pos hp] at h
        cases h
        simp only [dictSet, if_pos hp]
        rw [← hp]
      · simp only [dictGet, if_neg hp] at h
        simp [dictSet, hp, ih h]

theorem filter_eq_self_of_not_any {α : Type} (l : List α) (p : α → Bool)
    (h : l.any p = false) : l.filter (fun a => ! p a) = l := by
  induction l with
  | nil => rfl
  | cons a rest ih =>
      simp only [List.any_cons, Bool.or_eq_false_iff] at h
      simp [List.filter_cons, h.1, ih h.2]

theorem inv_empty : GraphInv WorkflowGraph.empty := by
  refine ⟨?_, ?_, ?_, ?_⟩
  · intro u l h
    simp [WorkflowGraph.empty, dictGet] at h
  · intro u l h
    simp [WorkflowGraph.empty, dictGet] at h
  · intro u sp v tp
    constructor
    · rintro ⟨l, hl, -⟩
      simp [WorkflowGraph.empty, dictGet] at hl
    · rintro ⟨l, hl, -⟩
      simp [WorkflowGraph.empty, dictGet] at hl
  · intro k
    simp [WorkflowGraph.empty, dictHas, dictGet]

set_option maxRecDepth 4000 in
theorem inv_addNode (g : WorkflowGraph) (n : Node) (h : GraphInv g) :
    GraphInv (applyOp g (.addNode n)) := by
  obtain ⟨hsrc, htgt, hsame, hkeys⟩ := h
  by_cases hh : dictHas g.nodes n.id
  · have ht : dictHas g.nodes n.id = true := hh
    have hrw : applyOp g (.addNode n) = g := by
      simp only [applyOp]
      unfold addNode
      rw [if_pos ht]
    rw [hrw]
    exact ⟨hsrc, htgt, hsame, hkeys⟩
  · have hf : dictHas g.nodes n.id = false := by simpa using hh
    have hrw : applyOp g (.addNode n) =
        { nodes := dictSet g.nodes n.id n, edges := dictSet g.edges n.id []
          reverseEdges := dictSet g.reverseEdges n.id [] } := by
      simp only [applyOp]
      unfold addNode
      rw [if_neg (by simp [hf])]
    rw [hrw]
    have hedg : dictGet g.edges n.id = none := by
      have h2 := (hkeys n.id).1
      rw [hf] at h2
      simpa [dictHas, Option.isSome_iff_exists] using h2
    have hrev : dictGet g.reverseEdges n.id = none := by
      have h2 := (hkeys n.id).2
      rw [hf] at h2
      simpa [dictHas, Option.isSome_iff_exists] using h2
    refine ⟨?_, ?_, ?_, ?_⟩
    · intro u l hl
      by_cases hu : u = n.id
      · subst hu
        rw [dictGet_dictSet_same] at hl
        cases hl
        exact List.Pairwise.nil
      · rw [dictGet_dictSet_ne _ _ _ _ (fun he => hu he.symm)] at hl
        exact hsrc u l hl
    · intro v l hl
      by_cases hv : v = n.id
      · subst hv
        rw [dictGet_dictSet_same] at hl
        cases hl
        exact List.Pairwise.nil
      · rw [dictGet_dictSet_ne _ _ _ _ (fun he => hv he.symm)] at hl
        exact htgt v l hl
    · intro u sp v tp
      constructor
      · rintro ⟨l, hl, hmem⟩
        by_cases hu : u = n.id
        · subst hu
          rw [dictGet_dictSet_same] at hl
          cases hl
          simp at hmem
        · rw [dictGet_dictSet_ne _ _ _ _ (fun he => hu he.symm)] at hl
          obtain ⟨l2, hl2, hmem2⟩ := (hsame u sp v tp).1 ⟨l, hl, hmem⟩
          by_cases hv : v = n.id
          · subst hv
            rw [hrev] at hl2
            cases hl2
          · refine ⟨l2, ?_, hmem2⟩
            rw [dictGet_dictSet_ne _ _ _ _ (fun he => hv he.symm)]
            exact hl2
      · rintro ⟨l, hl, hmem⟩
        by_cases hv : v = n.id
        · subst hv
          rw [dictGet_dictSet_same] at hl
          cases hl
          simp at hmem
        · rw [dictGet_dictSet_ne _ _ _ _ (fun he => hv he.symm)] at hl
          obtain ⟨l2, hl2, hmem2⟩ := (hsame u sp v tp).2 ⟨l, hl, hmem⟩
          by_cases hu : u = n.id
          · subst hu
            rw [hedg] at hl2
            cases hl2
          · refine ⟨l2, ?_, hmem2⟩
            rw [dictGet_dictSet_ne _ _ _ _ (fun he => hu he.symm)]
            exact hl2
    · intro k
      by_cases hk : k = n.id
      · subst hk
        simp [dictHas_dictSet, dictHas, dictGet_dictSet_same]
      · simp only [dictHas_dictSet]
        have h2 := hkeys k
        simp [hk, h2.1, h2.2]

theorem exists_list_of_aligned_nodes {g : WorkflowGraph} {s : String}
    {sn : Node} (hkeys : KeysAligned g) (hs : dictGet g.nodes s = some sn) :
    (∃ l, dictGet g.edges s = some l) ∧
      (∃ l, dictGet g.reverseEdges s = some l) := by
  have h1 := (hkeys s).1
  have h2 := (hkeys s).2
  rw [show dictHas g.nodes s = true by simp [dictHas, hs]] at h1 h2
  exact ⟨by simpa [dictHas, Option.isSome_iff_exists] using h1,
    by simpa [dictHas, Option.isSome_iff_exists] using h2⟩

set_option maxRecDepth 4000 in
theorem inv_addEdge (g : WorkflowGraph) (s t : String) (sp tp : Int)
    (h : GraphInv g) : GraphInv ((addEdge g s t sp tp).1) := by
  obtain ⟨hsrc, htgt, hsame, hkeys⟩ := h
  by_cases hst : s = t
  · simpa [addEdge, hst] using ⟨hsrc, htgt, hsame, hkeys⟩
  · cases hs : dictGet g.nodes s with
    | none =>
        cases ht : dictGet g.nodes t <;>
          simpa [addEdge, hst, hs] using ⟨hsrc, htgt, hsame, hkeys⟩
    | some sn =>
        cases ht : dictGet g.nodes t with
        | none => simpa [addEdge, hst, hs, ht] using ⟨hsrc, htgt, hsame, hkeys⟩
        | some tn =>
            simp only [addEdge, if_neg hst, hs, ht]
            by_cases h1 : (outputPorts sn.kind).isEmpty
            · simpa [h1] using ⟨hsrc, htgt, hsame, hkeys⟩
            · simp only [if_neg h1]
              by_cases h2 : sp < 0 ∨ ((outputPorts sn.kind).length : Int) ≤ sp
              · simpa [h2] using ⟨hsrc, htgt, hsame, hkeys⟩
              · simp only [if_neg h2]
                by_cases h3 : tp < 0 ∨ ((inputPorts tn.kind).length : Int) ≤ tp
                · simpa [h3] using ⟨hsrc, htgt, hsame, hkeys⟩
                · simp only [if_neg h3]
                  by_cases h4 : isIfCond tn.kind ∧ tp = 1 ∧
                      ¬ (isCondBase sn.kind ∧ sp = 1)
                  · simpa [h4] using ⟨hsrc, htgt, hsame, hkeys⟩
                  · simp only [if_neg h4]
                    by_cases h5 : isCondBase sn.kind ∧ sp = 1 ∧
                        ¬ (isIfCond tn.kind ∧ tp = 1)
                    · simpa [h5] using ⟨hsrc, htgt, hsame, hkeys⟩
                    · simp only [if_neg h5]
                      by_cases h6 : ((dictGet g.edges s).getD []).any
                          (fun e => e.source_port == sp &&
                            e.target_port == tp && e.target == t)
                      · simpa [h6] using ⟨hsrc, htgt, hsame, hkeys⟩
                      · simp only [if_neg h6]
                        by_cases h8 : ((dictGet g.edges s).getD []).any
                            (fun e => e.source_port == sp)
                        · simpa [h8] using ⟨hsrc, htgt, hsame, hkeys⟩
                        · simp only [if_neg h8]
                          by_cases h9 : ((dictGet g.reverseEdges t).getD
                              []).any (fun e => e.target_port == tp)
                          · simpa [h9] using ⟨hsrc, htgt, hsame, hkeys⟩
                          · simp only [if_neg h9]
                            obtain ⟨⟨outs, houts⟩, -⟩ :=
                              exists_list_of_aligned_nodes hkeys hs
                            obtain ⟨-, ⟨incs, hincs⟩⟩ :=
                              exists_list_of_aligned_nodes hkeys ht
                            rw [houts] at h8 ⊢
                            rw [hincs] at h9 ⊢
                            simp only [Option.getD_some] at h8 h9 ⊢
                            have hE : ∀ u, dictGet (dictSet g.edges s
                                (outs ++ [⟨t, sp, tp⟩])) u =
                                if u = s then some (outs ++ [⟨t, sp, tp⟩])
                                else dictGet g.edges u := by
                              intro u
                              by_cases hu : u = s
                              · rw [hu, dictGet_dictSet_same, if_pos rfl]
                              · rw [dictGet_dictSet_ne _ _ _ _
                                  (fun he => hu he.symm), if_neg hu]
                            have hR : ∀ v, dictGet (dictSet g.reverseEdges t
                                (incs ++ [⟨s, tp, sp⟩])) v =
                                if v = t then some (incs ++ [⟨s, tp, sp⟩])
                                else dictGet g.reverseEdges v := by
                              intro v
                              by_cases hv : v = t
                              · rw [hv, dictGet_dictSet_same, if_pos rfl]
                              · rw [dictGet_dictSet_ne _ _ _ _
                                  (fun he => hv he.symm), if_neg hv]
                            refine ⟨?_, ?_, ?_, ?_⟩
                            · intro u l hl
                              have hl' : (if u = s then
                                  some (outs ++ [⟨t, sp, tp⟩])
                                  else dictGet g.edges u) = some l := by
                                rw [← hE u]; exact hl
                              by_cases hu : u = s
                              · rw [if_pos hu] at hl'
                                obtain rfl := Option.some.inj hl'
                                rw [List.pairwise_append]
                                refine ⟨hsrc s outs houts, by simp, ?_⟩
                                intro a ha b hb
                                simp only [List.mem_singleton] at hb
                                subst hb
                                intro hab
                                exact h8 (List.any_eq_true.2
                                  ⟨a, ha, by simp [hab]⟩)
                              · rw [if_neg hu] at hl'
                                exact hsrc u l hl'
                            · intro v l hl
                              have hl' : (if v = t then
                                  some (incs ++ [⟨s, tp, sp⟩])
                                  else dictGet g.reverseEdges v) = some l := by
                                rw [← hR v]; exact hl
                              by_cases hv : v = t
                              · rw [if_pos hv] at hl'
                                obtain rfl := Option.some.inj hl'
                                rw [List.pairwise_append]
                                refine ⟨htgt t incs hincs, by simp, ?_⟩
                                intro a ha b hb
                                simp only [List.mem_singleton] at hb
                                subst hb
                                intro hab
                                exact h9 (List.any_eq_true.2
                                  ⟨a, ha, by simp [hab]⟩)
                              · rw [if_neg hv] at hl'
                                exact htgt v l hl'
                            · intro u sp1 v tp1
                              constructor
                              · rintro ⟨l, hl, hmem⟩
                                have hl' : (if u = s then
                                    some (outs ++ [⟨t, sp, tp⟩])
                                    else dictGet g.edges u) = some l := by
                                  rw [← hE u]; exact hl
                                by_cases hu : u = s
                                · rw [if_pos hu] at hl'
                                  obtain rfl := Option.some.inj hl'
                                  rcases List.mem_append.1 hmem with hm | hm
                                  · have hold : RevEdge g u sp1 v tp1 :=
                                      (hsame u sp1 v tp1).1
                                        ⟨outs, by rw [hu]; exact houts, hm⟩
                                    obtain ⟨l2, hl2, hm2⟩ := hold
                                    by_cases hv : v = t
                                    · have hli : l2 = incs := by
                                        rw [hv, hincs] at hl2
                                        exact (Option.some.inj hl2).symm
                                      refine ⟨incs ++ [⟨s, tp, sp⟩], ?_,
                                        List.mem_append.2
                                          (Or.inl (hli ▸ hm2))⟩
                                      exact (hR v).trans (by rw [if_pos hv])
                                    · refine ⟨l2, ?_, hm2⟩
                                      exact (hR v).trans
                                        (by rw [if_neg hv]; exact hl2)
                                  · simp only [List.mem_singleton,
                                      OutgoingEdge.mk.injEq] at hm
                                    obtain ⟨hm1, hm2, hm3⟩ := hm
                                    refine ⟨incs ++ [⟨s, tp, sp⟩], ?_, ?_⟩
                                    · exact (hR v).trans (by rw [if_pos hm1])
                                    · simp [hu, hm2, hm3]
                                · rw [if_neg hu] at hl'
                                  have hold : RevEdge g u sp1 v tp1 :=
                                    (hsame u sp1 v tp1).1 ⟨l, hl', hmem⟩
                                  obtain ⟨l2, hl2, hm2⟩ := hold
                                  by_cases hv : v = t
                                  · have hli : l2 = incs := by
                                      rw [hv, hincs] at hl2
                                      exact (Option.some.inj hl2).symm
                                    refine ⟨incs ++ [⟨s, tp, sp⟩], ?_,
                                      List.mem_append.2 (Or.inl (hli ▸ hm2))⟩
                                    exact (hR v).trans (by rw [if_pos hv])
                                  · refine ⟨l2, ?_, hm2⟩
                                    exact (hR v).trans
                                      (by rw [if_neg hv]; exact hl2)
                              · rintro ⟨l, hl, hmem⟩
                                have hl' : (if v = t then
                                    some (incs ++ [⟨s, tp, sp⟩])
                                    else dictGet g.reverseEdges v) =
                                    some l := by
                                  rw [← hR v]; exact hl
                                by_cases hv : v = t
                                · rw [if_pos hv] at hl'
                                  obtain rfl := Option.some.inj hl'
                                  rcases List.mem_append.1 hmem with hm | hm
                                  · have hold : FwdEdge g u sp1 v tp1 :=
                                      (hsame u sp1 v tp1).2
                                        ⟨incs, by rw [hv]; exact hincs, hm⟩
                                    obtain ⟨l2, hl2, hm2⟩ := hold
                                    by_cases hu : u = s
                                    · have hlo : l2 = outs := by
                                        rw [hu, houts] at hl2
                                        exact (Option.some.inj hl2).symm
                                      refine ⟨outs ++ [⟨t, sp, tp⟩], ?_,
                                        List.mem_append.2
                                          (Or.inl (hlo ▸ hm2))⟩
                                      exact (hE u).trans (by rw [if_pos hu])
                                    · refine ⟨l2, ?_, hm2⟩
                                      exact (hE u).trans
                                        (by rw [if_neg hu]; exact hl2)
                                  · simp only [List.mem_singleton,
                                      IncomingEdge.mk.injEq] at hm
                                    obtain ⟨hm1, hm2, hm3⟩ := hm
                                    refine ⟨outs ++ [⟨t, sp, tp⟩], ?_, ?_⟩
                                    · exact (hE u).trans (by rw [if_pos hm1])
                                    · simp [hv, hm2, hm3]
                                · rw [if_neg hv] at hl'
                                  have hold : FwdEdge g u sp1 v tp1 :=
                                    (hsame u sp1 v tp1).2 ⟨l, hl', hmem⟩
                                  obtain ⟨l2, hl2, hm2⟩ := hold
                                  by_cases hu : u = s
                                  · have hlo : l2 = outs := by
                                      rw [hu, houts] at hl2
                                      exact (Option.some.inj hl2).symm
                                    refine ⟨outs ++ [⟨t, sp, tp⟩], ?_,
                                      List.mem_append.2 (Or.inl (hlo ▸ hm2))⟩
                                    exact (hE u).trans (by rw [if_pos hu])
                                  · refine ⟨l2, ?_, hm2⟩
                                    exact (hE u).trans
                                      (by rw [if_neg hu]; exact hl2)
                            · intro k
                              have h2k := hkeys k
                              constructor
                              · have hhe : dictHas (dictSet g.edges s
                                    (outs ++ [⟨t, sp, tp⟩])) k =
                                    dictHas g.nodes k := by
                                  rw [dictHas_dictSet]
                                  by_cases hk : k = s
                                  · simp [hk, show dictHas g.nodes s = true
                                      from by simp [dictHas, hs]]
                                  · simp [hk, h2k.1]
                                exact hhe
                              · have hhr : dictHas (dictSet g.reverseEdges t
                                    (incs ++ [⟨s, tp, sp⟩])) k =
                                    dictHas g.nodes k := by
                                  rw [dictHas_dictSet]
                                  by_cases hk : k = t
                                  · simp [hk, show dictHas g.nodes t = true
                                      from by simp [dictHas, ht]]
                                  · simp [hk, h2k.2]
                                exact hhr

set_option maxRecDepth 4000 in
theorem inv_removeEdge (g : WorkflowGraph) (s t : String) (sp tp : Option Int)
    (h : GraphInv g) : GraphInv (removeEdge g s t sp tp) := by
  obtain ⟨hsrc, htgt, hsame, hkeys⟩ := h
  cases hlst : dictGet g.edges s with
  | none => simpa [removeEdge, hlst] using ⟨hsrc, htgt, hsame, hkeys⟩
  | some lst =>
      simp only [removeEdge, hlst]
      rcases Bool.eq_false_or_eq_true (lst.any fun e =>
          e.target == t && optMatch sp e.source_port &&
            optMatch tp e.target_port) with hrem | hrem
      swap
      · rw [hrem, if_neg (by simp), filter_eq_self_of_not_any _ _ hrem,
          dictSet_eq_self g.edges s lst hlst]
        exact ⟨hsrc, htgt, hsame, hkeys⟩
      · rw [hrem, if_pos rfl]
        obtain ⟨e, hemem, hhits⟩ := List.any_eq_true.1 hrem
        simp only [Bool.and_eq_true, beq_iff_eq] at hhits
        have hfwd : FwdEdge g s e.source_port e.target e.target_port :=
          ⟨lst, hlst, hemem⟩
        obtain ⟨incs0, hincs0, -⟩ :=
          (hsame s e.source_port e.target e.target_port).1 hfwd
        rw [hhits.1.1] at hincs0
        rw [hincs0]
        show GraphInv
          { nodes := g.nodes
            edges := dictSet g.edges s
              (List.filter (fun e => ! (e.target == t &&
                optMatch sp e.source_port && optMatch tp e.target_port)) lst)
            reverseEdges := dictSet g.reverseEdges t
              (List.filter (fun inc => ! (inc.source == s &&
                optMatch sp inc.source_port &&
                optMatch tp inc.target_port)) incs0) }
        have hE : ∀ u, dictGet (dictSet g.edges s
            (List.filter (fun e => ! (e.target == t &&
              optMatch sp e.source_port && optMatch tp e.target_port))
              lst)) u =
            if u = s then
              some (List.filter (fun e => ! (e.target == t &&
                optMatch sp e.source_port && optMatch tp e.target_port)) lst)
            else dictGet g.edges u := by
          intro u
          by_cases hu : u = s
          · rw [hu, dictGet_dictSet_same, if_pos rfl]
          · rw [dictGet_dictSet_ne _ _ _ _ (fun he => hu he.symm), if_neg hu]
        have hR : ∀ v, dictGet (dictSet g.reverseEdges t
            (List.filter (fun inc => ! (inc.source == s &&
              optMatch sp inc.source_port && optMatch tp inc.target_port))
              incs0)) v =
            if v = t then
              some (List.filter (fun inc => ! (inc.source == s &&
                optMatch sp inc.source_port &&
                optMatch tp inc.target_port)) incs0)
            else dictGet g.reverseEdges v := by
          intro v
          by_cases hv : v = t
          · rw [hv, dictGet_dictSet_same, if_pos rfl]
          · rw [dictGet_dictSet_ne _ _ _ _ (fun he => hv he.symm), if_neg hv]
        refine ⟨?_, ?_, ?_, ?_⟩
        · intro u l hl
          have hl' : (if u = s then
              some (List.filter (fun e => ! (e.target == t &&
                optMatch sp e.source_port && optMatch tp e.target_port)) lst)
              else dictGet g.edges u) = some l := by
            rw [← hE u]; exact hl
          by_cases hu : u = s
          · rw [if_pos hu] at hl'
            obtain rfl := Option.some.inj hl'
            exact List.Pairwise.sublist (List.filter_sublist _)
              (hsrc s lst hlst)
          · rw [if_neg hu] at hl'
            exact hsrc u l hl'
        · intro v l hl
          have hl' : (if v = t then
              some (List.filter (fun inc => ! (inc.source == s &&
                optMatch sp inc.source_port &&
                optMatch tp inc.target_port)) incs0)
              else dictGet g.reverseEdges v) = some l := by
            rw [← hR v]; exact hl
          by_cases hv : v = t
          · rw [if_pos hv] at hl'
            obtain rfl := Option.some.inj hl'
            exact List.Pairwise.sublist (List.filter_sublist _)
              (htgt t incs0 hincs0)
          · rw [if_neg hv] at hl'
            exact htgt v l hl'
        · intro u sp1 v tp1
          have hFc : FwdEdge
              { nodes := g.nodes
                edges := dictSet g.edges s
                  (List.filter (fun e => ! (e.target == t &&
                    optMatch sp e.source_port &&
                    optMatch tp e.target_port)) lst)
                reverseEdges := dictSet g.reverseEdges t
                  (List.filter (fun inc => ! (inc.source == s &&
                    optMatch sp inc.source_port &&
                    optMatch tp inc.target_port)) incs0) } u sp1 v tp1 ↔
              (FwdEdge g u sp1 v tp1 ∧
                ¬ (u = s ∧ v = t ∧ optMatch sp sp1 = true ∧
                  optMatch tp tp1 = true)) := by
            constructor
            · rintro ⟨l, hl, hmem⟩
              have hl' : (if u = s then
                  some (List.filter (fun e => ! (e.target == t &&
                    optMatch sp e.source_port &&
                    optMatch tp e.target_port)) lst)
                  else dictGet g.edges u) = some l := by
                rw [← hE u]; exact hl
              by_cases hu : u = s
              · rw [if_pos hu] at hl'
                obtain rfl := Option.some.inj hl'
                rw [List.mem_filter] at hmem
                obtain ⟨hm, hcond⟩ := hmem
                refine ⟨⟨lst, by rw [hu]; exact hlst, hm⟩, ?_⟩
                rintro ⟨-, hvt, hsp1, htp1⟩
                simp only [Bool.not_eq_true'] at hcond
                simp [hvt, hsp1, htp1] at hcond
              · rw [if_neg hu] at hl'
                exact ⟨⟨l, hl', hmem⟩, fun hc => hu hc.1⟩
            · rintro ⟨⟨l, hl, hmem⟩, hnot⟩
              by_cases hu : u = s
              · have hll : l = lst := by
                  rw [hu, hlst] at hl
                  exact (Option.some.inj hl).symm
                refine ⟨List.filter (fun e => ! (e.target == t &&
                  optMatch sp e.source_port && optMatch tp e.target_port))
                  lst, (hE u).trans (by rw [if_pos hu]), ?_⟩
                rw [List.mem_filter]
                refine ⟨hll ▸ hmem, ?_⟩
                simp only [Bool.not_eq_true']
                by_cases hvt : v = t
                · rcases Bool.eq_false_or_eq_true (optMatch sp sp1) with
                    h1 | h1
                  · rcases Bool.eq_false_or_eq_true (optMatch tp tp1) with
                      h2 | h2
                    · exact absurd ⟨hu, hvt, h1, h2⟩ hnot
                    · simp [h2]
                  · simp [h1]
                · simp [hvt]
              · exact ⟨l, (hE u).trans (by rw [if_neg hu]; exact hl), hmem⟩
          have hRc : RevEdge
              { nodes := g.nodes
                edges := dictSet g.edges s
                  (List.filter (fun e => ! (e.target == t &&
                    optMatch sp e.source_port &&
                    optMatch tp e.target_port)) lst)
                reverseEdges := dictSet g.reverseEdges t
                  (List.filter (fun inc => ! (inc.source == s &&
                    optMatch sp inc.source_port &&
                    optMatch tp inc.target_port)) incs0) } u sp1 v tp1 ↔
              (RevEdge g u sp1 v tp1 ∧
                ¬ (u = s ∧ v = t ∧ optMatch sp sp1 = true ∧
                  optMatch tp tp1 = true)) := by
            constructor
            · rintro ⟨l, hl, hmem⟩
              have hl' : (if v = t then
                  some (List.filter (fun inc => ! (inc.source == s &&
                    optMatch sp inc.source_port &&
                    optMatch tp inc.target_port)) incs0)
                  else dictGet g.reverseEdges v) = some l := by
                rw [← hR v]; exact hl
              by_cases hv : v = t
              · rw [if_pos hv] at hl'
                obtain rfl := Option.some.inj hl'
                rw [List.mem_filter] at hmem
                obtain ⟨hm, hcond⟩ := hmem
                refine ⟨⟨incs0, by rw [hv]; exact hincs0, hm⟩, ?_⟩
                rintro ⟨hus, -, hsp1, htp1⟩
                simp only [Bool.not_eq_true'] at hcond
                simp [hus, hsp1, htp1] at hcond
              · rw [if_neg hv] at hl'
                exact ⟨⟨l, hl', hmem⟩, fun hc => hv hc.2.1⟩
            · rintro ⟨⟨l, hl, hmem⟩, hnot⟩
              by_cases hv : v = t
              · have hll : l = incs0 := by
                  rw [hv, hincs0] at hl
                  exact (Option.some.inj hl).symm
                refine ⟨List.filter (fun inc => ! (inc.source == s &&
                  optMatch sp inc.source_port &&
                  optMatch tp inc.target_port)) incs0,
                  (hR v).trans (by rw [if_pos hv]), ?_⟩
                rw [List.mem_filter]
                refine ⟨hll ▸ hmem, ?_⟩
                simp only [Bool.not_eq_true']
                by_cases hus : u = s
                · rcases Bool.eq_false_or_eq_true (optMatch sp sp1) with
                    h1 | h1
                  · rcases Bool.eq_false_or_eq_true (optMatch tp tp1) with
                      h2 | h2
                    · exact absurd ⟨hus, hv, h1, h2⟩ hnot
                    · simp [h2]
                  · simp [h1]
                · simp [hus]
              · exact ⟨l, (hR v).trans (by rw [if_neg hv]; exact hl), hmem⟩
          rw [hFc, hRc]
          exact and_congr (hsame u sp1 v tp1) Iff.rfl
        · intro k
          have h2k := hkeys k
          have hns : dictHas g.nodes s = true := by
            rw [← (hkeys s).1]
            simp [dictHas, hlst]
          have hnt : dictHas g.nodes t = true := by
            rw [← (hkeys t).2]
            simp [dictHas, hincs0]
          constructor
          · have hhe : dictHas (dictSet g.edges s
                (List.filter (fun e => ! (e.target == t &&
                  optMatch sp e.source_port &&
                  optMatch tp e.target_port)) lst)) k =
                dictHas g.nodes k := by
              rw [dictHas_dictSet]
              by_cases hk : k = s
              · simp [hk, hns]
              · simp [hk, h2k.1]
            exact hhe
          · have hhr : dictHas (dictSet g.reverseEdges t
                (List.filter (fun inc => ! (inc.source == s &&
                  optMatch sp inc.source_port &&
                  optMatch tp inc.target_port)) incs0)) k =
                dictHas g.nodes k := by
              rw [dictHas_dictSet]
              by_cases hk : k = t
              · simp [hk, hnt]
              · simp [hk, h2k.2]
            exact hhr

theorem removeEdge_edges (g : WorkflowGraph) (s t : String)
    (sp tp : Option Int) :
    (removeEdge g s t sp tp).edges =
      match dictGet g.edges s with
      | none => g.edges
      | some lst => dictSet g.edges s (lst.filter (fun e =>
          ! (e.target == t && optMatch sp e.source_port &&
            optMatch tp e.target_port))) := by
  cases hlst : dictGet g.edges s with
  | none => simp [removeEdge, hlst]
  | some lst =>
      simp only [removeEdge, hlst]
      cases hb : lst.any (fun e => e.target == t &&
          optMatch sp e.source_port && optMatch tp e.target_port) with
      | false => simp
      | true =>
          cases hr : dictGet g.reverseEdges t with
          | none => simp
          | some incs => simp

theorem removeEdge_fwd_mono (g : WorkflowGraph) (s t : String)
    (sp tp : Option Int) (u : String) (sp1 : Int) (v : String) (tp1 : Int)
    (h : FwdEdge (removeEdge g s t sp tp) u sp1 v tp1) :
    FwdEdge g u sp1 v tp1 := by
  obtain ⟨l, hl, hmem⟩ := h
  rw [removeEdge_edges] at hl
  cases hlst : dictGet g.edges s with
  | none =>
      simp only [hlst] at hl
      exact ⟨l, hl, hmem⟩
  | some lst =>
      simp only [hlst] at hl
      by_cases hu : u = s
      · rw [hu, dictGet_dictSet_same] at hl
        obtain rfl := Option.some.inj hl
        exact ⟨lst, by rw [hu]; exact hlst, (List.mem_filter.1 hmem).1⟩
      · rw [dictGet_dictSet_ne _ _ _ _ (fun he => hu he.symm)] at hl
        exact ⟨l, hl, hmem⟩

theorem removeEdge_kills (g : WorkflowGraph) (s t : String) (asp atp : Int) :
    ¬ FwdEdge (removeEdge g s t (some asp) (some atp)) s asp t atp := by
  rintro ⟨l, hl, hmem⟩
  rw [removeEdge_edges] at hl
  cases hlst : dictGet g.edges s with
  | none =>
      simp only [hlst] at hl
      exact Option.noConfusion hl
  | some lst =>
      simp only [hlst] at hl
      rw [dictGet_dictSet_same] at hl
      obtain rfl := Option.some.inj hl
      have hc := (List.mem_filter.1 hmem).2
      simp [optMatch] at hc

theorem foldl_graph_inv {α : Type} (step : WorkflowGraph → α → WorkflowGraph)
    (hstep : ∀ g a, GraphInv g → GraphInv (step g a)) :
    ∀ (L : List α) (g : WorkflowGraph), GraphInv g →
      GraphInv (L.foldl step g)
  | [], _, h => h
  | a :: L, g, h => foldl_graph_inv step hstep L (step g a) (hstep g a h)

theorem foldl_fwd_mono {α : Type} (step : WorkflowGraph → α → WorkflowGraph)
    (hstep : ∀ g a u sp v tp, FwdEdge (step g a) u sp v tp →
      FwdEdge g u sp v tp) :
    ∀ (L : List α) (g : WorkflowGraph) (u : String) (sp : Int) (v : String)
      (tp : Int), FwdEdge (L.foldl step g) u sp v tp → FwdEdge g u sp v tp
  | [], _, _, _, _, _, h => h
  | a :: L, g, u, sp, v, tp, h =>
      hstep g a u sp v tp
        (foldl_fwd_mono step hstep L (step g a) u sp v tp h)

theorem foldl_fwd_kills {α : Type} (step : WorkflowGraph → α → WorkflowGraph)
    (esrc : α → String) (esp : α → Int) (etgt : α → String) (etp : α → Int)
    (hmono : ∀ g a u sp v tp, FwdEdge (step g a) u sp v tp →
      FwdEdge g u sp v tp)
    (hkill : ∀ g a, ¬ FwdEdge (step g a) (esrc a) (esp a) (etgt a) (etp a)) :
    ∀ (L : List α) (g : WorkflowGraph) (a : α), a ∈ L →
      ¬ FwdEdge (L.foldl step g) (esrc a) (esp a) (etgt a) (etp a) := by
  intro L
  induction L with
  | nil => intro g a ha; exact absurd ha (List.not_mem_nil a)
  | cons b L ih =>
      intro g a ha h
      rcases List.mem_cons.1 ha with heq | haL
      · rw [heq] at h
        exact hkill g b (foldl_fwd_mono step hmono L (step g b) _ _ _ _ h)
      · exact ih (step g b) a haL h

theorem dictHas_dictDel {α : Type} (d : List (String × α)) (k k' : String) :
    dictHas (dictDel d k) k' = if k' = k then false else dictHas d k' := by
  unfold dictHas
  rw [dictGet_dictDel]
  by_cases hk : k' = k
  · rw [if_pos hk, if_pos hk]; rfl
  · rw [if_neg hk, if_neg hk]

theorem inv_delAll (g : WorkflowGraph) (nid : String) (h : GraphInv g)
    (hin : ∀ u sp tp, ¬ FwdEdge g u sp nid tp)
    (hout : ∀ sp v tp, ¬ FwdEdge g nid sp v tp) :
    GraphInv { nodes := dictDel g.nodes nid
               edges := dictDel g.edges nid
               reverseEdges := dictDel g.reverseEdges nid } := by
  obtain ⟨hsrc, htgt, hsame, hkeys⟩ := h
  refine ⟨?_, ?_, ?_, ?_⟩
  · intro u l hl
    have hl' : (if u = nid then none else dictGet g.edges u) = some l := by
      rw [← dictGet_dictDel]; exact hl
    by_cases hu : u = nid
    · rw [if_pos hu] at hl'; exact Option.noConfusion hl'
    · rw [if_neg hu] at hl'; exact hsrc u l hl'
  · intro v l hl
    have hl' : (if v = nid then none
        else dictGet g.reverseEdges v) = some l := by
      rw [← dictGet_dictDel]; exact hl
    by_cases hv : v = nid
    · rw [if_pos hv] at hl'; exact Option.noConfusion hl'
    · rw [if_neg hv] at hl'; exact htgt v l hl'
  · intro u sp1 v tp1
    have hF : FwdEdge
        { nodes := dictDel g.nodes nid,
          edges := dictDel g.edges nid,
          reverseEdges := dictDel g.reverseEdges nid } u sp1 v tp1 ↔
        (u ≠ nid ∧ FwdEdge g u sp1 v tp1) := by
      constructor
      · rintro ⟨l, hl, hmem⟩
        have hl' : (if u = nid then none
            else dictGet g.edges u) = some l := by
          rw [← dictGet_dictDel]; exact hl
        by_cases hu : u = nid
        · rw [if_pos hu] at hl'; exact Option.noConfusion hl'
        · rw [if_neg hu] at hl'; exact ⟨hu, l, hl', hmem⟩
      · rintro ⟨hu, l, hl, hmem⟩
        exact ⟨l, (dictGet_dictDel g.edges nid u).trans
          (by rw [if_neg hu]; exact hl), hmem⟩
    have hRv : RevEdge
        { nodes := dictDel g.nodes nid,
          edges := dictDel g.edges nid,
          reverseEdges := dictDel g.reverseEdges nid } u sp1 v tp1 ↔
        (v ≠ nid ∧ RevEdge g u sp1 v tp1) := by
      constructor
      · rintro ⟨l, hl, hmem⟩
        have hl' : (if v = nid then none
            else dictGet g.reverseEdges v) = some l := by
          rw [← dictGet_dictDel]; exact hl
        by_cases hv : v = nid
        · rw [if_pos hv] at hl'; exact Option.noConfusion hl'
        · rw [if_neg hv] at hl'; exact ⟨hv, l, hl', hmem⟩
      · rintro ⟨hv, l, hl, hmem⟩
        exact ⟨l, (dictGet_dictDel g.reverseEdges nid v).trans
          (by rw [if_neg hv]; exact hl), hmem⟩
    rw [hF, hRv]
    constructor
    · rintro ⟨hu, hf⟩
      exact ⟨fun hv => hin u sp1 tp1 (hv ▸ hf), (hsame u sp1 v tp1).1 hf⟩
    · rintro ⟨hv, hr⟩
      have hf := (hsame u sp1 v tp1).2 hr
      exact ⟨fun hu => hout sp1 v tp1 (hu ▸ hf), hf⟩
  · intro k
    constructor
    · have hh : dictHas (dictDel g.edges nid) k =
          dictHas (dictDel g.nodes nid) k := by
        rw [dictHas_dictDel, dictHas_dictDel]
        by_cases hk : k = nid
        · rw [if_pos hk, if_pos hk]
        · rw [if_neg hk, if_neg hk]; exact (hkeys k).1
      exact hh
    · have hh : dictHas (dictDel g.reverseEdges nid) k =
          dictHas (dictDel g.nodes nid) k := by
        rw [dictHas_dictDel, dictHas_dictDel]
        by_cases hk : k = nid
        · rw [if_pos hk, if_pos hk]
        · rw [if_neg hk, if_neg hk]; exact (hkeys k).2
      exact hh

theorem inv_removeNode (g : WorkflowGraph) (nid : String) (h : GraphInv g) :
    GraphInv (removeNode g nid) := by
  simp only [removeNode]
  by_cases hb : dictHas g.nodes nid = true
  · rw [if_neg (by simpa using hb)]
    obtain ⟨hsrc, htgt, hsame, hkeys⟩ := h
    set G1 := ((dictGet g.reverseEdges nid).getD []).foldl
      (fun acc inc => removeEdge acc inc.source nid (some inc.source_port)
        (some inc.target_port)) g with hG1
    set L2 := (dictGet G1.edges nid).getD [] with hL2
    set G2 := L2.foldl
      (fun acc e => removeEdge acc nid e.target (some e.source_port)
        (some e.target_port)) G1 with hG2
    have hg1 : GraphInv G1 := by
      rw [hG1]
      exact foldl_graph_inv
        (fun acc (inc : IncomingEdge) => removeEdge acc inc.source nid
          (some inc.source_port) (some inc.target_port))
        (fun g' (a : IncomingEdge) h' => inv_removeEdge g' a.source nid
          (some a.source_port) (some a.target_port) h')
        _ g ⟨hsrc, htgt, hsame, hkeys⟩
    have hmono1 : ∀ u sp v tp, FwdEdge G1 u sp v tp → FwdEdge g u sp v tp :=
      by
      rw [hG1]
      exact fun u sp v tp hf => foldl_fwd_mono
        (fun acc (inc : IncomingEdge) => removeEdge acc inc.source nid
          (some inc.source_port) (some inc.target_port))
        (fun g' (a : IncomingEdge) u' sp' v' tp' h' =>
          removeEdge_fwd_mono g' a.source nid
            (some a.source_port) (some a.target_port) u' sp' v' tp' h')
        _ g u sp v tp hf
    have hkill1 : ∀ a ∈ (dictGet g.reverseEdges nid).getD [],
        ¬ FwdEdge G1 a.source a.source_port nid a.target_port := by
      rw [hG1]
      exact fun a ha => foldl_fwd_kills
        (fun acc (inc : IncomingEdge) => removeEdge acc inc.source nid
          (some inc.source_port) (some inc.target_port))
        (fun a : IncomingEdge => a.source) (fun a => a.source_port)
        (fun _ => nid) (fun a => a.target_port)
        (fun g' (a' : IncomingEdge) u' sp' v' tp' h' =>
          removeEdge_fwd_mono g' a'.source nid
            (some a'.source_port) (some a'.target_port) u' sp' v' tp' h')
        (fun g' (a' : IncomingEdge) => removeEdge_kills g' a'.source nid
          a'.source_port a'.target_port)
        _ g a ha
    have hNoInto1 : ∀ u sp tp, ¬ FwdEdge G1 u sp nid tp := by
      intro u sp tp hf
      have hg0 : FwdEdge g u sp nid tp := hmono1 u sp nid tp hf
      obtain ⟨l, hl, hmem⟩ := (hsame u sp nid tp).1 hg0
      have hsnap : (dictGet g.reverseEdges nid).getD [] = l := by
        rw [hl]; rfl
      exact hkill1 ⟨u, tp, sp⟩ (by rw [hsnap]; exact hmem) hf
    have hg2 : GraphInv G2 := by
      rw [hG2]
      exact foldl_graph_inv
        (fun acc (e : OutgoingEdge) => removeEdge acc nid e.target
          (some e.source_port) (some e.target_port))
        (fun g' (a : OutgoingEdge) h' => inv_removeEdge g' nid a.target
          (some a.source_port) (some a.target_port) h')
        _ G1 hg1
    have hmono2 : ∀ u sp v tp, FwdEdge G2 u sp v tp →
        FwdEdge G1 u sp v tp := by
      rw [hG2]
      exact fun u sp v tp hf => foldl_fwd_mono
        (fun acc (e : OutgoingEdge) => removeEdge acc nid e.target
          (some e.source_port) (some e.target_port))
        (fun g' (a : OutgoingEdge) u' sp' v' tp' h' =>
          removeEdge_fwd_mono g' nid a.target
            (some a.source_port) (some a.target_port) u' sp' v' tp' h')
        _ G1 u sp v tp hf
    have hkill2 : ∀ a ∈ L2,
        ¬ FwdEdge G2 nid a.source_port a.target a.target_port := by
      rw [hG2]
      exact fun a ha => foldl_fwd_kills
        (fun acc (e : OutgoingEdge) => removeEdge acc nid e.target
          (some e.source_port) (some e.target_port))
        (fun _ : OutgoingEdge => nid) (fun a => a.source_port)
        (fun a => a.target) (fun a => a.target_port)
        (fun g' (a' : OutgoingEdge) u' sp' v' tp' h' =>
          removeEdge_fwd_mono g' nid a'.target
            (some a'.source_port) (some a'.target_port) u' sp' v' tp' h')
        (fun g' (a' : OutgoingEdge) => removeEdge_kills g' nid a'.target
          a'.source_port a'.target_port)
        _ G1 a ha
    have hNoFrom2 : ∀ sp v tp, ¬ FwdEdge G2 nid sp v tp := by
      intro sp v tp hf
      obtain ⟨l, hl, hmem⟩ := hmono2 nid sp v tp hf
      have hsnap : L2 = l := by
        rw [hL2, hl]; rfl
      exact hkill2 ⟨v, sp, tp⟩ (by rw [hsnap]; exact hmem) hf
    have hNoInto2 : ∀ u sp tp, ¬ FwdEdge G2 u sp nid tp :=
      fun u sp tp hf => hNoInto1 u sp tp (hmono2 u sp nid tp hf)
    exact inv_delAll G2 nid hg2 hNoInto2 hNoFrom2
  · rw [if_pos (by simpa using hb)]
    exact h

theorem inv_applyOp (g : WorkflowGraph) (op : GraphOp) (h : GraphInv g) :
    GraphInv (applyOp g op) := by
  cases op with
  | addNode n => exact inv_addNode g n h
  | removeNode nid => exact inv_removeNode g nid h
  | addEdge s t sp tp => exact inv_addEdge g s t sp tp h
  | removeEdge s t sp tp => exact inv_removeEdge g s t sp tp h

theorem inv_foldl_applyOp :
    ∀ (ops : List GraphOp) (g : WorkflowGraph), GraphInv g →
      GraphInv (ops.foldl applyOp g)
  | [], _, h => h
  | op :: ops, g, h =>
      inv_foldl_applyOp ops (applyOp g op) (inv_applyOp g op h)

/-- C7: every graph reachable from the empty graph by any sequence of
`add_node`, `remove_node`, `add_edge`, and `remove_edge` operations has at
most one edge out of each `(node, output port)` pair, at most one edge
into each `(node, input port)` pair, and forward and reverse edge indexes
describing exactly the same edge set. -/
theorem C7_graph_invariants (g : WorkflowGraph) (h : ReachableGraph g) :
    SrcUnique g ∧ TgtUnique g ∧ SameEdgeSet g := by
  obtain ⟨ops, rfl⟩ := h
  obtain ⟨h1, h2, h3, -⟩ := inv_foldl_applyOp ops WorkflowGraph.empty
    inv_empty
  exact ⟨h1, h2, h3⟩

theorem C7_graph_invariants_witness :
    ReachableGraph
      (([.addNode ⟨"a", "A", .keyDown, []⟩,
         .addNode ⟨"b", "B", .keyDown, []⟩,
         .addEdge "a" "b" 0 0,
         .removeEdge "a" "b" (some 0) (some 0),
         .removeNode "b"] : List GraphOp).foldl applyOp
        WorkflowGraph.empty) ∧
    (SrcUnique
      (([.addNode ⟨"a", "A", .keyDown, []⟩,
         .addNode ⟨"b", "B", .keyDown, []⟩,
         .addEdge "a" "b" 0 0,
         .removeEdge "a" "b" (some 0) (some 0),
         .removeNode "b"] : List GraphOp).foldl applyOp
        WorkflowGraph.empty) ∧
     TgtUnique
      (([.addNode ⟨"a", "A", .keyDown, []⟩,
         .addNode ⟨"b", "B", .keyDown, []⟩,
         .addEdge "a" "b" 0 0,
         .removeEdge "a" "b" (some 0) (some 0),
         .removeNode "b"] : List GraphOp).foldl applyOp
        WorkflowGraph.empty) ∧
     SameEdgeSet
      (([.addNode ⟨"a", "A", .keyDown, []⟩,
         .addNode ⟨"b", "B", .keyDown, []⟩,
         .addEdge "a" "b" 0 0,
         .removeEdge "a" "b" (some 0) (some 0),
         .removeNode "b"] : List GraphOp).foldl applyOp
        WorkflowGraph.empty)) :=
  ⟨⟨[.addNode ⟨"a", "A", .keyDown, []⟩,
     .addNode ⟨"b", "B", .keyDown, []⟩,
     .addEdge "a" "b" 0 0,
     .removeEdge "a" "b" (some 0) (some 0),
     .removeNode "b"], rfl⟩,
   C7_graph_invariants _
    ⟨[.addNode ⟨"a", "A", .keyDown, []⟩,
      .addNode ⟨"b", "B", .keyDown, []⟩,
      .addEdge "a" "b" 0 0,
      .removeEdge "a" "b" (some 0) (some 0),
      .removeNode "b"], rfl⟩⟩

theorem dictGet_append_of_none {α : Type} (d1 d2 : List (String × α))
    (k : String) (h : dictGet d1 k = none) :
    dictGet (d1 ++ d2) k = dictGet d2 k := by
  induction d1 with
  | nil => rfl
  | cons p rest ih =>
      simp only [dictGet] at h ⊢
      by_cases hp : p.1 = k
      · rw [if_pos hp] at h; exact Option.noConfusion h
      · rw [if_neg hp] at h ⊢
        exact ih h

theorem dictSet_absent {α : Type} (d : List (String × α)) (k : String)
    (v : α) (h : dictGet d k = none) : dictSet d k v = d ++ [(k, v)] := by
  induction d with
  | nil => rfl
  | cons p rest ih =>
      simp only [dictGet] at h
      simp only [dictSet]
      by_cases hp : p.1 = k
      · rw [if_pos hp] at h; exact Option.noConfusion h
      · rw [if_neg hp] at h
        rw [if_neg hp, ih h]
        rfl

theorem dictGet_map_nil {α β : Type} (L : List (String × α)) (u : String)
    (l : List β)
    (h : dictGet (L.map (fun p => (p.1, ([] : List β)))) u = some l) :
    l = [] := by
  induction L with
  | nil => exact Option.noConfusion h
  | cons p rest ih =>
      simp only [List.map, dictGet] at h
      by_cases hp : p.1 = u
      · rw [if_pos hp] at h
        exact (Option.some.inj h).symm
      · rw [if_neg hp] at h
        exact ih h

theorem dictGet_of_mem_nodup {α : Type} {d : List (String × α)}
    {k : String} {v : α} (hmem : (k, v) ∈ d)
    (hnd : (d.map Prod.fst).Nodup) : dictGet d k = some v := by
  induction d with
  | nil => exact absurd hmem (List.not_mem_nil _)
  | cons p rest ih =>
      rcases List.mem_cons.1 hmem with heq | hm
      · rw [← heq]
        simp [dictGet]
      · simp only [List.map, List.nodup_cons] at hnd
        have hne : p.1 ≠ k := by
          intro he
          exact hnd.1 (he ▸ (List.mem_map.2 ⟨(k, v), hm, rfl⟩))
        simp only [dictGet, if_neg hne]
        exact ih hm hnd.2

theorem mem_of_dictGet {α : Type} {d : List (String × α)} {k : String}
    {v : α} (h : dictGet d k = some v) : (k, v) ∈ d := by
  induction d with
  | nil => exact Option.noConfusion h
  | cons p rest ih =>
      simp only [dictGet] at h
      by_cases hp : p.1 = k
      · rw [if_pos hp] at h
        obtain rfl := Option.some.inj h
        exact List.mem_cons.2 (Or.inl (by rw [← hp]))
      · rw [if_neg hp] at h
        exact List.mem_cons.2 (Or.inr (ih h))

theorem mem_dictGet_getD {α : Type} (d : List (String × List α))
    (k : String) (a : α) :
    (∃ l, dictGet d k = some l ∧ a ∈ l) ↔ a ∈ (dictGet d k).getD [] := by
  cases h : dictGet d k <;> simp [h]

theorem dictGet_set_append_mem {α : Type} (d : List (String × List α))
    (k : String) (x : α) (u : String) (a : α) :
    (∃ l, dictGet (dictSet d k (((dictGet d k).getD []) ++ [x])) u =
      some l ∧ a ∈ l) ↔
    ((∃ l, dictGet d u = some l ∧ a ∈ l) ∨ (u = k ∧ a = x)) := by
  by_cases hu : u = k
  · subst hu
    rw [dictGet_dictSet_same]
    constructor
    · rintro ⟨l, hl, hmem⟩
      obtain rfl := Option.some.inj hl.symm
      rcases List.mem_append.1 hmem with hm | hm
      · exact Or.inl ((mem_dictGet_getD d u a).2 hm)
      · simp only [List.mem_singleton] at hm
        exact Or.inr ⟨rfl, hm⟩
    · rintro (hold | ⟨-, rfl⟩)
      · exact ⟨_, rfl, List.mem_append.2
          (Or.inl ((mem_dictGet_getD d u a).1 hold))⟩
      · exact ⟨_, rfl, List.mem_append.2 (Or.inr (by simp))⟩
  · rw [dictGet_dictSet_ne _ _ _ _ (fun he => hu he.symm)]
    constructor
    · rintro ⟨l, hl, hmem⟩
      exact Or.inl ⟨l, hl, hmem⟩
    · rintro (⟨l, hl, hmem⟩ | ⟨heq, -⟩)
      · exact ⟨l, hl, hmem⟩
      · exact absurd heq hu

theorem copy_inner_fwd (src : String) (ES : List OutgoingEdge) :
    ∀ (acc : WorkflowGraph) (u : String) (sp : Int) (v : String) (tp : Int),
      FwdEdge (ES.foldl (fun acc2 e =>
        { acc2 with
            edges := dictSet acc2.edges src
              (((dictGet acc2.edges src).getD []) ++
                [⟨e.target, e.source_port, e.target_port⟩])
            reverseEdges := dictSet acc2.reverseEdges e.target
              (((dictGet acc2.reverseEdges e.target).getD []) ++
                [⟨src, e.target_port, e.source_port⟩]) }) acc) u sp v tp ↔
      (FwdEdge acc u sp v tp ∨
        ∃ e ∈ ES, u = src ∧ v = e.target ∧ sp = e.source_port ∧
          tp = e.target_port) := by
  induction ES with
  | nil => intro acc u sp v tp; simp
  | cons e ES ih =>
      intro acc u sp v tp
      simp only [List.foldl_cons]
      rw [ih]
      have hstep : FwdEdge
          { acc with
              edges := dictSet acc.edges src
                (((dictGet acc.edges src).getD []) ++
                  [⟨e.target, e.source_port, e.target_port⟩])
              reverseEdges := dictSet acc.reverseEdges e.target
                (((dictGet acc.reverseEdges e.target).getD []) ++
                  [⟨src, e.target_port, e.source_port⟩]) } u sp v tp ↔
          (FwdEdge acc u sp v tp ∨ (u = src ∧ (⟨v, sp, tp⟩ : OutgoingEdge) =
            ⟨e.target, e.source_port, e.target_port⟩)) :=
        dictGet_set_append_mem acc.edges src
          ⟨e.target, e.source_port, e.target_port⟩ u ⟨v, sp, tp⟩
      rw [hstep]
      constructor
      · rintro ((h | ⟨hu, hx⟩) | ⟨e', he', hc⟩)
        · exact Or.inl h
        · simp only [OutgoingEdge.mk.injEq] at hx
          exact Or.inr ⟨e, List.mem_cons_self e ES, hu, hx.1, hx.2.1, hx.2.2⟩
        · exact Or.inr ⟨e', List.mem_cons_of_mem e he', hc⟩
      · rintro (h | ⟨e', he', hc⟩)
        · exact Or.inl (Or.inl h)
        · rcases List.mem_cons.1 he' with heq | hm
          · rw [heq] at hc
            refine Or.inl (Or.inr ⟨hc.1, ?_⟩)
            simp only [OutgoingEdge.mk.injEq]
            exact ⟨hc.2.1, hc.2.2.1, hc.2.2.2⟩
          · exact Or.inr ⟨e', hm, hc⟩

theorem copy_inner_rev (src : String) (ES : List OutgoingEdge) :
    ∀ (acc : WorkflowGraph) (u : String) (sp : Int) (v : String) (tp : Int),
      RevEdge (ES.foldl (fun acc2 e =>
        { acc2 with
            edges := dictSet acc2.edges src
              (((dictGet acc2.edges src).getD []) ++
                [⟨e.target, e.source_port, e.target_port⟩])
            reverseEdges := dictSet acc2.reverseEdges e.target
              (((dictGet acc2.reverseEdges e.target).getD []) ++
                [⟨src, e.target_port, e.source_port⟩]) }) acc) u sp v tp ↔
      (RevEdge acc u sp v tp ∨
        ∃ e ∈ ES, u = src ∧ v = e.target ∧ sp = e.source_port ∧
          tp = e.target_port) := by
  induction ES with
  | nil => intro acc u sp v tp; simp
  | cons e ES ih =>
      intro acc u sp v tp
      simp only [List.foldl_cons]
      rw [ih]
      have hstep : RevEdge
          { acc with
              edges := dictSet acc.edges src
                (((dictGet acc.edges src).getD []) ++
                  [⟨e.target, e.source_port, e.target_port⟩])
              reverseEdges := dictSet acc.reverseEdges e.target
                (((dictGet acc.reverseEdges e.target).getD []) ++
                  [⟨src, e.target_port, e.source_port⟩]) } u sp v tp ↔
          (RevEdge acc u sp v tp ∨ (v = e.target ∧
            (⟨u, tp, sp⟩ : IncomingEdge) =
              ⟨src, e.target_port, e.source_port⟩)) :=
        dictGet_set_append_mem acc.reverseEdges e.target
          ⟨src, e.target_port, e.source_port⟩ v ⟨u, tp, sp⟩
      rw [hstep]
      constructor
      · rintro ((h | ⟨hv, hx⟩) | ⟨e', he', hc⟩)
        · exact Or.inl h
        · simp only [IncomingEdge.mk.injEq] at hx
          exact Or.inr ⟨e, List.mem_cons_self e ES, hx.1, hv, hx.2.2, hx.2.1⟩
        · exact Or.inr ⟨e', List.mem_cons_of_mem e he', hc⟩
      · rintro (h | ⟨e', he', hc⟩)
        · exact Or.inl (Or.inl h)
        · rcases List.mem_cons.1 he' with heq | hm
          · rw [heq] at hc
            refine Or.inl (Or.inr ⟨hc.2.1, ?_⟩)
            simp only [IncomingEdge.mk.injEq]
            exact ⟨hc.1, hc.2.2.2, hc.2.2.1⟩
          · exact Or.inr ⟨e', hm, hc⟩

theorem copy_outer_fwd (EL : List (String × List OutgoingEdge)) :
    ∀ (acc : WorkflowGraph) (u : String) (sp : Int) (v : String) (tp : Int),
      FwdEdge (EL.foldl (fun acc p =>
        p.2.foldl (fun acc2 e =>
          { acc2 with
              edges := dictSet acc2.edges p.1
                (((dictGet acc2.edges p.1).getD []) ++
                  [⟨e.target, e.source_port, e.target_port⟩])
              reverseEdges := dictSet acc2.reverseEdges e.target
                (((dictGet acc2.reverseEdges e.target).getD []) ++
                  [⟨p.1, e.target_port, e.source_port⟩]) }) acc) acc)
        u sp v tp ↔
      (FwdEdge acc u sp v tp ∨
        ∃ p ∈ EL, u = p.1 ∧ ∃ e ∈ p.2, v = e.target ∧ sp = e.source_port ∧
          tp = e.target_port) := by
  induction EL with
  | nil => intro acc u sp v tp; simp
  | cons p EL ih =>
      intro acc u sp v tp
      simp only [List.foldl_cons]
      rw [ih, copy_inner_fwd p.1 p.2 acc u sp v tp]
      constructor
      · rintro ((h | ⟨e, he, hu, hd⟩) | ⟨q, hq, hu, e, he, hd⟩)
        · exact Or.inl h
        · exact Or.inr ⟨p, List.mem_cons_self p EL, hu, e, he, hd⟩
        · exact Or.inr ⟨q, List.mem_cons_of_mem p hq, hu, e, he, hd⟩
      · rintro (h | ⟨q, hq, hu, e, he, hd⟩)
        · exact Or.inl (Or.inl h)
        · rcases List.mem_cons.1 hq with heq | hm
          · rw [heq] at hu he
            exact Or.inl (Or.inr ⟨e, he, hu, hd⟩)
          · exact Or.inr ⟨q, hm, hu, e, he, hd⟩

theorem copy_outer_rev (EL : List (String × List OutgoingEdge)) :
    ∀ (acc : WorkflowGraph) (u : String) (sp : Int) (v : String) (tp : Int),
      RevEdge (EL.foldl (fun acc p =>
        p.2.foldl (fun acc2 e =>
          { acc2 with
              edges := dictSet acc2.edges p.1
                (((dictGet acc2.edges p.1).getD []) ++
                  [⟨e.target, e.source_port, e.target_port⟩])
              reverseEdges := dictSet acc2.reverseEdges e.target
                (((dictGet acc2.reverseEdges e.target).getD []) ++
                  [⟨p.1, e.target_port, e.source_port⟩]) }) acc) acc)
        u sp v tp ↔
      (RevEdge acc u sp v tp ∨
        ∃ p ∈ EL, u = p.1 ∧ ∃ e ∈ p.2, v = e.target ∧ sp = e.source_port ∧
          tp = e.target_port) := by
  induction EL with
  | nil => intro acc u sp v tp; simp
  | cons p EL ih =>
      intro acc u sp v tp
      simp only [List.foldl_cons]
      rw [ih, copy_inner_rev p.1 p.2 acc u sp v tp]
      constructor
      · rintro ((h | ⟨e, he, hu, hd⟩) | ⟨q, hq, hu, e, he, hd⟩)
        · exact Or.inl h
        · exact Or.inr ⟨p, List.mem_cons_self p EL, hu, e, he, hd⟩
        · exact Or.inr ⟨q, List.mem_cons_of_mem p hq, hu, e, he, hd⟩
      · rintro (h | ⟨q, hq, hu, e, he, hd⟩)
        · exact Or.inl (Or.inl h)
        · rcases List.mem_cons.1 hq with heq | hm
          · rw [heq] at hu he
            exact Or.inl (Or.inr ⟨e, he, hu, hd⟩)
          · exact Or.inr ⟨q, hm, hu, e, he, hd⟩

theorem enum_iff_dictGet (d : List (String × List OutgoingEdge))
    (hnd : (d.map Prod.fst).Nodup) (u : String) (sp : Int) (v : String)
    (tp : Int) :
    (∃ p ∈ d, u = p.1 ∧ ∃ e ∈ p.2, v = e.target ∧ sp = e.source_port ∧
      tp = e.target_port) ↔
    (∃ l, dictGet d u = some l ∧ (⟨v, sp, tp⟩ : OutgoingEdge) ∈ l) := by
  constructor
  · rintro ⟨p, hp, rfl, e, he, h1, h2, h3⟩
    refine ⟨p.2, dictGet_of_mem_nodup hp hnd, ?_⟩
    have hx : (⟨v, sp, tp⟩ : OutgoingEdge) = e := by rw [h1, h2, h3]
    rw [hx]; exact he
  · rintro ⟨l, hl, hmem⟩
    exact ⟨(u, l), mem_of_dictGet hl, rfl, ⟨v, sp, tp⟩, hmem, rfl, rfl, rfl⟩

theorem copy_nodes_fold :
    ∀ (L : List (String × Node)) (acc : WorkflowGraph),
      (∀ p ∈ L, mkNode p.2.kind p.2.id (some p.2.title)
        (some p.2.config) = Except.ok p.2) →
      (∀ p ∈ L, p.1 = p.2.id) →
      (∀ p ∈ L, dictGet acc.nodes p.1 = none) →
      (∀ p ∈ L, dictGet acc.edges p.1 = none) →
      (∀ p ∈ L, dictGet acc.reverseEdges p.1 = none) →
      (L.map Prod.fst).Nodup →
      L.foldlM (fun acc p => do
        let n ← mkNode p.2.kind p.2.id (some p.2.title) (some p.2.config)
        addNode acc n) acc =
      Except.ok { nodes := acc.nodes ++ L,
                  edges := acc.edges ++
                    L.map (fun p => (p.1, ([] : List OutgoingEdge))),
                  reverseEdges := acc.reverseEdges ++
                    L.map (fun p => (p.1, ([] : List IncomingEdge))) } := by
  intro L
  induction L with
  | nil =>
      intro acc _ _ _ _ _ _
      simp only [List.foldlM_nil, List.append_nil, List.map_nil]
      rfl
  | cons p L ih =>
      intro acc hstable hids hfn hfe hfr hnd
      have hmem := List.mem_cons_self p L
      have hid := hids p hmem
      have hnodown : dictGet acc.nodes p.2.id = none := by
        rw [← hid]; exact hfn p hmem
      have hedown : dictGet acc.edges p.2.id = none := by
        rw [← hid]; exact hfe p hmem
      have hrdown : dictGet acc.reverseEdges p.2.id = none := by
        rw [← hid]; exact hfr p hmem
      have hndc := List.nodup_cons.1 hnd
      have haddok : addNode acc p.2 = Except.ok
          { nodes := dictSet acc.nodes p.2.id p.2,
            edges := dictSet acc.edges p.2.id [],
            reverseEdges := dictSet acc.reverseEdges p.2.id [] } := by
        unfold addNode
        rw [if_neg (by unfold dictHas; rw [hnodown]; simp)]
      simp only [List.foldlM_cons, hstable p hmem, exceptBindOk, haddok]
      have hfresh : ∀ (d : List (String × Node)) (q : String × Node),
          q ∈ L → dictGet d q.1 = none →
          dictGet (d ++ [(p.2.id, p.2)]) q.1 = none := by
        intro d q hq hdq
        rw [dictGet_append_of_none _ _ _ hdq]
        have hqne : p.2.id ≠ q.1 := by
          rw [← hid]
          intro he
          exact hndc.1 (he ▸ List.mem_map.2 ⟨q, hq, rfl⟩)
        simp [dictGet, hqne]
      have hfreshE : ∀ (d : List (String × List OutgoingEdge))
          (q : String × Node), q ∈ L → dictGet d q.1 = none →
          dictGet (d ++ [(p.2.id, ([] : List OutgoingEdge))]) q.1 = none := by
        intro d q hq hdq
        rw [dictGet_append_of_none _ _ _ hdq]
        have hqne : p.2.id ≠ q.1 := by
          rw [← hid]
          intro he
          exact hndc.1 (he ▸ List.mem_map.2 ⟨q, hq, rfl⟩)
        simp [dictGet, hqne]
      have hfreshR : ∀ (d : List (String × List IncomingEdge))
          (q : String × Node), q ∈ L → dictGet d q.1 = none →
          dictGet (d ++ [(p.2.id, ([] : List IncomingEdge))]) q.1 = none := by
        intro d q hq hdq
        rw [dictGet_append_of_none _ _ _ hdq]
        have hqne : p.2.id ≠ q.1 := by
          rw [← hid]
          intro he
          exact hndc.1 (he ▸ List.mem_map.2 ⟨q, hq, rfl⟩)
        simp [dictGet, hqne]
      rw [ih { nodes := dictSet acc.nodes p.2.id p.2,
               edges := dictSet acc.edges p.2.id [],
               reverseEdges := dictSet acc.reverseEdges p.2.id [] }
        (fun q hq => hstable q (List.mem_cons_of_mem p hq))
        (fun q hq => hids q (List.mem_cons_of_mem p hq))
        (fun q hq => by
          show dictGet (dictSet acc.nodes p.2.id p.2) q.1 = none
          rw [dictSet_absent _ _ _ hnodown]
          exact hfresh acc.nodes q hq (hfn q (List.mem_cons_of_mem p hq)))
        (fun q hq => by
          show dictGet (dictSet acc.edges p.2.id []) q.1 = none
          rw [dictSet_absent _ _ _ hedown]
          exact hfreshE acc.edges q hq (hfe q (List.mem_cons_of_mem p hq)))
        (fun q hq => by
          show dictGet (dictSet acc.reverseEdges p.2.id []) q.1 = none
          rw [dictSet_absent _ _ _ hrdown]
          exact hfreshR acc.reverseEdges q hq
            (hfr q (List.mem_cons_of_mem p hq)))
        hndc.2]
      have h1 : dictSet acc.nodes p.2.id p.2 ++ L = acc.nodes ++ p :: L := by
        rw [dictSet_absent _ _ _ hnodown, List.append_assoc, ← hid]
        rfl
      have h2 : dictSet acc.edges p.2.id [] ++
          L.map (fun p => (p.1, ([] : List OutgoingEdge))) =
          acc.edges ++ (p.1, ([] : List OutgoingEdge)) ::
            L.map (fun p => (p.1, ([] : List OutgoingEdge))) := by
        rw [dictSet_absent _ _ _ hedown, List.append_assoc, ← hid]
        rfl
      have h3 : dictSet acc.reverseEdges p.2.id [] ++
          L.map (fun p => (p.1, ([] : List IncomingEdge))) =
          acc.reverseEdges ++ (p.1, ([] : List IncomingEdge)) ::
            L.map (fun p => (p.1, ([] : List IncomingEdge))) := by
        rw [dictSet_absent _ _ _ hrdown, List.append_assoc, ← hid]
        rfl
      simp only [h1, h2, h3]
      rfl

theorem copy_inner_nodes (src : String) (ES : List OutgoingEdge) :
    ∀ (acc : WorkflowGraph),
      (ES.foldl (fun acc2 e =>
        { acc2 with
            edges := dictSet acc2.edges src
              (((dictGet acc2.edges src).getD []) ++
                [⟨e.target, e.source_port, e.target_port⟩])
            reverseEdges := dictSet acc2.reverseEdges e.target
              (((dictGet acc2.reverseEdges e.target).getD []) ++
                [⟨src, e.target_port, e.source_port⟩]) }) acc).nodes =
      acc.nodes := by
  induction ES with
  | nil => intro acc; rfl
  | cons e ES ih =>
      intro acc
      simp only [List.foldl_cons]
      rw [ih]

theorem copy_outer_nodes (EL : List (String × List OutgoingEdge)) :
    ∀ (acc : WorkflowGraph),
      (EL.foldl (fun acc p =>
        p.2.foldl (fun acc2 e =>
          { acc2 with
              edges := dictSet acc2.edges p.1
                (((dictGet acc2.edges p.1).getD []) ++
                  [⟨e.target, e.source_port, e.target_port⟩])
              reverseEdges := dictSet acc2.reverseEdges e.target
                (((dictGet acc2.reverseEdges e.target).getD []) ++
                  [⟨p.1, e.target_port, e.source_port⟩]) }) acc) acc).nodes =
      acc.nodes := by
  induction EL with
  | nil => intro acc; rfl
  | cons p EL ih =>
      intro acc
      simp only [List.foldl_cons]
      rw [ih, copy_inner_nodes p.1 p.2 acc]

/-- C9 (amended): when every node's constructor reproduces it from its
current configuration, and the dictionaries are well formed (keys are node
ids, no duplicate keys, indexes consistent), `copy` succeeds and returns a
graph with the *same* nodes dictionary — hence the same node ids, node
count, titles and per-node configuration values, with mutable-container
references reused rather than duplicated — and exactly the same edge set
in both indexes. -/
theorem C9_copy_preserves (g : WorkflowGraph)
    (hstable : ∀ p ∈ g.nodes, mkNode p.2.kind p.2.id (some p.2.title)
      (some p.2.config) = Except.ok p.2)
    (hids : ∀ p ∈ g.nodes, p.1 = p.2.id)
    (hnd : (g.nodes.map Prod.fst).Nodup)
    (hend : (g.edges.map Prod.fst).Nodup)
    (hinv : GraphInv g) :
    ∃ g2, copyGraph g = Except.ok g2 ∧ g2.nodes = g.nodes ∧
      (∀ u sp v tp, FwdEdge g2 u sp v tp ↔ FwdEdge g u sp v tp) ∧
      (∀ u sp v tp, RevEdge g2 u sp v tp ↔ RevEdge g u sp v tp) := by
  have hfold := copy_nodes_fold g.nodes WorkflowGraph.empty hstable hids
    (fun p _ => rfl) (fun p _ => rfl) (fun p _ => rfl) hnd
  have hcg : copyGraph g = Except.ok
      (g.edges.foldl
        (fun acc p =>
          p.2.foldl
            (fun acc2 e =>
              { acc2 with
                  edges := dictSet acc2.edges p.1
                    (((dictGet acc2.edges p.1).getD []) ++
                      [⟨e.target, e.source_port, e.target_port⟩])
                  reverseEdges := dictSet acc2.reverseEdges e.target
                    (((dictGet acc2.reverseEdges e.target).getD []) ++
                      [⟨p.1, e.target_port, e.source_port⟩]) })
            acc)
        { nodes := WorkflowGraph.empty.nodes ++ g.nodes,
          edges := WorkflowGraph.empty.edges ++
            g.nodes.map (fun p => (p.1, ([] : List OutgoingEdge))),
          reverseEdges := WorkflowGraph.empty.reverseEdges ++
            g.nodes.map (fun p => (p.1, ([] : List IncomingEdge))) }) := by
    unfold copyGraph
    rw [hfold, exceptBindOk]
  have hbaseF : ∀ u sp v tp, ¬ FwdEdge
      { nodes := WorkflowGraph.empty.nodes ++ g.nodes,
        edges := WorkflowGraph.empty.edges ++
          g.nodes.map (fun p => (p.1, ([] : List OutgoingEdge))),
        reverseEdges := WorkflowGraph.empty.reverseEdges ++
          g.nodes.map (fun p => (p.1, ([] : List IncomingEdge))) }
      u sp v tp := by
    rintro u sp v tp ⟨l, hl, hmem⟩
    have hnil : l = [] := dictGet_map_nil g.nodes u l hl
    rw [hnil] at hmem
    exact absurd hmem (List.not_mem_nil _)
  have hbaseR : ∀ u sp v tp, ¬ RevEdge
      { nodes := WorkflowGraph.empty.nodes ++ g.nodes,
        edges := WorkflowGraph.empty.edges ++
          g.nodes.map (fun p => (p.1, ([] : List OutgoingEdge))),
        reverseEdges := WorkflowGraph.empty.reverseEdges ++
          g.nodes.map (fun p => (p.1, ([] : List IncomingEdge))) }
      u sp v tp := by
    rintro u sp v tp ⟨l, hl, hmem⟩
    have hnil : l = [] := dictGet_map_nil g.nodes v l hl
    rw [hnil] at hmem
    exact absurd hmem (List.not_mem_nil _)
  refine ⟨_, hcg, ?_, ?_, ?_⟩
  · rw [copy_outer_nodes]
    exact List.nil_append g.nodes
  · intro u sp v tp
    rw [copy_outer_fwd g.edges _ u sp v tp]
    constructor
    · rintro (habs | henum)
      · exact absurd habs (hbaseF u sp v tp)
      · exact (enum_iff_dictGet g.edges hend u sp v tp).1 henum
    · intro hf
      exact Or.inr ((enum_iff_dictGet g.edges hend u sp v tp).2 hf)
  · intro u sp v tp
    rw [copy_outer_rev g.edges _ u sp v tp]
    constructor
    · rintro (habs | henum)
      · exact absurd habs (hbaseR u sp v tp)
      · exact (hinv.2.2.1 u sp v tp).1
          ((enum_iff_dictGet g.edges hend u sp v tp).1 henum)
    · intro hr
      exact Or.inr ((enum_iff_dictGet g.edges hend u sp v tp).2
        ((hinv.2.2.1 u sp v tp).2 hr))

/-- C9: counterexample to the no-shared-mutable-state part of the claim.
Copying the one-node graph `gS9` — whose configuration stores a reference
to the mutable list at heap address 0 — reproduces the *same* node record:
both the original and the copy hold `CValue.ref 0`, so the nested mutable
container is shared, not duplicated.  Mutating the container at address 0
(as appending through the copy's configuration value would) is therefore
observed through the original graph's configuration as well. -/
theorem C9_copy_shares_nested_state :
    ∃ g2, copyGraph gS9 = Except.ok g2 ∧
      (∃ n2, dictGet g2.nodes "n" = some n2 ∧
        dictGet n2.config "tags" = some (CValue.ref 0)) ∧
      (∃ n1, dictGet gS9.nodes "n" = some n1 ∧
        dictGet n1.config "tags" = some (CValue.ref 0)) ∧
      configDeref (storeSet [(0, MutObj.mlist [CValue.int 1])] 0
          (MutObj.mlist [CValue.int 1, CValue.int 2])) gS9 "n" "tags" =
        some (MutObj.mlist [CValue.int 1, CValue.int 2]) :=
  ⟨gS9, rfl,
   ⟨⟨"n", "N", .keyDown,
     [("key", CValue.str "shift"), ("tags", CValue.ref 0)]⟩, rfl, rfl⟩,
   ⟨⟨"n", "N", .keyDown,
     [("key", CValue.str "shift"), ("tags", CValue.ref 0)]⟩, rfl, rfl⟩,
   rfl⟩

theorem gS9_inv : GraphInv gS9 := by
  refine ⟨?_, ?_, ?_, ?_⟩
  · intro u l hl
    simp only [show gS9.edges = [("n", [])] from rfl, dictGet] at hl
    by_cases h : "n" = u
    · rw [if_pos h] at hl
      obtain rfl := Option.some.inj hl
      exact List.Pairwise.nil
    · rw [if_neg h] at hl
      exact Option.noConfusion hl
  · intro v l hl
    simp only [show gS9.reverseEdges = [("n", [])] from rfl, dictGet] at hl
    by_cases h : "n" = v
    · rw [if_pos h] at hl
      obtain rfl := Option.some.inj hl
      exact List.Pairwise.nil
    · rw [if_neg h] at hl
      exact Option.noConfusion hl
  · intro u sp v tp
    constructor
    · rintro ⟨l, hl, hmem⟩
      simp only [show gS9.edges = [("n", [])] from rfl, dictGet] at hl
      by_cases h : "n" = u
      · rw [if_pos h] at hl
        obtain rfl := Option.some.inj hl
        exact absurd hmem (List.not_mem_nil _)
      · rw [if_neg h] at hl
        exact Option.noConfusion hl
    · rintro ⟨l, hl, hmem⟩
      simp only [show gS9.reverseEdges = [("n", [])] from rfl, dictGet] at hl
      by_cases h : "n" = v
      · rw [if_pos h] at hl
        obtain rfl := Option.some.inj hl
        exact absurd hmem (List.not_mem_nil _)
      · rw [if_neg h] at hl
        exact Option.noConfusion hl
  · intro k
    by_cases h : "n" = k
    · constructor <;> simp [dictHas, show gS9.edges = [("n", [])] from rfl,
        show gS9.reverseEdges = [("n", [])] from rfl,
        show gS9.nodes = [("n", ⟨"n", "N", .keyDown,
          [("key", CValue.str "shift"), ("tags", CValue.ref 0)]⟩)] from rfl,
        dictGet, h]
    · constructor <;> simp [dictHas, show gS9.edges = [("n", [])] from rfl,
        show gS9.reverseEdges = [("n", [])] from rfl,
        show gS9.nodes = [("n", ⟨"n", "N", .keyDown,
          [("key", CValue.str "shift"), ("tags", CValue.ref 0)]⟩)] from rfl,
        dictGet, h]

theorem C9_copy_preserves_witness :
    (∀ p ∈ gS9.nodes, mkNode p.2.kind p.2.id (some p.2.title)
      (some p.2.config) = Except.ok p.2) ∧
    (gS9.nodes.map Prod.fst).Nodup ∧
    (∃ g2, copyGraph gS9 = Except.ok g2 ∧ g2.nodes = gS9.nodes ∧
      (∀ u sp v tp, FwdEdge g2 u sp v tp ↔ FwdEdge gS9 u sp v tp) ∧
      (∀ u sp v tp, RevEdge g2 u sp v tp ↔ RevEdge gS9 u sp v tp)) := by
  have hstable : ∀ p ∈ gS9.nodes, mkNode p.2.kind p.2.id (some p.2.title)
      (some p.2.config) = Except.ok p.2 := by
    intro p hp
    have hp' : p = ("n", (⟨"n", "N", .keyDown,
        [("key", CValue.str "shift"), ("tags", CValue.ref 0)]⟩ : Node)) := by
      simpa [show gS9.nodes = [("n", ⟨"n", "N", .keyDown,
        [("key", CValue.str "shift"), ("tags", CValue.ref 0)]⟩)] from rfl]
        using hp
    rw [hp']
    rfl
  have hids : ∀ p ∈ gS9.nodes, p.1 = p.2.id := by
    intro p hp
    have hp' : p = ("n", (⟨"n", "N", .keyDown,
        [("key", CValue.str "shift"), ("tags", CValue.ref 0)]⟩ : Node)) := by
      simpa [show gS9.nodes = [("n", ⟨"n", "N", .keyDown,
        [("key", CValue.str "shift"), ("tags", CValue.ref 0)]⟩)] from rfl]
        using hp
    rw [hp']
  have hnd : (gS9.nodes.map Prod.fst).Nodup := by
    simp [show gS9.nodes = [("n", ⟨"n", "N", .keyDown,
      [("key", CValue.str "shift"), ("tags", CValue.ref 0)]⟩)] from rfl]
  have hend : (gS9.edges.map Prod.fst).Nodup := by
    simp [show gS9.edges = [("n", [])] from rfl]
  exact ⟨hstable, hnd,
    C9_copy_preserves gS9 hstable hids hnd hend gS9_inv⟩

theorem pairwise_tp_eq {l : List IncomingEdge}
    (hp : l.Pairwise (fun e1 e2 => e1.target_port ≠ e2.target_port)) :
    ∀ a ∈ l, ∀ b ∈ l, a.target_port = b.target_port → a = b := by
  induction l with
  | nil => intro a ha; exact absurd ha (List.not_mem_nil a)
  | cons x xs ih =>
      intro a ha b hb heq
      have hpc := List.pairwise_cons.1 hp
      rcases List.mem_cons.1 ha with rfl | hma
      · rcases List.mem_cons.1 hb with rfl | hmb
        · rfl
        · exact absurd heq (hpc.1 b hmb)
      · rcases List.mem_cons.1 hb with rfl | hmb
        · exact absurd heq.symm (hpc.1 a hma)
        · exact ih hpc.2 a hma b hmb heq

theorem unique_ctrl_pred (g : WorkflowGraph) (hsame : SameEdgeSet g)
    (htgt : TgtUnique g) {p q x : String} (hp : CtrlStep g p x)
    (hq : CtrlStep g q x) : p = q := by
  obtain ⟨sp, hfp⟩ := hp
  obtain ⟨sq, hfq⟩ := hq
  obtain ⟨l, hl, hmp⟩ := (hsame p sp x 0).1 hfp
  obtain ⟨l', hl', hmq⟩ := (hsame q sq x 0).1 hfq
  have hll : l = l' := by
    rw [hl] at hl'
    exact Option.some.inj hl'
  rw [← hll] at hmq
  have heq := pairwise_tp_eq (htgt x l hl) ⟨p, 0, sp⟩ hmp ⟨q, 0, sq⟩ hmq rfl
  exact congrArg IncomingEdge.source heq

theorem walk_no_cycle (g : WorkflowGraph) (start : String)
    (hsame : SameEdgeSet g) (htgt : TgtUnique g)
    (hstart : ∀ p, ¬ CtrlStep g p start) :
    ∀ c, Relation.ReflTransGen (CtrlStep g) start c →
      ¬ Relation.TransGen (CtrlStep g) c c := by
  intro c hreach
  induction hreach with
  | refl =>
      intro hcyc
      obtain ⟨b, -, hb⟩ := (Relation.TransGen.tail'_iff).1 hcyc
      exact hstart b hb
  | @tail b c hab hbc ih =>
      intro hcyc
      obtain ⟨d, hcd, hdc⟩ := (Relation.TransGen.tail'_iff).1 hcyc
      have hdb : d = b := unique_ctrl_pred g hsame htgt ⟨_, hdc.choose_spec⟩
        ⟨_, hbc.choose_spec⟩
      rw [hdb] at hcd
      exact ih (Relation.TransGen.head' hbc hcd)

theorem getOutgoingTarget_ctrl (g : WorkflowGraph) (nid : String)
    (port : Int) (t : String) (h : getOutgoingTarget g nid port = some t) :
    CtrlStep g nid t := by
  unfold getOutgoingTarget at h
  cases hf : ((dictGet g.edges nid).getD []).find?
      (fun e => e.source_port == port && e.target_port == 0) with
  | none => rw [hf] at h; exact Option.noConfusion h
  | some e =>
      rw [hf] at h
      obtain rfl := Option.some.inj h
      have hp := List.find?_some hf
      simp only [Bool.and_eq_true, beq_iff_eq] at hp
      have hmem := List.mem_of_find?_eq_some hf
      refine ⟨e.source_port, (mem_dictGet_getD g.edges nid _).2 ?_⟩
      have : (⟨e.target, e.source_port, 0⟩ : OutgoingEdge) = e := by
        rw [← hp.2]
      rw [this]
      exact hmem

theorem whileDetermineNext_ctrl (g : WorkflowGraph) (n : Node)
    (ctx : ExecutionContext) (nid : String)
    (h : whileDetermineNext g n ctx = some nid) : CtrlStep g n.id nid := by
  unfold whileDetermineNext at h
  by_cases hc : (match ctxGet ctx n.id with
      | some (.dict d) => pyBool ((dictGet d "condition").getD .none)
      | _ => false) = true
  · rw [if_pos hc] at h
    exact getOutgoingTarget_ctrl g n.id 1 nid h
  · rw [if_neg hc] at h
    exact getOutgoingTarget_ctrl g n.id 0 nid h

theorem forDetermineNext_ctrl (g : WorkflowGraph) (n : Node)
    (ctx : ExecutionContext) (nid : String)
    (h : forDetermineNext g n ctx = some nid) : CtrlStep g n.id nid := by
  unfold forDetermineNext at h
  by_cases hc : (match ctxGet ctx n.id with
      | some (.dict d) => pyBool ((dictGet d "should_continue").getD .none)
      | _ => false) = true
  · rw [if_pos hc] at h
    exact getOutgoingTarget_ctrl g n.id 1 nid h
  · rw [if_neg hc] at h
    exact getOutgoingTarget_ctrl g n.id 0 nid h

theorem determineNext_ctrl (n : Node) (g : WorkflowGraph)
    (ctx ctx2 : ExecutionContext) (nid : String)
    (h : nodeDetermineNext n g ctx = .ok (ctx2, some nid)) :
    CtrlStep g n.id nid := by
  unfold nodeDetermineNext at h
  cases hk : n.kind with
  | keyDown =>
      rw [hk] at h
      have := congrArg Prod.snd (Except.ok.inj h)
      exact getOutgoingTarget_ctrl g n.id 0 nid this
  | binCond c =>
      rw [hk] at h
      have := congrArg Prod.snd (Except.ok.inj h)
      exact getOutgoingTarget_ctrl g n.id 0 nid this
  | whileLoop =>
      rw [hk] at h
      have := congrArg Prod.snd (Except.ok.inj h)
      exact whileDetermineNext_ctrl g n ctx nid this
  | forLoop =>
      rw [hk] at h
      have := congrArg Prod.snd (Except.ok.inj h)
      exact forDetermineNext_ctrl g n ctx nid this
  | ifCond =>
      rw [hk] at h
      unfold ifCondDetermineNext at h
      cases he : ifCondEvaluateCondition g n ctx with
      | error e =>
          rw [he, exceptBindError] at h
          exact Except.noConfusion h
      | ok rvs =>
          rw [he, exceptBindOk] at h
          rcases Bool.eq_false_or_eq_true rvs.1 with hb | hb
          · rw [hb] at h
            simp only [if_true] at h
            have := congrArg Prod.snd (Except.ok.inj h)
            exact getOutgoingTarget_ctrl g n.id 0 nid this
          · rw [hb] at h
            simp only [Bool.false_eq_true, if_false] at h
            have := congrArg Prod.snd (Except.ok.inj h)
            exact getOutgoingTarget_ctrl g n.id 1 nid this

theorem walk_trace_reach (g : WorkflowGraph) (lm : List (String × String))
    (maxSteps : Int)
    (hkeyid : ∀ k n, dictGet g.nodes k = some n → n.id = k) :
    ∀ (fuel : Nat) (current : String) (ctx : ExecutionContext) (steps : Int),
      (∀ y ∈ (runFromAux g lm maxSteps fuel current ctx steps).1,
        dictGet lm y = none) →
      ∀ x ∈ (runFromAux g lm maxSteps fuel current ctx steps).1,
        Relation.ReflTransGen (CtrlStep g) current x := by
  intro fuel
  induction fuel with
  | zero =>
      intro current ctx steps _ x hx
      exact absurd hx (List.not_mem_nil x)
  | succ fuel ih =>
      intro current ctx steps hno x hx
      simp only [runFromAux] at hno hx
      cases hnode : dictGet g.nodes current with
      | none =>
          simp only [hnode] at hx
          exact absurd hx (List.not_mem_nil x)
      | some node =>
          simp only [hnode] at hno hx
          by_cases hms : maxSteps < steps + 1
          · rw [if_pos hms] at hx
            exact absurd hx (List.not_mem_nil x)
          · rw [if_neg hms] at hno hx
            cases hex : nodeExecute node ctx with
            | error e =>
                simp only [hex] at hx
                simp only [List.mem_singleton] at hx
                exact hx ▸ Relation.ReflTransGen.refl
            | ok ctx1 =>
                simp only [hex] at hno hx
                cases hdn : nodeDetermineNext node g ctx1 with
                | error e =>
                    simp only [hdn] at hx
                    simp only [List.mem_singleton] at hx
                    exact hx ▸ Relation.ReflTransGen.refl
                | ok pr =>
                    obtain ⟨ctx2, nextId⟩ := pr
                    simp only [hdn] at hno hx
                    cases hov : execOverride lm current nextId with
                    | none =>
                        simp only [hov] at hx
                        simp only [List.mem_singleton] at hx
                        exact hx ▸ Relation.ReflTransGen.refl
                    | some nextNode =>
                        simp only [hov] at hno hx
                        rcases List.mem_cons.1 hx with rfl | hxr
                        · exact Relation.ReflTransGen.refl
                        · have hcur : dictGet lm current = none :=
                            hno current (List.mem_cons_self _ _)
                          have hnext : nextId = some nextNode := by
                            unfold execOverride at hov
                            rw [hcur] at hov
                            exact hov
                          have hstep : CtrlStep g current nextNode := by
                            have hdn' : nodeDetermineNext node g ctx1 =
                                .ok (ctx2, some nextNode) := by
                              rw [← hnext]
                              exact hdn
                            have hc :=
                              determineNext_ctrl node g ctx1 ctx2 nextNode hdn'
                            rw [hkeyid current node hnode] at hc
                            exact hc
                          exact Relation.ReflTransGen.head hstep
                            (ih nextNode ctx2 (steps + 1)
                              (fun y hy => hno y (List.mem_cons_of_mem _ hy))
                              x hxr)

theorem walk_nodup (g : WorkflowGraph) (lm : List (String × String))
    (maxSteps : Int)
    (hkeyid : ∀ k n, dictGet g.nodes k = some n → n.id = k) :
    ∀ (fuel : Nat) (current : String) (ctx : ExecutionContext) (steps : Int),
      (∀ x, Relation.ReflTransGen (CtrlStep g) current x →
        ¬ Relation.TransGen (CtrlStep g) x x) →
      (∀ y ∈ (runFromAux g lm maxSteps fuel current ctx steps).1,
        dictGet lm y = none) →
      (runFromAux g lm maxSteps fuel current ctx steps).1.Nodup := by
  intro fuel
  induction fuel with
  | zero =>
      intro current ctx steps _ _
      exact List.nodup_nil
  | succ fuel ih =>
      intro current ctx steps hacy hno
      simp only [runFromAux] at hno ⊢
      cases hnode : dictGet g.nodes current with
      | none => exact List.nodup_nil
      | some node =>
          simp only [hnode] at hno ⊢
          by_cases hms : maxSteps < steps + 1
          · rw [if_pos hms]
            exact List.nodup_nil
          · rw [if_neg hms] at hno ⊢
            cases hex : nodeExecute node ctx with
            | error e => exact List.nodup_singleton current
            | ok ctx1 =>
                simp only [hex] at hno ⊢
                cases hdn : nodeDetermineNext node g ctx1 with
                | error e => exact List.nodup_singleton current
                | ok pr =>
                    obtain ⟨ctx2, nextId⟩ := pr
                    simp only [hdn] at hno ⊢
                    cases hov : execOverride lm current nextId with
                    | none => exact List.nodup_singleton current
                    | some nextNode =>
                        simp only [hov] at hno ⊢
                        have hcur : dictGet lm current = none :=
                          hno current (List.mem_cons_self _ _)
                        have hnext : nextId = some nextNode := by
                          unfold execOverride at hov
                          rw [hcur] at hov
                          exact hov
                        have hstep : CtrlStep g current nextNode := by
                          have hdn' : nodeDetermineNext node g ctx1 =
                              .ok (ctx2, some nextNode) := by
                            rw [← hnext]
                            exact hdn
                          have hc :=
                            determineNext_ctrl node g ctx1 ctx2 nextNode hdn'
                          rw [hkeyid current node hnode] at hc
                          exact hc
                        have hno' : ∀ y ∈ (runFromAux g lm maxSteps fuel
                            nextNode ctx2 (steps + 1)).1,
                            dictGet lm y = none :=
                          fun y hy => hno y (List.mem_cons_of_mem _ hy)
                        refine List.nodup_cons.2 ⟨?_, ?_⟩
                        · intro hmem
                          have hreach := walk_trace_reach g lm maxSteps
                            hkeyid fuel nextNode ctx2 (steps + 1) hno'
                            current hmem
                          exact hacy current Relation.ReflTransGen.refl
                            (Relation.TransGen.head' hstep hreach)
                        · exact ih nextNode ctx2 (steps + 1)
                            (fun x hx => hacy x
                              (Relation.ReflTransGen.head hstep hx))
                            hno'

theorem gAB_inv : GraphInv gAB :=
  inv_foldl_applyOp
    [GraphOp.addNode ⟨"a", "按键按下", .keyDown, [("key", .str "shift")]⟩,
     GraphOp.addNode ⟨"b", "按键按下", .keyDown, [("key", .str "shift")]⟩,
     GraphOp.addEdge "a" "b" 0 0]
    WorkflowGraph.empty inv_empty

theorem gAB_keyid : ∀ k n, dictGet gAB.nodes k = some n → n.id = k := by
  intro k n h
  simp only [show gAB.nodes =
    [("a", ⟨"a", "按键按下", .keyDown, [("key", CValue.str "shift")]⟩),
     ("b", ⟨"b", "按键按下", .keyDown, [("key", CValue.str "shift")]⟩)]
    from rfl, dictGet] at h
  by_cases ha : "a" = k
  · rw [if_pos ha] at h
    obtain rfl := Option.some.inj h
    exact ha
  · rw [if_neg ha] at h
    by_cases hb : "b" = k
    · rw [if_pos hb] at h
      obtain rfl := Option.some.inj h
      exact hb
    · rw [if_neg hb] at h
      exact Option.noConfusion h

theorem gAB_nostart : ∀ p, ¬ CtrlStep gAB p "a" := by
  rintro p ⟨sp, l, hl, hmem⟩
  by_cases ha : "a" = p
  · rw [← ha] at hl
    rw [show dictGet gAB.edges "a" =
      some [⟨"b", 0, 0⟩] from rfl] at hl
    obtain rfl := Option.some.inj hl
    rw [List.mem_singleton] at hmem
    have hab : ("a" : String) = "b" := congrArg OutgoingEdge.target hmem
    exact absurd hab (by decide)
  · by_cases hb : "b" = p
    · rw [← hb] at hl
      rw [show dictGet gAB.edges "b" = some [] from rfl] at hl
      obtain rfl := Option.some.inj hl
      exact absurd hmem (List.not_mem_nil _)
    · have hnone : dictGet gAB.edges p = none := by
        rw [show gAB.edges = [("a", [⟨"b", 0, 0⟩]), ("b", [])] from rfl]
        simp only [dictGet]
        rw [if_neg ha, if_neg hb]
      rw [hnone] at hl
      exact Option.noConfusion hl

/-- C6: (i) whenever the node just executed is a registered loop-tail
target (a key of the loop-tail map), the executor overrides the next node
to be the owning loop node, whatever `determine_next` returned — including
when it returned no target; (ii) `determine_next` can only ever return the
target of a control-port edge leaving the executed node; and therefore
(iii) on any traversal in which no loop-tail override fires, the sequence
of executed nodes never repeats a node (given unique control predecessors,
node keys matching ids, and a start node with no incoming control edge):
the loop-tail override is the only mechanism by which the walk revisits an
already-visited node. -/
theorem C6_loop_tail_override :
    (∀ (lm : List (String × String)) (cur : String) (next : Option String)
      (ctl : String), dictGet lm cur = some ctl →
        execOverride lm cur next = some ctl) ∧
    (∀ (n : Node) (g : WorkflowGraph) (ctx ctx2 : ExecutionContext)
      (nid : String), nodeDetermineNext n g ctx = .ok (ctx2, some nid) →
        CtrlStep g n.id nid) ∧
    (∀ (g : WorkflowGraph) (lm : List (String × String)) (maxSteps : Int)
      (fuel : Nat) (start : String) (ctx : ExecutionContext) (steps : Int),
      SameEdgeSet g → TgtUnique g →
      (∀ k n, dictGet g.nodes k = some n → n.id = k) →
      (∀ p, ¬ CtrlStep g p start) →
      (∀ y ∈ (runFromAux g lm maxSteps fuel start ctx steps).1,
        dictGet lm y = none) →
      (runFromAux g lm maxSteps fuel start ctx steps).1.Nodup) := by
  refine ⟨?_, ?_, ?_⟩
  · intro lm cur next ctl h
    unfold execOverride
    rw [h]
  · intro n g ctx ctx2 nid h
    exact determineNext_ctrl n g ctx ctx2 nid h
  · intro g lm maxSteps fuel start ctx steps hsame htgt hkeyid hstart hno
    exact walk_nodup g lm maxSteps hkeyid fuel start ctx steps
      (walk_no_cycle g start hsame htgt hstart) hno

theorem C6_loop_tail_override_witness :
    dictGet [("t", "w")] "t" = some "w" ∧
    execOverride [("t", "w")] "t" none = some "w" ∧
    execOverride [("t", "w")] "t" (some "x") = some "w" ∧
    CtrlStep gAB "a" "b" ∧
    (runFromAux gAB [] 10 5 "a" [] 0).1.Nodup := by
  refine ⟨rfl, ?_, ?_, ?_, ?_⟩
  · exact C6_loop_tail_override.1 [("t", "w")] "t" none "w" rfl
  · exact C6_loop_tail_override.1 [("t", "w")] "t" (some "x") "w" rfl
  · exact C6_loop_tail_override.2.1
      ⟨"a", "按键按下", .keyDown, [("key", CValue.str "shift")]⟩ gAB [] []
      "b" rfl
  · exact C6_loop_tail_override.2.2 gAB [] 10 5 "a" [] 0
      gAB_inv.2.2.1 gAB_inv.2.1 gAB_keyid gAB_nostart (fun y _ => rfl)

theorem dictHas_iff_mem_keys {α : Type} (d : List (String × α)) (k : String) :
    dictHas d k = true ↔ k ∈ d.map Prod.fst := by
  induction d with
  | nil => simp [dictHas, dictGet]
  | cons p rest ih =>
      simp only [dictHas, dictGet, List.map_cons, List.mem_cons]
      by_cases hp : p.1 = k
      · simp [hp]
      · simp only [if_neg hp]
        rw [← dictHas, ih]
        constructor
        · exact Or.inr
        · rintro (heq | hm)
          · exact absurd heq.symm hp
          · exact hm

theorem ctrlStep_tgt_has (g : WorkflowGraph) (hsame : SameEdgeSet g)
    {a b : String} (h : CtrlStep g a b) :
    dictHas g.reverseEdges b = true := by
  obtain ⟨sp, hf⟩ := h
  obtain ⟨l, hl, -⟩ := (hsame a sp b 0).1 hf
  simp [dictHas, hl]

theorem ctrlStep_src_has (g : WorkflowGraph) (hkeys : KeysAligned g)
    {a b : String} (h : CtrlStep g a b) :
    dictHas g.reverseEdges a = true := by
  obtain ⟨sp, l, hl, -⟩ := h
  have he : dictHas g.edges a = true := by simp [dictHas, hl]
  rw [(hkeys a).2, ← (hkeys a).1]
  exact he

theorem mem_ctrlTargets (g : WorkflowGraph) (c v : String) :
    v ∈ ctrlTargets g c ↔ CtrlStep g c v := by
  unfold ctrlTargets
  rw [List.mem_filterMap]
  constructor
  · rintro ⟨e, hmem, he⟩
    by_cases htp : e.target_port == 0
    · rw [if_pos htp] at he
      obtain rfl := Option.some.inj he
      refine ⟨e.source_port, (mem_dictGet_getD g.edges c _).2 ?_⟩
      have heq : (⟨e.target, e.source_port, 0⟩ : OutgoingEdge) = e := by
        have : e.target_port = 0 := by simpa using htp
        rw [← this]
      rw [heq]
      exact hmem
    · rw [if_neg htp] at he
      exact Option.noConfusion he
  · rintro ⟨sp, hf⟩
    have hm := (mem_dictGet_getD g.edges c _).1 hf
    exact ⟨⟨v, sp, 0⟩, hm, by simp⟩

theorem filterMap_nodup_of_pairwise {α β : Type} (l : List α)
    (f : α → Option β) (R : α → α → Prop) (hp : l.Pairwise R)
    (h : ∀ a b c, R a b → f a = some c → f b = some c → False) :
    (l.filterMap f).Nodup := by
  induction l with
  | nil => exact List.nodup_nil
  | cons a tl ih =>
      have hpc := List.pairwise_cons.1 hp
      rw [List.filterMap_cons]
      cases hfa : f a with
      | none => exact ih hpc.2
      | some c =>
          refine List.nodup_cons.2 ⟨?_, ih hpc.2⟩
          intro hmem
          obtain ⟨b, hb, hfb⟩ := List.mem_filterMap.1 hmem
          exact h a b c (hpc.1 b hb) hfa hfb

theorem ctrlTargets_nodup (g : WorkflowGraph) (hsrc : SrcUnique g)
    (hsame : SameEdgeSet g) (htgt : TgtUnique g) (c : String) :
    (ctrlTargets g c).Nodup := by
  unfold ctrlTargets
  cases hl : dictGet g.edges c with
  | none => simp
  | some l =>
      simp only [hl, Option.getD_some]
      refine filterMap_nodup_of_pairwise l _
        (fun e1 e2 => e1 ∈ l ∧ e2 ∈ l ∧ e1.source_port ≠ e2.source_port)
        (List.Pairwise.and_mem.1 (hsrc c l hl)) ?_
      rintro e1 e2 v ⟨hm1, hm2, hR⟩ h1 h2
      by_cases ht1 : e1.target_port == 0
      · rw [if_pos ht1] at h1
        by_cases ht2 : e2.target_port == 0
        · rw [if_pos ht2] at h2
          have htp1 : e1.target_port = 0 := by simpa using ht1
          have htp2 : e2.target_port = 0 := by simpa using ht2
          have hv1 : e1.target = v := Option.some.inj h1
          have hv2 : e2.target = v := Option.some.inj h2
          have hf1 : FwdEdge g c e1.source_port v 0 := by
            refine ⟨l, hl, ?_⟩
            have heq : (⟨v, e1.source_port, 0⟩ : OutgoingEdge) = e1 := by
              rw [← hv1, ← htp1]
            rw [heq]
            exact hm1
          have hf2 : FwdEdge g c e2.source_port v 0 := by
            refine ⟨l, hl, ?_⟩
            have heq : (⟨v, e2.source_port, 0⟩ : OutgoingEdge) = e2 := by
              rw [← hv2, ← htp2]
            rw [heq]
            exact hm2
          obtain ⟨lv, hlv, hmv1⟩ := (hsame c e1.source_port v 0).1 hf1
          obtain ⟨lv2, hlv2, hmv2⟩ := (hsame c e2.source_port v 0).1 hf2
          have hll : lv2 = lv := by
            rw [hlv] at hlv2
            exact (Option.some.inj hlv2).symm
          rw [hll] at hmv2
          have heq := pairwise_tp_eq (htgt v lv hlv)
            ⟨c, 0, e1.source_port⟩ hmv1 ⟨c, 0, e2.source_port⟩ hmv2 rfl
          exact hR (congrArg IncomingEdge.source_port heq)
        · rw [if_neg ht2] at h2
          exact Option.noConfusion h2
      · rw [if_neg ht1] at h1
        exact Option.noConfusion h1

theorem processNeighbors_all_one :
    ∀ (ns : List String) (tmp : List (String × Int)) (pushed : List String),
      ns.Nodup → (∀ v ∈ ns, dictGet tmp v = some 1) →
      (processNeighbors ns tmp pushed).2 = pushed ++ ns ∧
      ∀ w, dictGet (processNeighbors ns tmp pushed).1 w =
        if w ∈ ns then some 0 else dictGet tmp w := by
  intro ns
  induction ns with
  | nil =>
      intro tmp pushed _ _
      constructor
      · simp [processNeighbors]
      · intro w
        simp [processNeighbors]
  | cons v rest ih =>
      intro tmp pushed hnd hall
      have hndc := List.nodup_cons.1 hnd
      have hv : dictGet tmp v = some 1 := hall v (List.mem_cons_self v rest)
      have hrest : ∀ u ∈ rest, dictGet (dictSet tmp v 0) u = some 1 := by
        intro u hu
        have hne : v ≠ u := fun he => hndc.1 (he ▸ hu)
        have : dictGet (dictSet tmp v ((1 : Int) - 1)) u = dictGet tmp u :=
          dictGet_dictSet_ne tmp v u _ hne
        rw [show ((1 : Int) - 1) = 0 from by norm_num] at this
        rw [this]
        exact hall u (List.mem_cons_of_mem v hu)
      have hstep : processNeighbors (v :: rest) tmp pushed =
          processNeighbors rest (dictSet tmp v ((1 : Int) - 1))
            (pushed ++ [v]) := by
        simp only [processNeighbors, hv]
        rw [if_pos (by norm_num)]
      rw [hstep]
      rw [show ((1 : Int) - 1) = 0 from by norm_num]
      obtain ⟨hpush, htmp⟩ := ih (dictSet tmp v 0) (pushed ++ [v])
        hndc.2 hrest
      constructor
      · rw [hpush, List.append_assoc]
        rfl
      · intro w
        rw [htmp w]
        by_cases hw : w ∈ rest
        · rw [if_pos hw, if_pos (List.mem_cons_of_mem v hw)]
        · rw [if_neg hw]
          by_cases hwv : w = v
          · rw [hwv, dictGet_dictSet_same,
              if_pos (List.mem_cons_self v rest)]
          · rw [dictGet_dictSet_ne tmp v w 0 (fun he => hwv he.symm),
              if_neg (by
                intro hmem
                rcases List.mem_cons.1 hmem with he | hm
                · exact hwv he
                · exact hw hm)]

theorem dictGet_map_snd {α β : Type} (d : List (String × α)) (f : α → β)
    (k : String) :
    dictGet (d.map (fun p => (p.1, f p.2))) k = (dictGet d k).map f := by
  induction d with
  | nil => rfl
  | cons p rest ih =>
      simp only [List.map_cons, dictGet]
      by_cases hp : p.1 = k
      · rw [if_pos hp, if_pos hp]
        rfl
      · rw [if_neg hp, if_neg hp]
        exact ih

theorem map_fst_map_snd {α β : Type} (d : List (String × α)) (f : α → β) :
    (d.map (fun p => (p.1, f p.2))).map Prod.fst = d.map Prod.fst := by
  induction d with
  | nil => rfl
  | cons p rest ih => simp [ih]

theorem nodup_keys_pairwise {α : Type} (d : List (String × α))
    (h : (d.map Prod.fst).Nodup) : d.Pairwise (fun p q => p.1 ≠ q.1) := by
  induction d with
  | nil => exact List.Pairwise.nil
  | cons p rest ih =>
      simp only [List.map_cons, List.nodup_cons] at h
      refine List.pairwise_cons.2 ⟨?_, ih h.2⟩
      intro q hq he
      exact h.1 (he ▸ List.mem_map.2 ⟨q, hq, rfl⟩)

theorem countP_tp_le_one (l : List IncomingEdge)
    (hp : l.Pairwise (fun e1 e2 => e1.target_port ≠ e2.target_port)) :
    l.countP (fun e => e.target_port == 0) ≤ 1 := by
  induction l with
  | nil => simp
  | cons e tl ih =>
      have hpc := List.pairwise_cons.1 hp
      rw [List.countP_cons]
      by_cases he : e.target_port = 0
      · have hz : ∀ b ∈ tl, ¬ (b.target_port == 0) = true := by
          intro b hb hbe
          exact hpc.1 b hb (by rw [he]; symm; simpa using hbe)
        have : tl.countP (fun e => e.target_port == 0) = 0 :=
          List.countP_eq_zero.2 hz
        simp [this, he]
      · simp only [show (e.target_port == 0) = false by simpa using he]
        simpa using ih hpc.2

theorem ctrl_parent_iff (g : WorkflowGraph) (hsame : SameEdgeSet g)
    (v : String) (l : List IncomingEdge)
    (hl : dictGet g.reverseEdges v = some l) :
    (∃ p, CtrlStep g p v) ↔ ∃ e ∈ l, e.target_port = 0 := by
  constructor
  · rintro ⟨p, sp, hf⟩
    obtain ⟨l2, hl2, hm⟩ := (hsame p sp v 0).1 hf
    rw [hl] at hl2
    obtain rfl := Option.some.inj hl2.symm
    exact ⟨⟨p, 0, sp⟩, hm, rfl⟩
  · rintro ⟨e, hm, htp⟩
    refine ⟨e.source, e.source_port, (hsame e.source e.source_port v 0).2 ?_⟩
    refine ⟨l, hl, ?_⟩
    have heq : (⟨e.source, 0, e.source_port⟩ : IncomingEdge) = e := by
      rw [← htp]
    rw [heq]
    exact hm

theorem concat_eq_append_cons {α : Type} (l : List α) (a : α)
    (pre : List α) (v : α) (post : List α)
    (h : l ++ [a] = pre ++ v :: post) :
    (post = [] ∧ pre = l ∧ v = a) ∨
    (∃ post', post = post' ++ [a] ∧ l = pre ++ v :: post') := by
  rcases List.eq_nil_or_concat post with hp | ⟨post', a', hp⟩
  · subst hp
    have hlen : l.length = pre.length := by
      have := congrArg List.length h
      simp at this
      omega
    obtain ⟨h1, h2⟩ := List.append_inj h hlen
    exact Or.inl ⟨rfl, h1.symm, (List.cons.inj h2).1.symm⟩
  · subst hp
    rw [List.concat_eq_append] at h
    rw [show pre ++ v :: (post' ++ [a']) = (pre ++ v :: post') ++ [a'] by
      simp] at h
    have hlen : l.length = (pre ++ v :: post').length := by
      have := congrArg List.length h
      simp at this
      simp
      omega
    obtain ⟨h1, h2⟩ := List.append_inj h hlen
    have ha : a = a' := by simpa using h2
    exact Or.inr ⟨post', by rw [List.concat_eq_append, ha], h1⟩

theorem kahnLoop_final (g : WorkflowGraph) (hsrc : SrcUnique g)
    (htgt : TgtUnique g) (hsame : SameEdgeSet g) :
    ∀ (fuel : Nat) (queue : List String) (tmp : List (String × Int))
      (order : List String),
      queue.length + posCount tmp < fuel →
      KInv g queue tmp order →
      (kahnLoop g fuel queue tmp order).Nodup ∧
      (∀ x ∈ kahnLoop g fuel queue tmp order,
        dictHas g.reverseEdges x = true) ∧
      (∀ v, dictHas g.reverseEdges v = true →
        (v ∈ kahnLoop g fuel queue tmp order ↔
          ((¬ ∃ p, CtrlStep g p v) ∨
            ∃ p, CtrlStep g p v ∧ p ∈ kahnLoop g fuel queue tmp order))) ∧
      (∀ pre v post, kahnLoop g fuel queue tmp order = pre ++ v :: post →
        ∀ p, CtrlStep g p v → p ∈ pre) := by
  intro fuel
  induction fuel with
  | zero =>
      intro queue tmp order hb
      exact absurd hb (by omega)
  | succ fuel ih =>
      intro queue tmp order hb inv
      cases queue with
      | nil =>
          have hkl : kahnLoop g (fuel + 1) [] tmp order = order := rfl
          rw [hkl]
          have hnd := inv.nd
          have hsub := inv.sub
          have hmem := inv.mem_iff
          rw [List.append_nil] at hnd hsub
          refine ⟨hnd, hsub, ?_, inv.orderOK⟩
          intro v hv
          have := hmem v hv
          rw [List.append_nil] at this
          exact this
      | cons current rest =>
          have hkl : kahnLoop g (fuel + 1) (current :: rest) tmp order =
              kahnLoop g fuel
                (rest ++ (processNeighbors (ctrlTargets g current) tmp []).2)
                (processNeighbors (ctrlTargets g current) tmp []).1
                (order ++ [current]) := rfl
          have hcur_not_order : current ∉ order := by
            intro hmem
            have := List.disjoint_of_nodup_append inv.nd hmem
              (List.mem_cons_self current rest)
            exact this
          have hns1 : ∀ v ∈ ctrlTargets g current, dictGet tmp v = some 1 := by
            intro v hv
            have hstep : CtrlStep g current v := (mem_ctrlTargets g current v).1 hv
            exact inv.tmp1 v (ctrlStep_tgt_has g hsame hstep)
              ⟨current, hstep, hcur_not_order⟩
          obtain ⟨hpush, htmpc⟩ := processNeighbors_all_one
            (ctrlTargets g current) tmp []
            (ctrlTargets_nodup g hsrc hsame htgt current) hns1
          rw [List.nil_append] at hpush
          have hns_not_old : ∀ v ∈ ctrlTargets g current,
              v ∉ order ++ current :: rest := by
            intro v hv hmemold
            have hstep : CtrlStep g current v :=
              (mem_ctrlTargets g current v).1 hv
            have hvK : dictHas g.reverseEdges v = true :=
              ctrlStep_tgt_has g hsame hstep
            rcases (inv.mem_iff v hvK).1 hmemold with hnop | ⟨p, hp, hpord⟩
            · exact hnop ⟨current, hstep⟩
            · have : p = current := unique_ctrl_pred g hsame htgt hp hstep
              rw [this] at hpord
              exact hcur_not_order hpord
          have hnd' : ((order ++ [current]) ++
              (rest ++ (processNeighbors (ctrlTargets g current) tmp []).2)).Nodup := by
            rw [hpush]
            have heq : (order ++ [current]) ++ (rest ++ ctrlTargets g current) =
                (order ++ current :: rest) ++ ctrlTargets g current := by
              simp
            rw [heq]
            exact List.Nodup.append inv.nd
              (ctrlTargets_nodup g hsrc hsame htgt current)
              (fun a ha hb => hns_not_old a hb ha)
          have hUnP_new : ∀ v, dictHas g.reverseEdges v = true →
              v ∈ ctrlTargets g current →
              ¬ UnP g (order ++ [current]) v := by
            intro v hvK hv ⟨p, hp, hpno⟩
            have hstep : CtrlStep g current v :=
              (mem_ctrlTargets g current v).1 hv
            have : p = current := unique_ctrl_pred g hsame htgt hp hstep
            exact hpno (this ▸ List.mem_append.2 (Or.inr (by simp)))
          have hinv' : KInv g
              (rest ++ (processNeighbors (ctrlTargets g current) tmp []).2)
              (processNeighbors (ctrlTargets g current) tmp []).1
              (order ++ [current]) := by
            refine ⟨?_, ?_, hnd', ?_, ?_, ?_⟩
            · intro v hvK hunp
              rw [htmpc v]
              by_cases hv : v ∈ ctrlTargets g current
              · exact absurd hunp (hUnP_new v hvK hv)
              · rw [if_neg hv]
                obtain ⟨p, hp, hpno⟩ := hunp
                exact inv.tmp1 v hvK ⟨p, hp,
                  fun hmem => hpno (List.mem_append.2 (Or.inl hmem))⟩
            · intro v hvK hnunp
              rw [htmpc v]
              by_cases hv : v ∈ ctrlTargets g current
              · rw [if_pos hv]
              · rw [if_neg hv]
                refine inv.tmp0 v hvK ?_
                rintro ⟨p, hp, hpno⟩
                by_cases hpc : p = current
                · exact hv ((mem_ctrlTargets g current v).2 (hpc ▸ hp))
                · exact hnunp ⟨p, hp, fun hmem => by
                    rcases List.mem_append.1 hmem with hm | hm
                    · exact hpno hm
                    · simp only [List.mem_singleton] at hm
                      exact hpc hm⟩
            · intro x hx
              rw [hpush] at hx
              have heq : (order ++ [current]) ++ (rest ++ ctrlTargets g current) =
                  (order ++ current :: rest) ++ ctrlTargets g current := by
                simp
              rw [heq] at hx
              rcases List.mem_append.1 hx with hm | hm
              · exact inv.sub x hm
              · exact ctrlStep_tgt_has g hsame
                  ((mem_ctrlTargets g current x).1 hm)
            · intro v hvK
              rw [hpush]
              have heq : v ∈ (order ++ [current]) ++ (rest ++ ctrlTargets g current) ↔
                  v ∈ (order ++ current :: rest) ++ ctrlTargets g current := by
                simp only [List.mem_append, List.mem_cons, List.mem_singleton]
                tauto
              rw [heq]
              constructor
              · intro hx
                rcases List.mem_append.1 hx with hm | hm
                · rcases (inv.mem_iff v hvK).1 hm with hnop | ⟨p, hp, hpord⟩
                  · exact Or.inl hnop
                  · exact Or.inr ⟨p, hp,
                      List.mem_append.2 (Or.inl hpord)⟩
                · have hstep : CtrlStep g current v :=
                    (mem_ctrlTargets g current v).1 hm
                  exact Or.inr ⟨current, hstep,
                    List.mem_append.2 (Or.inr (by simp))⟩
              · rintro (hnop | ⟨p, hp, hpord⟩)
                · exact List.mem_append.2
                    (Or.inl ((inv.mem_iff v hvK).2 (Or.inl hnop)))
                · rcases List.mem_append.1 hpord with hm | hm
                  · exact List.mem_append.2 (Or.inl
                      ((inv.mem_iff v hvK).2 (Or.inr ⟨p, hp, hm⟩)))
                  · simp only [List.mem_singleton] at hm
                    exact List.mem_append.2 (Or.inr
                      ((mem_ctrlTargets g current v).2 (hm ▸ hp)))
            · intro pre v post hsplit p hp
              rcases concat_eq_append_cons order current pre v post hsplit with
                ⟨-, hpre, hvc⟩ | ⟨post', -, horder⟩
              · rw [hvc] at hp
                rw [hpre]
                have hcur_mem : current ∈ order ++ current :: rest := by
                  simp
                rcases (inv.mem_iff current
                    (inv.sub current hcur_mem)).1 hcur_mem with
                  hnop | ⟨q, hq, hqord⟩
                · exact absurd ⟨p, hp⟩ hnop
                · have hpq : p = q := unique_ctrl_pred g hsame htgt hp hq
                  rw [hpq]
                  exact hqord
              · exact inv.orderOK pre v post' horder p hp
          have hfuel : (rest ++
              (processNeighbors (ctrlTargets g current) tmp []).2).length +
              posCount (processNeighbors (ctrlTargets g current) tmp []).1 <
              fuel := by
            have hm := processNeighbors_measure (ctrlTargets g current) tmp []
            simp only [List.length_nil] at hm
            simp only [List.length_cons] at hb
            simp only [List.length_append]
            omega
          rw [hkl]
          exact ih _ _ _ hfuel hinv'

theorem kahn_init (g : WorkflowGraph) (htgt : TgtUnique g)
    (hsame : SameEdgeSet g)
    (hndr : (g.reverseEdges.map Prod.fst).Nodup) :
    KInv g
      ((g.reverseEdges.map (fun p =>
        (p.1, (p.2.countP (fun e => e.target_port == 0) : Int)))).filterMap
        (fun p => if p.2 == 0 then some p.1 else none))
      (g.reverseEdges.map (fun p =>
        (p.1, (p.2.countP (fun e => e.target_port == 0) : Int))))
      [] := by
  have hget : ∀ v, dictGet (g.reverseEdges.map (fun p =>
      (p.1, (p.2.countP (fun e => e.target_port == 0) : Int)))) v =
      (dictGet g.reverseEdges v).map
        (fun l => (l.countP (fun e => e.target_port == 0) : Int)) :=
    fun v => dictGet_map_snd g.reverseEdges
      (fun l => (l.countP (fun e => e.target_port == 0) : Int)) v
  have hkeys_eq : (g.reverseEdges.map (fun p =>
      (p.1, (p.2.countP (fun e => e.target_port == 0) : Int)))).map
      Prod.fst = g.reverseEdges.map Prod.fst :=
    map_fst_map_snd g.reverseEdges
      (fun l => ((l : List IncomingEdge).countP
        (fun e => e.target_port == 0) : Int))
  have hsome : ∀ v, dictHas g.reverseEdges v = true →
      ∃ l, dictGet g.reverseEdges v = some l := by
    intro v hv
    unfold dictHas at hv
    cases h : dictGet g.reverseEdges v with
    | none => rw [h] at hv; exact Bool.noConfusion hv
    | some l => exact ⟨l, rfl⟩
  have hq_iff : ∀ v, v ∈ ((g.reverseEdges.map (fun p =>
      (p.1, (p.2.countP (fun e => e.target_port == 0) : Int)))).filterMap
        (fun p => if p.2 == 0 then some p.1 else none)) ↔
      ∃ l, dictGet g.reverseEdges v = some l ∧
        l.countP (fun e => e.target_port == 0) = 0 := by
    intro v
    rw [List.mem_filterMap]
    constructor
    · rintro ⟨p, hp, hfp⟩
      by_cases hc : p.2 == 0
      · rw [if_pos hc] at hfp
        obtain rfl := Option.some.inj hfp
        have hgp : dictGet (g.reverseEdges.map (fun p =>
            (p.1, (p.2.countP (fun e => e.target_port == 0) : Int)))) p.1 =
            some p.2 :=
          dictGet_of_mem_nodup hp (by rw [hkeys_eq]; exact hndr)
        rw [hget p.1] at hgp
        cases hl : dictGet g.reverseEdges p.1 with
        | none => rw [hl] at hgp; exact Option.noConfusion hgp
        | some l =>
            rw [hl] at hgp
            simp only [Option.map_some'] at hgp
            refine ⟨l, rfl, ?_⟩
            have hc' : p.2 = 0 := by simpa using hc
            have h2 := Option.some.inj hgp
            omega
      · rw [if_neg hc] at hfp
        exact Option.noConfusion hfp
    · rintro ⟨l, hl, hcnt⟩
      refine ⟨(v, (l.countP (fun e => e.target_port == 0) : Int)), ?_, ?_⟩
      · apply mem_of_dictGet
        rw [hget v, hl]
        rfl
      · rw [hcnt]
        rfl
  refine ⟨?_, ?_, ?_, ?_, ?_, ?_⟩
  · intro v hvK hunp
    obtain ⟨l, hl⟩ := hsome v hvK
    rw [hget v, hl]
    simp only [Option.map_some']
    obtain ⟨p, hp, -⟩ := hunp
    have hex : ∃ e ∈ l, e.target_port = 0 :=
      (ctrl_parent_iff g hsame v l hl).1 ⟨p, hp⟩
    have hpos : 0 < l.countP (fun e => e.target_port == 0) :=
      List.countP_pos.2 (by
        obtain ⟨e, he, htp⟩ := hex
        exact ⟨e, he, by simp [htp]⟩)
    have hle : l.countP (fun e => e.target_port == 0) ≤ 1 :=
      countP_tp_le_one l (htgt v l hl)
    have heq : l.countP (fun e => e.target_port == 0) = 1 := by omega
    rw [heq]
    rfl
  · intro v hvK hnunp
    obtain ⟨l, hl⟩ := hsome v hvK
    rw [hget v, hl]
    simp only [Option.map_some']
    have hnop : ¬ ∃ p, CtrlStep g p v :=
      fun ⟨p, hp⟩ => hnunp ⟨p, hp, List.not_mem_nil p⟩
    have hnoe : ∀ e ∈ l, ¬ (e.target_port == 0) = true := by
      intro e he hbe
      exact hnop ((ctrl_parent_iff g hsame v l hl).2
        ⟨e, he, by simpa using hbe⟩)
    rw [List.countP_eq_zero.2 hnoe]
    rfl
  · rw [List.nil_append]
    refine filterMap_nodup_of_pairwise _ _ (fun p q => p.1 ≠ q.1)
      (nodup_keys_pairwise _ (by rw [hkeys_eq]; exact hndr)) ?_
    intro a b c hR ha hb
    by_cases hca : a.2 == 0
    · rw [if_pos hca] at ha
      by_cases hcb : b.2 == 0
      · rw [if_pos hcb] at hb
        exact hR ((Option.some.inj ha).trans (Option.some.inj hb).symm)
      · rw [if_neg hcb] at hb
        exact Option.noConfusion hb
    · rw [if_neg hca] at ha
      exact Option.noConfusion ha
  · intro x hx
    rw [List.nil_append] at hx
    obtain ⟨l, hl, -⟩ := (hq_iff x).1 hx
    simp [dictHas, hl]
  · intro v hvK
    rw [List.nil_append, hq_iff v]
    obtain ⟨l, hl⟩ := hsome v hvK
    constructor
    · rintro ⟨l', hl', hcnt⟩
      rw [hl] at hl'
      obtain rfl := Option.some.inj hl'
      refine Or.inl ?_
      rintro ⟨p, hp⟩
      obtain ⟨e, he, htp⟩ := (ctrl_parent_iff g hsame v l hl).1 ⟨p, hp⟩
      have := List.countP_eq_zero.1 hcnt e he
      exact this (by simp [htp])
    · rintro (hnop | ⟨p, hp, hpord⟩)
      · refine ⟨l, hl, List.countP_eq_zero.2 ?_⟩
        intro e he hbe
        exact hnop ((ctrl_parent_iff g hsame v l hl).2
          ⟨e, he, by simpa using hbe⟩)
      · exact absurd hpord (List.not_mem_nil p)
  · intro pre v post hsplit
    exact absurd hsplit.symm (by simp)

theorem exists_cycle_of_total_pred (R : String → String → Prop)
    (M : List String) (hne : M ≠ [])
    (hpred : ∀ x ∈ M, ∃ y ∈ M, R y x) :
    ∃ x ∈ M, Relation.TransGen R x x := by
  classical
  have htot : ∀ x, ∃ y, (x ∈ M → (y ∈ M ∧ R y x)) := by
    intro x
    by_cases hx : x ∈ M
    · obtain ⟨y, hyM, hyR⟩ := hpred x hx
      exact ⟨y, fun _ => ⟨hyM, hyR⟩⟩
    · exact ⟨x, fun h => absurd h hx⟩
  choose f hfspec using htot
  obtain ⟨x0, hx0⟩ : ∃ x0, x0 ∈ M := by
    cases M with
    | nil => exact absurd rfl hne
    | cons a tl => exact ⟨a, List.mem_cons_self a tl⟩
  have hseqM : ∀ n, f^[n] x0 ∈ M := by
    intro n
    induction n with
    | zero => exact hx0
    | succ n ihn =>
        rw [Function.iterate_succ_apply']
        exact (hfspec _ ihn).1
  have hstep : ∀ n, R (f^[n + 1] x0) (f^[n] x0) := by
    intro n
    rw [Function.iterate_succ_apply']
    exact (hfspec _ (hseqM n)).2
  have hchain : ∀ k i, Relation.TransGen R (f^[i + k + 1] x0) (f^[i] x0) := by
    intro k
    induction k with
    | zero => intro i; exact Relation.TransGen.single (hstep i)
    | succ k ihk =>
        intro i
        have h1 : R (f^[i + k + 1 + 1] x0) (f^[i + k + 1] x0) :=
          hstep (i + k + 1)
        have h2 := Relation.TransGen.head h1 (ihk i)
        have he : i + k + 1 + 1 = i + (k + 1) + 1 := by omega
        rw [he] at h2
        exact h2
  have hcard : M.toFinset.card <
      (Finset.univ : Finset (Fin (M.length + 1))).card := by
    rw [Finset.card_univ, Fintype.card_fin]
    exact Nat.lt_succ_of_le (List.toFinset_card_le M)
  obtain ⟨i, -, j, -, hij, heq⟩ :=
    Finset.exists_ne_map_eq_of_card_lt_of_maps_to hcard
      (fun (i : Fin (M.length + 1)) _ => List.mem_toFinset.2 (hseqM i.1))
  rcases Nat.lt_trichotomy i.1 j.1 with hlt | hOrEq | hgt
  · have hk : i.1 + (j.1 - i.1 - 1) + 1 = j.1 := by omega
    have hc := hchain (j.1 - i.1 - 1) i.1
    rw [hk] at hc
    rw [heq] at hc
    exact ⟨f^[j.1] x0, hseqM j.1, hc⟩
  · exact absurd (Fin.ext hOrEq) hij
  · have hk : j.1 + (i.1 - j.1 - 1) + 1 = i.1 := by omega
    have hc := hchain (i.1 - j.1 - 1) j.1
    rw [hk] at hc
    rw [← heq] at hc
    exact ⟨f^[i.1] x0, hseqM i.1, hc⟩

/-- C1 (amended): `topological_order` succeeds exactly when the
control-port edges — all of them, loop-tail edges included — are acyclic
(for graphs satisfying the maintained index invariants with duplicate-free
dictionary keys). -/
theorem C1_topological_order_cycle_check (g : WorkflowGraph)
    (hinv : GraphInv g)
    (hndr : (g.reverseEdges.map Prod.fst).Nodup)
    (hndn : (g.nodes.map Prod.fst).Nodup) :
    (∃ ord, topologicalOrder g = Except.ok ord) ↔
      ∀ x, ¬ Relation.TransGen (CtrlStep g) x x := by
  obtain ⟨hsrc, htgt, hsame, hkeys⟩ := hinv
  set indeg := g.reverseEdges.map (fun p =>
    (p.1, (p.2.countP (fun e => e.target_port == 0) : Int))) with hindeg
  set q0 := indeg.filterMap
    (fun p => if p.2 == 0 then some p.1 else none) with hq0
  set orderF := kahnLoop g (2 * g.reverseEdges.length + 1) q0 indeg []
    with horderF
  have htopo : topologicalOrder g =
      if (orderF.length == g.nodes.length) = true then Except.ok orderF
      else Except.error "Workflow contains cycles" := rfl
  have hbound : q0.length + posCount indeg <
      2 * g.reverseEdges.length + 1 := by
    have h1 : q0.length ≤ indeg.length := by
      rw [hq0]
      exact List.length_filterMap_le _ _
    have h2 : posCount indeg ≤ indeg.length := by
      unfold posCount
      exact List.countP_le_length _
    have h3 : indeg.length = g.reverseEdges.length := by
      rw [hindeg]
      exact List.length_map _ _
    omega
  obtain ⟨hndF, hsubF, hmemF, hordF⟩ := kahnLoop_final g hsrc htgt hsame
    (2 * g.reverseEdges.length + 1) q0 indeg [] hbound
    (by rw [hq0, hindeg]; exact kahn_init g htgt hsame hndr)
  rw [← horderF] at hndF hsubF hmemF hordF
  have hsetKN : (g.reverseEdges.map Prod.fst).toFinset =
      (g.nodes.map Prod.fst).toFinset := by
    ext k
    simp only [List.mem_toFinset]
    rw [← dictHas_iff_mem_keys, ← dictHas_iff_mem_keys, (hkeys k).2]
  have hlenKN : g.reverseEdges.length = g.nodes.length := by
    have h1 := List.toFinset_card_of_nodup hndr
    have h2 := List.toFinset_card_of_nodup hndn
    rw [hsetKN] at h1
    have l1 : (g.reverseEdges.map Prod.fst).length = g.reverseEdges.length :=
      List.length_map _ _
    have l2 : (g.nodes.map Prod.fst).length = g.nodes.length :=
      List.length_map _ _
    omega
  have hsubset : orderF.toFinset ⊆
      (g.reverseEdges.map Prod.fst).toFinset := by
    intro v hv
    rw [List.mem_toFinset] at hv ⊢
    exact (dictHas_iff_mem_keys _ v).1 (hsubF v hv)
  have hsucc_iff : (∃ ord, topologicalOrder g = Except.ok ord) ↔
      orderF.length = g.nodes.length := by
    rw [htopo]
    constructor
    · rintro ⟨ord, hord⟩
      by_cases hc : (orderF.length == g.nodes.length) = true
      · simpa using hc
      · rw [if_neg hc] at hord
        exact Except.noConfusion hord
    · intro h
      rw [if_pos (by simpa using h)]
      exact ⟨orderF, rfl⟩
  rw [hsucc_iff]
  constructor
  · intro hsucc x hcyc
    have hcards : (g.reverseEdges.map Prod.fst).toFinset.card ≤
        orderF.toFinset.card := by
      rw [List.toFinset_card_of_nodup hndF,
        List.toFinset_card_of_nodup hndr, List.length_map]
      omega
    have hset_eq : orderF.toFinset =
        (g.reverseEdges.map Prod.fst).toFinset :=
      Finset.eq_of_subset_of_card_le hsubset hcards
    have hcov : ∀ v, dictHas g.reverseEdges v = true → v ∈ orderF := by
      intro v hv
      have hvk : v ∈ (g.reverseEdges.map Prod.fst).toFinset :=
        List.mem_toFinset.2 ((dictHas_iff_mem_keys _ v).1 hv)
      rw [← hset_eq] at hvk
      exact List.mem_toFinset.1 hvk
    obtain ⟨d, hxd, hdx⟩ := Relation.TransGen.tail'_iff.1 hcyc
    have hxK : dictHas g.reverseEdges x = true := ctrlStep_tgt_has g hsame hdx
    obtain ⟨pre, post, hsplit⟩ := List.append_of_mem (hcov x hxK)
    have hnc : ∀ n pre v post, pre.length = n →
        orderF = pre ++ v :: post →
        ¬ Relation.TransGen (CtrlStep g) v v := by
      intro n
      induction n using Nat.strong_induction_on with
      | _ n ihn =>
          intro pre v post hlen hsp hcy
          obtain ⟨d2, hvd2, hd2v⟩ := Relation.TransGen.tail'_iff.1 hcy
          have hd2pre : d2 ∈ pre := hordF pre v post hsp d2 hd2v
          obtain ⟨pre1, post1, hpre⟩ := List.append_of_mem hd2pre
          have hsp2 : orderF = pre1 ++ d2 :: (post1 ++ v :: post) := by
            rw [hsp, hpre]
            simp
          have hlt : pre1.length < n := by
            rw [← hlen, hpre]
            simp only [List.length_append, List.length_cons]
            omega
          exact ihn pre1.length hlt pre1 d2 (post1 ++ v :: post) rfl hsp2
            (Relation.TransGen.head' hd2v hvd2)
    exact hnc pre.length pre x post rfl hsplit hcyc
  · intro hacy
    have hM : (g.reverseEdges.map Prod.fst).filter
        (fun v => decide (v ∉ orderF)) = [] := by
      by_contra hMne
      have hpred : ∀ x ∈ (g.reverseEdges.map Prod.fst).filter
          (fun v => decide (v ∉ orderF)),
          ∃ y ∈ (g.reverseEdges.map Prod.fst).filter
            (fun v => decide (v ∉ orderF)), CtrlStep g y x := by
        intro x hx
        rw [List.mem_filter] at hx
        obtain ⟨hxK', hxno⟩ := hx
        have hxnotO : x ∉ orderF := by simpa using hxno
        have hxK : dictHas g.reverseEdges x = true :=
          (dictHas_iff_mem_keys _ x).2 hxK'
        have h2 : ¬ ((¬ ∃ p, CtrlStep g p x) ∨
            ∃ p, CtrlStep g p x ∧ p ∈ orderF) :=
          fun hr => hxnotO ((hmemF x hxK).2 hr)
        push_neg at h2
        obtain ⟨h3, h4⟩ := h2
        obtain ⟨p, hp⟩ := h3
        have hpno : p ∉ orderF := h4 p hp
        have hpK : dictHas g.reverseEdges p = true :=
          ctrlStep_src_has g hkeys hp
        refine ⟨p, ?_, hp⟩
        rw [List.mem_filter]
        exact ⟨(dictHas_iff_mem_keys _ p).1 hpK, by simpa using hpno⟩
      obtain ⟨x, hxM, hcyc⟩ := exists_cycle_of_total_pred (CtrlStep g) _
        hMne hpred
      exact hacy x hcyc
    have hcov : ∀ v ∈ g.reverseEdges.map Prod.fst, v ∈ orderF := by
      intro v hv
      have := List.filter_eq_nil.1 hM v hv
      simpa using this
    have hsub2 : (g.reverseEdges.map Prod.fst).toFinset ⊆
        orderF.toFinset := by
      intro v hv
      exact List.mem_toFinset.2 (hcov v (List.mem_toFinset.1 hv))
    have hset_eq : orderF.toFinset =
        (g.reverseEdges.map Prod.fst).toFinset :=
      Finset.Subset.antisymm hsubset hsub2
    have hc1 := List.toFinset_card_of_nodup hndF
    have hc2 := List.toFinset_card_of_nodup hndr
    rw [hset_eq] at hc1
    have l1 : (g.reverseEdges.map Prod.fst).length =
        g.reverseEdges.length := List.length_map _ _
    omega

theorem gC1_step (a b : String) (h : NonLoopTailCtrl gC1 a b) :
    a = "t" ∧ b = "w" := by
  obtain ⟨sp, ⟨l, hl, hmem⟩, hnot⟩ := h
  by_cases hw : "w" = a
  · rw [← hw] at hl
    rw [show dictGet gC1.edges "w" = some [⟨"t", 2, 0⟩] from rfl] at hl
    obtain rfl := Option.some.inj hl
    rw [List.mem_singleton] at hmem
    have hsp : sp = 2 := congrArg OutgoingEdge.source_port hmem
    exfalso
    refine hnot ⟨hsp, ?_⟩
    rw [← hw]
    exact ⟨⟨"w", "While 循环", .whileLoop,
      [("expression", .expr (.constBool false)),
       ("max_iterations", .int 1000)]⟩, rfl, rfl⟩
  · by_cases ht : "t" = a
    · rw [← ht] at hl
      rw [show dictGet gC1.edges "t" = some [⟨"w", 0, 0⟩] from rfl] at hl
      obtain rfl := Option.some.inj hl
      rw [List.mem_singleton] at hmem
      exact ⟨ht.symm, congrArg OutgoingEdge.target hmem⟩
    · have hnone : dictGet gC1.edges a = none := by
        rw [show gC1.edges = [("w", [⟨"t", 2, 0⟩]), ("t", [⟨"w", 0, 0⟩])]
          from rfl]
        simp only [dictGet]
        rw [if_neg hw, if_neg ht]
      rw [hnone] at hl
      exact Option.noConfusion hl

/-- C1 counterexample: in `gC1` the control-port edges *excluding* the
recognized loop-tail edge are acyclic (the only remaining edge is
`t → w`), yet `topological_order` fails with the cycle error — the
algorithm walks every control-port edge, loop tails included.  Moreover
`validate()` does not surface this failure as a cycle error: it never
runs the cycle check, and on this graph it reports a missing entry node
instead. -/
theorem C1_loop_tail_exclusion_counterexample :
    (∀ x, ¬ Relation.TransGen (NonLoopTailCtrl gC1) x x) ∧
    topologicalOrder gC1 = Except.error "Workflow contains cycles" ∧
    Relation.TransGen (CtrlStep gC1) "w" "w" ∧
    workflowValidate gC1 =
      Except.error "工作流缺少入口节点，请至少保留一个没有输入连接的节点" := by
  refine ⟨?_, rfl, ?_, rfl⟩
  · intro x hcyc
    obtain ⟨b, hxb, hbx⟩ := Relation.TransGen.tail'_iff.1 hcyc
    obtain ⟨hb, hx⟩ := gC1_step b x hbx
    rw [hx, hb] at hxb
    rcases Relation.ReflTransGen.cases_head hxb with heq | ⟨z, hz, -⟩
    · exact absurd heq (by decide)
    · exact absurd (gC1_step "w" z hz).1 (by decide)
  · have s1 : CtrlStep gC1 "w" "t" := ⟨2, [⟨"t", 2, 0⟩], rfl, by simp⟩
    have s2 : CtrlStep gC1 "t" "w" := ⟨0, [⟨"w", 0, 0⟩], rfl, by simp⟩
    exact Relation.TransGen.head s1 (Relation.TransGen.single s2)

theorem C1_topological_order_cycle_check_witness :
    GraphInv gAB ∧ (gAB.reverseEdges.map Prod.fst).Nodup ∧
    (gAB.nodes.map Prod.fst).Nodup ∧
    ((∃ ord, topologicalOrder gAB = Except.ok ord) ↔
      ∀ x, ¬ Relation.TransGen (CtrlStep gAB) x x) := by
  have h1 : (gAB.reverseEdges.map Prod.fst).Nodup := by
    rw [show gAB.reverseEdges.map Prod.fst = ["a", "b"] from rfl]
    simp
  have h2 : (gAB.nodes.map Prod.fst).Nodup := by
    rw [show gAB.nodes.map Prod.fst = ["a", "b"] from rfl]
    simp
  exact ⟨gAB_inv, h1, h2,
    C1_topological_order_cycle_check gAB gAB_inv h1 h2⟩
